import Mathlib

/-!
# The `tr` pattern engine of `mruby-string-ext` (`src/string.c`)

A shallow embedding of the character-class engine behind `String#tr`, `#tr_s`,
`#squeeze`, `#delete` and `#count`: the pattern parser `tr_parse_pattern`, the two
lookups `tr_find_character` / `tr_get_character`, the bitmap compiler
`tr_compile_pattern`, and the in-place two-cursor loops of `str_tr`, `str_squeeze`,
`str_delete` and `str_count`.

Conventions of the embedding.

* A string buffer is a `List Byte`; `s[i]` is `byteAt s i`, `s[j] = x` is `s.set j x`.
* The type `char` is signed and 8 bits wide, as on x86 and x86-64. The source relies on
  it: `str_squeeze` tests `s[i] >= 0`, `str_tr` tests `c < 0` on a fetched character.
  `charVal b` is the value of a `char` holding the byte `b`.
* Values of type `mrb_int` are unbounded `Int`s; `MRB_INT_MAX` is the 64-bit maximum. The
  `uint16_t` fields `n` and `val.start_pos` are reduced modulo `2^16` where they are
  stored.
* The linked list of `struct tr_pattern` is a `List tr_pattern`; `NULL` is `[]`. The
  union `val` is two groups of fields, each read only under its own `type`.
* A `for` loop runs on a counter of the remaining iterations; the two `while` loops of
  the parser run on fuel, and `tr_parse_loop_parsed` shows the fuel is always enough.
* A spec argument of `str_tr` is a `spec_arg`: the receiver itself, as `tr!` and `tr_s!`
  can pass it, or another string object. The loop reads `RSTRING_PTR(p1)` and
  `RSTRING_PTR(p2)` in every iteration, so a spec that is the receiver is read as the
  loop has rewritten it so far (`spec_buf`).
* A call of `mrb_raise` ends the function: a function that can raise returns `raised`
  (or `none`). Allocation always succeeds, `mrb_str_modify` always grants the buffer.
* The section on the allocation of the pattern nodes repeats the parser and the four
  operations with the allocator as explicit state; there `mrb_malloc_simple` may return
  `NULL`, and the raise of `nomem_err` is one more way to end.
* The section on the two cursors repeats the rewrite loops with a record of what they do
  with `i` and `j`; each is shown to compute what the loop without the record computes.
-/

namespace MrubyStringExt

/-! ## Bytes and C characters -/

/-- A raw byte, `0..255`. -/
abbrev Byte := Fin 256

/-- Value of a (signed) C `char` that holds the byte `b`. -/
def charVal (b : Byte) : Int :=
  if b.val < 128 then (b.val : Int) else (b.val : Int) - 256

/-- The byte stored by a conversion to `char` / `uint8_t`. -/
def byteOfInt (c : Int) : Byte := Fin.ofNat (c % 256).toNat

/-- The byte `pattern[k]` of a buffer (`0` past the end, where the C string has its NUL). -/
def byteAt (buf : List Byte) (k : Nat) : Byte := buf.getD k 0

/-- The `char` value `pattern[k]`. -/
def charAt (buf : List Byte) (k : Nat) : Int := charVal (byteAt buf k)

/-- The byte of `'\\'`. -/
def BACKSLASH : Int := 92
/-- The byte of `'-'`. -/
def DASH : Int := 45
/-- The byte of `'^'`. -/
def CARET : Int := 94

/-- The constant `UINT16_MAX`. -/
def UINT16_MAX : Nat := 65535

/-- The constant `MRB_INT_MAX` for the 64-bit `mrb_int`. -/
def MRB_INT_MAX : Int := 9223372036854775807

/-- The bytes of an ASCII string literal (used for the examples of the documentation). -/
def bytes (str : String) : List Byte := str.toList.map (fun c => Fin.ofNat c.toNat)

/-! ## `struct tr_pattern` -/

/-- The `enum tr_pattern_type`. -/
inductive tr_pattern_type
  | TR_UNINITIALIZED
  | TR_IN_ORDER
  | TR_RANGE
deriving DecidableEq, Repr

open tr_pattern_type

/-- One `struct tr_pattern` node (without its `next` link, which the list carries). -/
structure tr_pattern where
  type : tr_pattern_type
  flag_reverse : Bool
  flag_on_heap : Bool
  /-- The `uint16_t n`. -/
  n : Nat
  /-- The `val.start_pos` (`uint16_t`), meaningful for `TR_IN_ORDER`. -/
  start_pos : Nat
  /-- The `val.ch[0]` (`char`), meaningful for `TR_RANGE`. -/
  ch0 : Int
  /-- The `val.ch[1]` (`char`), meaningful for `TR_RANGE`. -/
  ch1 : Int
deriving DecidableEq, Repr

/-- The initializer `STATIC_TR_PATTERN`, that is `{ 0 }`. -/
def STATIC_TR_PATTERN : tr_pattern :=
  ⟨TR_UNINITIALIZED, false, false, 0, 0, 0, 0⟩

/-- The errors the engine raises. -/
inductive tr_error
  /-- The `E_ARGUMENT_ERROR` with the message "tr pattern too long (max 65535)". -/
  | pattern_too_long
  /-- The `E_ARGUMENT_ERROR` with the message "character (%i) out of range". -/
  | char_out_of_range (c : Int)
deriving DecidableEq, Repr

/-! ## `tr_parse_pattern` -/

/-- The range test of the parser:
`(i+2) < pattern_length && pattern[i] != '\\' && pattern[i+1] == '-'`. -/
def is_range (pattern : List Byte) (i : Nat) : Bool :=
  decide (i + 2 < pattern.length) && decide (charAt pattern i ≠ BACKSLASH)
    && decide (charAt pattern (i + 1) = DASH)

/-- The inner `while (i < pattern_length)` of the in-order branch: advance `i` until a
range is detected at `i` or the pattern ends. -/
def scan_in_order (pattern : List Byte) : Nat → Nat → Nat
  | 0, i => i
  | fuel + 1, i =>
    if i < pattern.length then
      if is_range pattern i then i else scan_in_order pattern fuel (i + 1)
    else i

/-- The tail of the loop body: `if (!ret_uninit) { ...; p->next = pat1; }`. When `ret` is
still uninitialised `pat1` is `ret` itself, so the node is written over it. -/
def link_pattern (ret_uninit : Bool) (ret : List tr_pattern) (pat1 : tr_pattern) :
    List tr_pattern :=
  if ret_uninit then [pat1] else ret ++ [pat1]

/-- The test `ret->type == TR_UNINITIALIZED`. -/
def ret_uninit (ret : List tr_pattern) : Bool :=
  match ret with
  | [] => false
  | p :: _ => decide (p.type = TR_UNINITIALIZED)

/-- The node the range branch fills in at position `i`:
`n = pattern[i+2] - pattern[i] + 1` (stored in a `uint16_t`), `ch = { pattern[i], pattern[i+2] }`. -/
def range_node (pattern : List Byte) (flag_reverse on_heap : Bool) (i : Nat) : tr_pattern :=
  ⟨TR_RANGE, flag_reverse, on_heap,
    ((charAt pattern (i + 2) - charAt pattern i + 1) % 65536).toNat,
    0, charAt pattern i, charAt pattern (i + 2)⟩

/-- The node the in-order branch fills in for the run `start_pos .. i-1`:
`n = (uint16_t)len`, `start_pos = (uint16_t)start_pos`. -/
def in_order_node (flag_reverse on_heap : Bool) (start_pos i : Nat) : tr_pattern :=
  ⟨TR_IN_ORDER, flag_reverse, on_heap, (i - start_pos) % 65536, start_pos % 65536, 0, 0⟩

/-- The outer `while (i < pattern_length)` of `tr_parse_pattern`. `none` is the raise of
"tr pattern too long". -/
def tr_parse_loop (pattern : List Byte) (flag_reverse : Bool) :
    Nat → Nat → List tr_pattern → Option (List tr_pattern)
  | 0, _, ret => some ret
  | fuel + 1, i, ret =>
    if i < pattern.length then
      let uninit := ret_uninit ret
      if is_range pattern i then
        let pat1 := range_node pattern flag_reverse (!uninit) i
        tr_parse_loop pattern flag_reverse fuel (i + 3) (link_pattern uninit ret pat1)
      else
        let start_pos := i
        let i1 := scan_in_order pattern pattern.length (i + 1)
        let len := i1 - start_pos
        if len > UINT16_MAX then none
        else
          let pat1 := in_order_node flag_reverse (!uninit) start_pos i1
          tr_parse_loop pattern flag_reverse fuel i1 (link_pattern uninit ret pat1)
    else some ret

/-- The test that turns on negation:
`flag_reverse_enable && pattern_length >= 2 && pattern[0] == '^'`. -/
def is_reversed (pattern : List Byte) (flag_reverse_enable : Bool) : Bool :=
  flag_reverse_enable && decide (2 ≤ pattern.length) && decide (charAt pattern 0 = CARET)

/-- The function `tr_parse_pattern(mrb, ret, v_pattern, flag_reverse_enable, pat0)`, called
(as everywhere in the source) with `ret` pointing to a fresh `STATIC_TR_PATTERN`.
`none` is the raise of "tr pattern too long". -/
def tr_parse_pattern (pattern : List Byte) (flag_reverse_enable : Bool) :
    Option (List tr_pattern) :=
  let flag_reverse := is_reversed pattern flag_reverse_enable
  let i := if flag_reverse then 1 else 0
  tr_parse_loop pattern flag_reverse pattern.length i [STATIC_TR_PATTERN]

/-! ## `tr_find_character` and `tr_get_character` -/

/-- The `for (int i = 0; i < pat->n; i++)` of the in-order branch of `tr_find_character`. -/
def find_in_order (pat_str : List Byte) (start_pos n : Nat) (n_sum ch ret : Int) : Int :=
  (List.range n).foldl
    (fun (r : Int) (i : Nat) => if charAt pat_str (start_pos + i) = ch then n_sum + i else r) ret

/-- The `while (pat != NULL)` of `tr_find_character`, on the state `(ret, n_sum)`. -/
def tr_find_loop (pat_str : List Byte) (ch : Int) : List tr_pattern → Int → Int → Int
  | [], ret, _ => ret
  | p :: next, ret, n_sum =>
    let ret1 :=
      match p.type with
      | TR_IN_ORDER => find_in_order pat_str p.start_pos p.n n_sum ch ret
      | TR_RANGE => if p.ch0 ≤ ch ∧ ch ≤ p.ch1 then n_sum + ch - p.ch0 else ret
      | TR_UNINITIALIZED => ret
    tr_find_loop pat_str ch next ret1 (n_sum + p.n)

/-- The flag read by `pat ? pat->flag_reverse : 0`. -/
def head_flag_reverse (pat : List tr_pattern) : Bool :=
  match pat with
  | [] => false
  | p :: _ => p.flag_reverse

/-- The function `tr_find_character(pat, pat_str, ch)`. -/
def tr_find_character (pat : List tr_pattern) (pat_str : List Byte) (ch : Int) : Int :=
  let ret := tr_find_loop pat_str ch pat (-1) 0
  if head_flag_reverse pat then (if ret < 0 then MRB_INT_MAX else -1) else ret

/-- The `while (pat != NULL)` of `tr_get_character`, on the state `n_sum`. -/
def tr_get_loop (pat_str : List Byte) (n_th : Int) : List tr_pattern → Int → Int
  | [], _ => -1
  | p :: next, n_sum =>
    if n_th < n_sum + p.n then
      let i := n_th - n_sum
      match p.type with
      | TR_IN_ORDER => charAt pat_str (p.start_pos + i).toNat
      | TR_RANGE => p.ch0 + i
      | TR_UNINITIALIZED => -1
    else if next.isEmpty then
      match p.type with
      | TR_IN_ORDER => charAt pat_str (p.start_pos + p.n - 1)
      | TR_RANGE => p.ch1
      | TR_UNINITIALIZED => -1
    else tr_get_loop pat_str n_th next (n_sum + p.n)

/-- The function `tr_get_character(pat, pat_str, n_th)`. -/
def tr_get_character (pat : List tr_pattern) (pat_str : List Byte) (n_th : Int) : Int :=
  tr_get_loop pat_str n_th pat 0

/-! ## The bitmap -/

/-- The function `tr_bitmap_set(bitmap, ch)`: `bitmap[ch / 8] |= (1 << ch % 8)`. -/
def tr_bitmap_set (bitmap : List Nat) (ch : Byte) : List Nat :=
  bitmap.set (ch.val / 8) (bitmap.getD (ch.val / 8) 0 ||| (1 <<< (ch.val % 8)))

/-- The function `tr_bitmap_detect(bitmap, ch)`: `bitmap[ch / 8] & (1 << ch % 8)`. -/
def tr_bitmap_detect (bitmap : List Nat) (ch : Byte) : Bool :=
  decide (bitmap.getD (ch.val / 8) 0 &&& (1 <<< (ch.val % 8)) ≠ 0)

/-- The `while (pat != NULL)` of `tr_compile_pattern`. -/
def tr_compile_loop (pattern : List Byte) : List tr_pattern → List Nat → List Nat
  | [], bitmap => bitmap
  | p :: next, bitmap =>
    let bitmap1 :=
      match p.type with
      | TR_IN_ORDER =>
        (List.range p.n).foldl
          (fun (bm : List Nat) (i : Nat) =>
            tr_bitmap_set bm (byteAt pattern (p.start_pos + i))) bitmap
      | TR_RANGE =>
        (List.range (p.ch1 - p.ch0).toNat).foldl
          (fun (bm : List Nat) (k : Nat) => tr_bitmap_set bm (byteOfInt (p.ch0 + k))) bitmap
      | TR_UNINITIALIZED => bitmap
    tr_compile_loop pattern next bitmap1

/-- The function `tr_compile_pattern(pat, pstr, bitmap)`; the result is the 32-byte bitmap. -/
def tr_compile_pattern (pat : List tr_pattern) (pstr : List Byte) : List Nat :=
  let bitmap := tr_compile_loop pstr pat (List.replicate 32 0)
  if head_flag_reverse pat then bitmap.map (fun x => x ^^^ 255) else bitmap

/-! ## `str_tr` -/

/-- The statement `if (i>j) s[j] = s[i];` that opens the body of every rewrite loop. -/
def copy_down (s : List Byte) (i j : Nat) : List Byte :=
  if i > j then s.set j (byteAt s i) else s

/-- What a call leaves behind: the string it was given, as the caller sees it afterwards,
and either the returned `flag_changed` or the error raised. -/
inductive str_result
  | returned (buf : List Byte) (changed : Bool)
  | raised (buf : List Byte) (e : tr_error)
deriving DecidableEq, Repr

/-- How a rewrite loop ends: it runs to `i == len` with the buffer `s`, the write cursor
`j` and `flag_changed`, or it raises on the replacement `c` with the buffer as it is. -/
inductive loop_result
  | done (s : List Byte) (j : Nat) (flag_changed : Bool)
  | out_of_range (s : List Byte) (c : Int)
deriving DecidableEq, Repr

/-- A spec argument of `str_tr`, as the object it is: the receiver `str` itself (as in
`s.tr!(s, "x")`), or a string object other than the receiver, with its bytes. The callers
`str_tr_m` and `str_tr_s` work on a fresh `mrb_str_dup` of the receiver, so their specs
are always `other`; `str_tr_bang` and `str_tr_s_bang` pass the receiver on. -/
inductive spec_arg
  | receiver
  | other (p : List Byte)
deriving DecidableEq, Repr

/-- The bytes `RSTRING_PTR(p)` of a spec argument at a moment when the buffer of the
receiver holds `s`: that buffer itself when the argument is the receiver. -/
def spec_buf : spec_arg → List Byte → List Byte
  | spec_arg.receiver, s => s
  | spec_arg.other p, _ => p

/-- The `for (i=j=0; i<len; i++,j++)` of `str_tr`, on the state
`(i, j, s, lastch, flag_changed)`; the first argument counts the iterations left.
`j--; continue;` followed by the loop's `j++` leaves `j` as it is. The two lookups read
`RSTRING_PTR(p1)` and `RSTRING_PTR(p2)` anew in every iteration: `tr_find_character`
before the store `s[j] = s[i]`, `tr_get_character` after it. -/
def str_tr_loop (pat rep : List tr_pattern) (p1 p2 : spec_arg) (squeeze : Bool) :
    Nat → Nat → Nat → List Byte → Int → Bool → loop_result
  | 0, _, j, s, _, flag_changed => loop_result.done s j flag_changed
  | left + 1, i, j, s, lastch, flag_changed =>
    let n := tr_find_character pat (spec_buf p1 s) (charAt s i)
    let s1 := copy_down s i j
    if n ≥ 0 then
      let c := tr_get_character rep (spec_buf p2 s1) n
      if c < 0 ∨ (squeeze = true ∧ c = lastch) then
        str_tr_loop pat rep p1 p2 squeeze left (i + 1) j s1 lastch true
      else if c > 128 then loop_result.out_of_range s1 c
      else
        str_tr_loop pat rep p1 p2 squeeze left (i + 1) (j + 1) (s1.set i (byteOfInt c)) c true
    else str_tr_loop pat rep p1 p2 squeeze left (i + 1) (j + 1) s1 lastch flag_changed

/-- The function `str_tr(mrb, str, p1, p2, squeeze)`: the transliteration of `str` in
place, `transliterate` in the specification. The two specs are parsed from the bytes
they hold when the call starts. -/
def str_tr (str : List Byte) (p1 p2 : spec_arg) (squeeze : Bool) : str_result :=
  match tr_parse_pattern (spec_buf p1 str) true with
  | none => str_result.raised str tr_error.pattern_too_long
  | some pat =>
    match tr_parse_pattern (spec_buf p2 str) false with
    | none => str_result.raised str tr_error.pattern_too_long
    | some rep =>
      match str_tr_loop pat rep p1 p2 squeeze str.length 0 0 str (-1) false with
      | loop_result.out_of_range s c => str_result.raised s (tr_error.char_out_of_range c)
      | loop_result.done s j flag_changed =>
        if flag_changed then str_result.returned (s.take j) true
        else str_result.returned s false

/-! ## `str_squeeze` -/

/-- The loop of `str_squeeze` under `if (pat)`, on the state `(i, j, s, lastch, flag_changed)`. -/
def str_squeeze_loop_pat (bitmap : List Nat) :
    Nat → Nat → Nat → List Byte → Int → Bool → List Byte × Nat × Bool
  | 0, _, j, s, _, flag_changed => (s, j, flag_changed)
  | left + 1, i, j, s, lastch, flag_changed =>
    let s1 := copy_down s i j
    if tr_bitmap_detect bitmap (byteAt s1 i) ∧ charAt s1 i = lastch then
      str_squeeze_loop_pat bitmap left (i + 1) j s1 (charAt s1 i) true
    else str_squeeze_loop_pat bitmap left (i + 1) (j + 1) s1 (charAt s1 i) flag_changed

/-- The loop of `str_squeeze` under `else` (no pattern given). -/
def str_squeeze_loop_all :
    Nat → Nat → Nat → List Byte → Int → Bool → List Byte × Nat × Bool
  | 0, _, j, s, _, flag_changed => (s, j, flag_changed)
  | left + 1, i, j, s, lastch, flag_changed =>
    let s1 := copy_down s i j
    if charAt s1 i ≥ 0 ∧ charAt s1 i = lastch then
      str_squeeze_loop_all left (i + 1) j s1 (charAt s1 i) true
    else str_squeeze_loop_all left (i + 1) (j + 1) s1 (charAt s1 i) flag_changed

/-- The end of the three rewriting functions:
`if (flag_changed) { RSTR_SET_LEN(RSTRING(str), j); ... } return flag_changed;`. -/
def set_len_if_changed (r : List Byte × Nat × Bool) : str_result :=
  if r.2.2 then str_result.returned (r.1.take r.2.1) true else str_result.returned r.1 false

/-- The function `str_squeeze(mrb, str, v_pat)`, `squeezeRuns` in the specification;
`v_pat = none` is the nil of a call without argument. -/
def str_squeeze (str : List Byte) (v_pat : Option (List Byte)) : str_result :=
  match v_pat with
  | some p =>
    match tr_parse_pattern p true with
    | none => str_result.raised str tr_error.pattern_too_long
    | some pat =>
      let bitmap := tr_compile_pattern pat p
      set_len_if_changed (str_squeeze_loop_pat bitmap str.length 0 0 str (-1) false)
  | none => set_len_if_changed (str_squeeze_loop_all str.length 0 0 str (-1) false)

/-! ## `str_delete` and `str_count` -/

/-- The loop of `str_delete`, on the state `(i, j, s, flag_changed)`. -/
def str_delete_loop (bitmap : List Nat) :
    Nat → Nat → Nat → List Byte → Bool → List Byte × Nat × Bool
  | 0, _, j, s, flag_changed => (s, j, flag_changed)
  | left + 1, i, j, s, flag_changed =>
    let s1 := copy_down s i j
    if tr_bitmap_detect bitmap (byteAt s1 i) then
      str_delete_loop bitmap left (i + 1) j s1 true
    else str_delete_loop bitmap left (i + 1) (j + 1) s1 flag_changed

/-- The function `str_delete(mrb, str, v_pat)`, `deleteMembers` in the specification. -/
def str_delete (str v_pat : List Byte) : str_result :=
  match tr_parse_pattern v_pat true with
  | none => str_result.raised str tr_error.pattern_too_long
  | some pat =>
    let bitmap := tr_compile_pattern pat v_pat
    set_len_if_changed (str_delete_loop bitmap str.length 0 0 str false)

/-- The loop of `str_count`, on the state `(i, count)`. -/
def str_count_loop (bitmap : List Nat) (s : List Byte) : Nat → Nat → Nat → Nat
  | 0, _, count => count
  | left + 1, i, count =>
    str_count_loop bitmap s left (i + 1)
      (if tr_bitmap_detect bitmap (byteAt s i) then count + 1 else count)

/-- The function `str_count(mrb, str)` with its argument `v_pat`, `countMembers` in the
specification; `none` is the raise of "tr pattern too long". -/
def str_count (str v_pat : List Byte) : Option Nat :=
  match tr_parse_pattern v_pat true with
  | none => none
  | some pat =>
    let bitmap := tr_compile_pattern pat v_pat
    some (str_count_loop bitmap str str.length 0 0)

/-! ## Reference definitions, following the specification -/

/-- The buffer a call leaves behind. -/
def result_buf : str_result → List Byte
  | str_result.returned buf _ => buf
  | str_result.raised buf _ => buf

/-- One unit of a spec in the mini-language: a byte of a literal run, or a range `lo-hi`. -/
inductive spec_item
  | lit (b : Byte)
  | range (lo hi : Byte)
deriving DecidableEq, Repr

/-- The grammar of the specification (section 4.1), read left to right: at each position a
range is taken when the next byte is `-`, a third byte exists and the byte at the position is
not the escape byte; otherwise the byte is a literal of a run. -/
def spec_items : List Byte → List spec_item
  | [] => []
  | [a] => [spec_item.lit a]
  | [a, b] => [spec_item.lit a, spec_item.lit b]
  | lo :: m :: hi :: rest =>
    if lo.val ≠ 92 ∧ m.val = 45 then spec_item.range lo hi :: spec_items rest
    else spec_item.lit lo :: spec_items (m :: hi :: rest)

/-- The bytes `lo..hi`, both ends included (none when `hi < lo`). -/
def range_bytes (lo hi : Byte) : List Byte :=
  (List.range (hi.val + 1 - lo.val)).map (fun k => Fin.ofNat (lo.val + k))

/-- The bytes one item contributes to the logical flattening. -/
def flatten_item : spec_item → List Byte
  | spec_item.lit b => [b]
  | spec_item.range lo hi => range_bytes lo hi

/-- The logical flattening of a spec (without a negation mark): runs byte by byte, a range
`lo-hi` as `lo..hi`. -/
def flatten (spec : List Byte) : List Byte :=
  (spec_items spec).flatMap flatten_item

/-- An item that is a range `lo-hi` has `lo <= hi`. -/
def item_ordered : spec_item → Bool
  | spec_item.lit _ => true
  | spec_item.range lo hi => decide (lo ≤ hi)

/-- Every range of the spec is written `lo-hi` with `lo <= hi`. -/
def ranges_ordered (spec : List Byte) : Prop :=
  (spec_items spec).all item_ordered = true

instance (spec : List Byte) : Decidable (ranges_ordered spec) :=
  inferInstanceAs (Decidable ((spec_items spec).all item_ordered = true))

/-- Every byte of the spec is below `0x80`. -/
def ascii (spec : List Byte) : Prop :=
  spec.all (fun b => decide (b.val < 128)) = true

instance (spec : List Byte) : Decidable (ascii spec) :=
  inferInstanceAs (Decidable (spec.all (fun b => decide (b.val < 128)) = true))

/-- The last index at which `x` occurs in `l`, if it occurs. -/
def last_index {α : Type} [DecidableEq α] (x : α) : List α → Option Nat
  | [] => none
  | y :: ys =>
    match last_index x ys with
    | some k => some (k + 1)
    | none => if y = x then some 0 else none

/-- The mapping of `tr` as the specification words it: a byte that does not occur in
`flatten(F)` stays, a byte whose last index in `flatten(F)` is `k` becomes
`flatten(T)[min(k, |flatten(T)| - 1)]`. -/
def tr_ref (F T : List Byte) (b : Byte) : Byte :=
  match last_index b (flatten F) with
  | none => b
  | some k => (flatten T).getD (min k ((flatten T).length - 1)) 0

/-- The mapping of `tr` with a negated from-spec `^X`, as the specification words it: a
byte of the literal set of `X` stays, every other byte becomes the last character of
`flatten(T)`. -/
def tr_neg_ref (X T : List Byte) (b : Byte) : Byte :=
  if b ∈ flatten X then b else (flatten T).getD ((flatten T).length - 1) 0

/-- The characters one node stands for, in ordinal order: the bytes of the run, or
`ch[0] .. ch[1]`. -/
def node_chars (pat_str : List Byte) (q : tr_pattern) : List Int :=
  match q.type with
  | TR_IN_ORDER => (List.range q.n).map (fun (i : Nat) => charAt pat_str (q.start_pos + i))
  | TR_RANGE => (List.range (q.ch1 - q.ch0 + 1).toNat).map (fun (i : Nat) => q.ch0 + (i : Int))
  | TR_UNINITIALIZED => []

/-- The characters a list of nodes stands for. -/
def expand (pat_str : List Byte) (pat : List tr_pattern) : List Int :=
  pat.flatMap (node_chars pat_str)

/-- The count `n` of the node is the number of characters it stands for. -/
def count_ok (pat_str : List Byte) (q : tr_pattern) : Prop :=
  q.n = (node_chars pat_str q).length

/-- The membership bitmap the engine compiles from a parsed spec, as a predicate on bytes. -/
def bitmap_member (pat : List tr_pattern) (spec : List Byte) (b : Byte) : Bool :=
  tr_bitmap_detect (tr_compile_pattern pat spec) b

/-- The byte `b` is matched by the value lookup against the parsed from-spec. -/
def matched (pat : List tr_pattern) (p1 : List Byte) (b : Byte) : Bool :=
  decide (0 ≤ tr_find_character pat p1 (charVal b))

/-- The reference compaction of `squeeze`: scan left to right and drop a byte exactly when
it is subject to squeezing and equals the byte most recently kept (`last`). A dropped byte
equals the byte kept before it, so `last` is also the immediate predecessor in the input. -/
def squeeze_ref (subject : Byte → Bool) : Option Byte → List Byte → List Byte
  | _, [] => []
  | last, x :: xs =>
    if subject x = true ∧ last = some x then squeeze_ref subject last xs
    else x :: squeeze_ref subject (some x) xs

/-- The list `l` without every byte that is subject to squeezing and equals its immediate
predecessor in `l` (`prev` is the byte before the head, if any). -/
def remove_repeated (subject : Byte → Bool) : Option Byte → List Byte → List Byte
  | _, [] => []
  | prev, x :: xs =>
    if subject x = true ∧ prev = some x then remove_repeated subject (some x) xs
    else x :: remove_repeated subject (some x) xs

/-- The loops of `str_squeeze` as a function on lists: the byte `x` is dropped when it is
subject to squeezing and its `char` value equals `lastch`, which then becomes that value. -/
def squeeze_model (subject : Byte → Bool) : Int → List Byte → List Byte
  | _, [] => []
  | lastch, x :: xs =>
    if subject x = true ∧ charVal x = lastch then squeeze_model subject (charVal x) xs
    else x :: squeeze_model subject (charVal x) xs

/-- The value of `lastch` after the byte `last` was read (`-1` before the first byte). -/
def lastch_of : Option Byte → Int
  | none => -1
  | some b => charVal b

/-- The list of nodes a complete scan of `pattern` from position `i` produces, step by
step as the parser takes them; `on_heap` is the `flag_on_heap` of the first node (only the
very first node of a parse lives in the caller's storage). A run ends at the first later
position `i1` where a range is detected, or at the end of the pattern. -/
inductive Parsed (pattern : List Byte) (flag_reverse : Bool) :
    Nat → Bool → List tr_pattern → Prop
  | done (i : Nat) (on_heap : Bool) (h : pattern.length ≤ i) :
      Parsed pattern flag_reverse i on_heap []
  | range (i : Nat) (on_heap : Bool) (rest : List tr_pattern) (h : i < pattern.length)
      (hr : is_range pattern i = true) (hrest : Parsed pattern flag_reverse (i + 3) true rest) :
      Parsed pattern flag_reverse i on_heap (range_node pattern flag_reverse on_heap i :: rest)
  | run (i i1 : Nat) (on_heap : Bool) (rest : List tr_pattern) (h : i < pattern.length)
      (hr : is_range pattern i = false) (h1 : i < i1) (h2 : i1 ≤ pattern.length)
      (hmid : ∀ k, i < k → k < i1 → is_range pattern k = false)
      (hend : i1 < pattern.length → is_range pattern i1 = true)
      (hlen : i1 - i ≤ UINT16_MAX) (hrest : Parsed pattern flag_reverse i1 true rest) :
      Parsed pattern flag_reverse i on_heap (in_order_node flag_reverse on_heap i i1 :: rest)

/-- The list `ret` points to once the nodes `acc` have been linked: the caller's storage,
still uninitialised, when there is none. -/
def ret_of (acc : List tr_pattern) : List tr_pattern :=
  if acc = [] then [STATIC_TR_PATTERN] else acc

/-- The count of a range node whose ends are in order is `ch[1] - ch[0] + 1`. -/
def range_ok (q : tr_pattern) : Prop :=
  q.type = TR_RANGE → q.ch0 ≤ q.ch1 → (q.n : Int) = q.ch1 - q.ch0 + 1

/-- The change flag of a compaction of `s` is exact: the buffer returned is `s` with some
bytes dropped, `changed` is reported exactly when at least one byte was dropped, that is
exactly when the buffer is shorter than `s`, that is exactly when it differs from `s`;
a call that raises leaves `s` as it is. -/
def change_flag_exact (s : List Byte) : str_result → Prop
  | str_result.returned buf changed =>
    buf.Sublist s ∧ (changed = true ↔ buf.length < s.length) ∧
      (changed = true ↔ buf ≠ s) ∧ (changed = false → buf = s ∧ buf.length = s.length)
  | str_result.raised buf _ => buf = s

/-- The replacement of the byte `b`: what `tr_get_character` fetches from the to-spec at
the ordinal `tr_find_character` found for `b` in the from-spec. -/
def replacement (pat rep : List tr_pattern) (p1 p2 : List Byte) (b : Byte) : Int :=
  tr_get_character rep p2 (tr_find_character pat p1 (charVal b))

/-- The byte `b` is matched by the from-spec and its replacement is above `0x80`. -/
def replaced_out_of_range (pat rep : List tr_pattern) (p1 p2 : List Byte) (b : Byte) : Bool :=
  matched pat p1 b && decide (128 < replacement pat rep p1 p2 b)

/-- The lengths of the maximal runs of literal items, in order; `acc` is the length of the
run being read. -/
def run_lengths_from : Nat → List spec_item → List Nat
  | acc, [] => if acc = 0 then [] else [acc]
  | acc, spec_item.lit _ :: rest => run_lengths_from (acc + 1) rest
  | acc, spec_item.range _ _ :: rest =>
    (if acc = 0 then [] else [acc]) ++ run_lengths_from 0 rest

/-- The lengths of the maximal in-order runs of a list of items. -/
def run_lengths (items : List spec_item) : List Nat := run_lengths_from 0 items

/-- The part of a spec the grammar is read on: the spec without its negation mark. -/
def spec_body (spec : List Byte) (flag_reverse_enable : Bool) : List Byte :=
  spec.drop (if is_reversed spec flag_reverse_enable then 1 else 0)

/-- The counts of the in-order nodes of a pattern set, in order. -/
def in_order_counts (pat : List tr_pattern) : List Nat :=
  (pat.filter (fun q => decide (q.type = TR_IN_ORDER))).map (fun q => q.n)

/-- The positions the scanner tests for a range when it starts at `i`: `i` itself, then the
positions tested from `i + 3` after a range detected at `i`, or from `i + 1` after a byte
that starts none. -/
inductive Tested (pattern : List Byte) : Nat → Nat → Prop
  | here (i : Nat) (h : i < pattern.length) : Tested pattern i i
  | after_range (i k : Nat) (h : i < pattern.length) (hr : is_range pattern i = true)
      (ht : Tested pattern (i + 3) k) : Tested pattern i k
  | after_byte (i k : Nat) (h : i < pattern.length) (hr : is_range pattern i = false)
      (ht : Tested pattern (i + 1) k) : Tested pattern i k

/-! ## Allocation of the pattern nodes -/

/-- The allocator, as far as the nodes go: the addresses handed out and not yet freed,
the next fresh address, whether `mrb_free` was ever called on an address that is not
allocated (a double free, or the free of a node that is not on the heap), and the
addresses at which `mrb_malloc_simple` will find no memory and return `NULL`. -/
structure heap where
  live : List Nat
  next : Nat
  bad_free : Bool
  fails : List Nat
deriving DecidableEq, Repr

/-- The call `mrb_malloc_simple(mrb, sizeof(struct tr_pattern))`: a fresh address, or
`none` for `NULL`. -/
def mrb_malloc_simple (h : heap) : Option Nat × heap :=
  if h.next ∈ h.fails then (none, ⟨h.live, h.next + 1, h.bad_free, h.fails⟩)
  else (some h.next, ⟨h.next :: h.live, h.next + 1, h.bad_free, h.fails⟩)

/-- The call `mrb_free(mrb, p)` for the node at address `a`. -/
def mrb_free (h : heap) (a : Nat) : heap :=
  if a ∈ h.live then ⟨h.live.erase a, h.next, h.bad_free, h.fails⟩
  else ⟨h.live, h.next, true, h.fails⟩

/-- A node of the linked list together with where it lives: `some a` for the heap address
`a`, `none` for the storage of the caller (`STATIC_TR_PATTERN`). -/
abbrev node_ref := Option Nat × tr_pattern

/-- The function `tr_free_pattern(mrb, pat)`: every node with `flag_on_heap` is freed. -/
def tr_free_pattern : List node_ref → heap → heap
  | [], h => h
  | r :: next, h =>
    tr_free_pattern next
      (if r.2.flag_on_heap then
        (match r.1 with
          | some a => mrb_free h a
          | none => ⟨h.live, h.next, true, h.fails⟩)
      else h)

/-- The choice `pat1 = ret_uninit ? ret : mrb_malloc_simple(...)`: `none` is `NULL`,
`some none` is `ret` itself, `some (some a)` is the fresh block at address `a`. -/
def alloc_pat1 (uninit : Bool) (h : heap) : Option (Option Nat) × heap :=
  if uninit then (some none, h)
  else
    match mrb_malloc_simple h with
    | (some a, h1) => (some (some a), h1)
    | (none, h1) => (none, h1)

/-- The linking of `pat1` at the end of the loop body, on nodes with their addresses. -/
def link_ref (uninit : Bool) (ret : List node_ref) (r : node_ref) : List node_ref :=
  if uninit then [r] else ret ++ [r]

/-- How `tr_parse_pattern` ends: it returns the set, or raises "tr pattern too long", or
raises `nomem_err`. -/
inductive parse_result
  | parsed (ret : List node_ref)
  | too_long
  | nomem
deriving DecidableEq, Repr

/-- The loop of `tr_parse_pattern` with its allocations and its releases: when `pat1` is
`NULL`, `tr_free_pattern(pat0)` and `tr_free_pattern(ret)`; on the raise of "tr pattern
too long" these two and, when `pat1` is not `ret` itself, `mrb_free(pat1)`. -/
def tr_parse_loop_h (pattern : List Byte) (flag_reverse : Bool) (pat0 : List node_ref) :
    Nat → Nat → List node_ref → heap → parse_result × heap
  | 0, _, ret, h => (parse_result.parsed ret, h)
  | fuel + 1, i, ret, h =>
    if i < pattern.length then
      let uninit := ret_uninit (ret.map Prod.snd)
      match alloc_pat1 uninit h with
      | (none, h1) =>
        (parse_result.nomem, tr_free_pattern ret (tr_free_pattern pat0 h1))
      | (some addr, h1) =>
        if is_range pattern i then
          let pat1 := range_node pattern flag_reverse (!uninit) i
          tr_parse_loop_h pattern flag_reverse pat0 fuel (i + 3)
            (link_ref uninit ret (addr, pat1)) h1
        else
          let start_pos := i
          let i1 := scan_in_order pattern pattern.length (i + 1)
          let len := i1 - start_pos
          if len > UINT16_MAX then
            let h2 := tr_free_pattern pat0 h1
            let h3 := tr_free_pattern ret h2
            (parse_result.too_long,
              match addr with
              | some a => mrb_free h3 a
              | none => h3)
          else
            let pat1 := in_order_node flag_reverse (!uninit) start_pos i1
            tr_parse_loop_h pattern flag_reverse pat0 fuel i1
              (link_ref uninit ret (addr, pat1)) h1
    else (parse_result.parsed ret, h)

/-- The function `tr_parse_pattern(mrb, ret, v_pattern, flag_reverse_enable, pat0)` with
its allocations; `ret` is the caller's `STATIC_TR_PATTERN`. -/
def tr_parse_pattern_h (pattern : List Byte) (flag_reverse_enable : Bool)
    (pat0 : List node_ref) (h : heap) : parse_result × heap :=
  tr_parse_loop_h pattern (is_reversed pattern flag_reverse_enable) pat0 pattern.length
    (if is_reversed pattern flag_reverse_enable then 1 else 0) [(none, STATIC_TR_PATTERN)] h

/-- How an operation ends once allocation can fail: as the operation without the
allocator does, or with the raise of `nomem_err`. -/
inductive alloc_result (α : Type)
  | ok (r : α)
  | nomem
deriving DecidableEq, Repr

/-- The function `str_tr` with the allocations and releases of its two pattern sets. -/
def str_tr_h (str : List Byte) (p1 p2 : spec_arg) (squeeze : Bool) (h : heap) :
    alloc_result str_result × heap :=
  match tr_parse_pattern_h (spec_buf p1 str) true [] h with
  | (parse_result.nomem, h1) => (alloc_result.nomem, h1)
  | (parse_result.too_long, h1) =>
    (alloc_result.ok (str_result.raised str tr_error.pattern_too_long), h1)
  | (parse_result.parsed pat, h1) =>
    match tr_parse_pattern_h (spec_buf p2 str) false pat h1 with
    | (parse_result.nomem, h2) => (alloc_result.nomem, h2)
    | (parse_result.too_long, h2) =>
      (alloc_result.ok (str_result.raised str tr_error.pattern_too_long), h2)
    | (parse_result.parsed rep, h2) =>
      match str_tr_loop (pat.map Prod.snd) (rep.map Prod.snd) p1 p2 squeeze
          str.length 0 0 str (-1) false with
      | loop_result.out_of_range s c =>
        (alloc_result.ok (str_result.raised s (tr_error.char_out_of_range c)),
          tr_free_pattern rep (tr_free_pattern pat h2))
      | loop_result.done s j flag_changed =>
        (alloc_result.ok
            (if flag_changed then str_result.returned (s.take j) true
              else str_result.returned s false),
          tr_free_pattern rep (tr_free_pattern pat h2))

/-- The function `str_squeeze` with the allocations and releases of its pattern set. -/
def str_squeeze_h (str : List Byte) (v_pat : Option (List Byte)) (h : heap) :
    alloc_result str_result × heap :=
  match v_pat with
  | some p =>
    match tr_parse_pattern_h p true [] h with
    | (parse_result.nomem, h1) => (alloc_result.nomem, h1)
    | (parse_result.too_long, h1) =>
      (alloc_result.ok (str_result.raised str tr_error.pattern_too_long), h1)
    | (parse_result.parsed pat, h1) =>
      let bitmap := tr_compile_pattern (pat.map Prod.snd) p
      (alloc_result.ok
          (set_len_if_changed (str_squeeze_loop_pat bitmap str.length 0 0 str (-1) false)),
        tr_free_pattern pat h1)
  | none =>
    (alloc_result.ok (set_len_if_changed (str_squeeze_loop_all str.length 0 0 str (-1) false)),
      h)

/-- The function `str_delete` with the allocations and releases of its pattern set. -/
def str_delete_h (str v_pat : List Byte) (h : heap) : alloc_result str_result × heap :=
  match tr_parse_pattern_h v_pat true [] h with
  | (parse_result.nomem, h1) => (alloc_result.nomem, h1)
  | (parse_result.too_long, h1) =>
    (alloc_result.ok (str_result.raised str tr_error.pattern_too_long), h1)
  | (parse_result.parsed pat, h1) =>
    let bitmap := tr_compile_pattern (pat.map Prod.snd) v_pat
    (alloc_result.ok (set_len_if_changed (str_delete_loop bitmap str.length 0 0 str false)),
      tr_free_pattern pat h1)

/-- The function `str_count` with the allocations and releases of its pattern set. -/
def str_count_h (str v_pat : List Byte) (h : heap) : alloc_result (Option Nat) × heap :=
  match tr_parse_pattern_h v_pat true [] h with
  | (parse_result.nomem, h1) => (alloc_result.nomem, h1)
  | (parse_result.too_long, h1) => (alloc_result.ok none, h1)
  | (parse_result.parsed pat, h1) =>
    let bitmap := tr_compile_pattern (pat.map Prod.snd) v_pat
    (alloc_result.ok (some (str_count_loop bitmap str str.length 0 0)), tr_free_pattern pat h1)

/-- The heap addresses of the nodes of a list that `tr_free_pattern` will free. -/
def heap_addrs (l : List node_ref) : List Nat :=
  l.filterMap (fun r => if r.2.flag_on_heap then r.1 else none)

/-- Every node of the list lives where its `flag_on_heap` says. -/
def nodes_wf (l : List node_ref) : Prop :=
  ∀ r ∈ l, r.2.flag_on_heap = r.1.isSome

/-- The state of the allocator while the sets `pat0` and `ret` are held: on top of the
blocks `base` that were allocated before the call, exactly the heap nodes of the two
sets are allocated, each once. -/
structure heap_inv (base : List Nat) (pat0 ret : List node_ref) (h : heap) : Prop where
  wf0 : nodes_wf pat0
  wf1 : nodes_wf ret
  uninit : ret_uninit (ret.map Prod.snd) = true → heap_addrs ret = []
  no_bad : h.bad_free = false
  below : ∀ a ∈ h.live, a < h.next
  nodup : (heap_addrs pat0 ++ heap_addrs ret).Nodup
  held : ∃ fresh, h.live = fresh ++ base ∧ fresh.Nodup ∧
    ∀ a, a ∈ fresh ↔ a ∈ heap_addrs pat0 ++ heap_addrs ret

/-- What a parse leaves behind, against the nodes `plain` of the parser without the
allocator and the failing addresses `fails` of the allocator before the call: on return
the same nodes, with exactly the heap nodes of `pat0` and of the result allocated on top
of `base`; on both raises nothing but `base` allocated and no wrong free; and `nomem_err`
only if the allocator can fail. -/
def parse_post (base : List Nat) (pat0 : List node_ref) (plain : Option (List tr_pattern))
    (fails : List Nat) : parse_result × heap → Prop
  | (parse_result.parsed ret1, h1) =>
    plain = some (ret1.map Prod.snd) ∧ heap_inv base pat0 ret1 h1 ∧ h1.fails = fails
  | (parse_result.too_long, h1) => plain = none ∧ h1.live = base ∧ h1.bad_free = false
  | (parse_result.nomem, h1) => h1.live = base ∧ h1.bad_free = false ∧ fails ≠ []

/-- What an operation owes the allocator, for the heap `h` it started from, the result
`plain` of the operation without the allocator and the outcome `r`: the blocks allocated
are those of `h`, no free went wrong, and the result is `plain` unless `nomem_err` was
raised, which takes an allocator that can fail. -/
def released {α : Type} (h : heap) (plain : α) (r : alloc_result α × heap) : Prop :=
  r.2.live = h.live ∧ r.2.bad_free = false ∧
    (r.1 = alloc_result.ok plain ∨ (r.1 = alloc_result.nomem ∧ h.fails ≠ []))

/-! ## The two cursors of the rewrite loops -/

/-- What a rewrite loop does with its cursors, as a record kept next to it: `iter i j` is
the start of an iteration with the read cursor `i` and the write cursor `j`, `write k i` is
a store to `s[k]` in the iteration that reads `s[i]`, `drop i` is the `j--` that drops
the byte read at `i`. The write cursor is an `mrb_int`, so it is recorded as an integer. -/
inductive cursor_event
  | iter (i : Nat) (j : Int)
  | write (k : Int) (i : Nat)
  | drop (i : Nat)
deriving DecidableEq, Repr

/-- The store `if (i>j) s[j] = s[i];` as a record. -/
def copy_down_event (i j : Nat) (jg : Int) : List cursor_event :=
  if i > j then [cursor_event.write jg i] else []

/-- The loop of `str_tr` with the record of its cursors; `jg` is the write cursor as the
source counts it (`j--` on a drop, `j++` at the end of every iteration). The result is
that of the loop, the record, and the last value of the write cursor. -/
def str_tr_loop_ghost (pat rep : List tr_pattern) (p1 p2 : spec_arg) (squeeze : Bool) :
    Nat → Nat → Nat → Int → List Byte → Int → Bool → loop_result × List cursor_event × Int
  | 0, _, j, jg, s, _, flag_changed => (loop_result.done s j flag_changed, [], jg)
  | left + 1, i, j, jg, s, lastch, flag_changed =>
    let n := tr_find_character pat (spec_buf p1 s) (charAt s i)
    let s1 := copy_down s i j
    if n ≥ 0 then
      let c := tr_get_character rep (spec_buf p2 s1) n
      if c < 0 ∨ (squeeze = true ∧ c = lastch) then
        let r := str_tr_loop_ghost pat rep p1 p2 squeeze left (i + 1) j (jg - 1 + 1) s1 lastch true
        (r.1, cursor_event.iter i jg :: copy_down_event i j jg ++ cursor_event.drop i :: r.2.1,
          r.2.2)
      else if c > 128 then
        (loop_result.out_of_range s1 c, cursor_event.iter i jg :: copy_down_event i j jg, jg)
      else
        let r := str_tr_loop_ghost pat rep p1 p2 squeeze left (i + 1) (j + 1) (jg + 1)
          (s1.set i (byteOfInt c)) c true
        (r.1, cursor_event.iter i jg :: copy_down_event i j jg
            ++ cursor_event.write (i : Int) i :: r.2.1,
          r.2.2)
    else
      let r := str_tr_loop_ghost pat rep p1 p2 squeeze left (i + 1) (j + 1) (jg + 1) s1 lastch
        flag_changed
      (r.1, cursor_event.iter i jg :: copy_down_event i j jg ++ r.2.1, r.2.2)

/-- The loop of `str_squeeze` under `if (pat)` with the record of its cursors. -/
def str_squeeze_loop_pat_ghost (bitmap : List Nat) :
    Nat → Nat → Nat → Int → List Byte → Int → Bool →
      (List Byte × Nat × Bool) × List cursor_event × Int
  | 0, _, j, jg, s, _, flag_changed => ((s, j, flag_changed), [], jg)
  | left + 1, i, j, jg, s, lastch, flag_changed =>
    let s1 := copy_down s i j
    if tr_bitmap_detect bitmap (byteAt s1 i) ∧ charAt s1 i = lastch then
      let r := str_squeeze_loop_pat_ghost bitmap left (i + 1) j (jg - 1 + 1) s1 (charAt s1 i) true
      (r.1, cursor_event.iter i jg :: copy_down_event i j jg ++ cursor_event.drop i :: r.2.1,
        r.2.2)
    else
      let r := str_squeeze_loop_pat_ghost bitmap left (i + 1) (j + 1) (jg + 1) s1 (charAt s1 i)
        flag_changed
      (r.1, cursor_event.iter i jg :: copy_down_event i j jg ++ r.2.1, r.2.2)

/-- The loop of `str_squeeze` under `else` with the record of its cursors. -/
def str_squeeze_loop_all_ghost :
    Nat → Nat → Nat → Int → List Byte → Int → Bool →
      (List Byte × Nat × Bool) × List cursor_event × Int
  | 0, _, j, jg, s, _, flag_changed => ((s, j, flag_changed), [], jg)
  | left + 1, i, j, jg, s, lastch, flag_changed =>
    let s1 := copy_down s i j
    if charAt s1 i ≥ 0 ∧ charAt s1 i = lastch then
      let r := str_squeeze_loop_all_ghost left (i + 1) j (jg - 1 + 1) s1 (charAt s1 i) true
      (r.1, cursor_event.iter i jg :: copy_down_event i j jg ++ cursor_event.drop i :: r.2.1,
        r.2.2)
    else
      let r := str_squeeze_loop_all_ghost left (i + 1) (j + 1) (jg + 1) s1 (charAt s1 i)
        flag_changed
      (r.1, cursor_event.iter i jg :: copy_down_event i j jg ++ r.2.1, r.2.2)

/-- The loop of `str_delete` with the record of its cursors. -/
def str_delete_loop_ghost (bitmap : List Nat) :
    Nat → Nat → Nat → Int → List Byte → Bool →
      (List Byte × Nat × Bool) × List cursor_event × Int
  | 0, _, j, jg, s, flag_changed => ((s, j, flag_changed), [], jg)
  | left + 1, i, j, jg, s, flag_changed =>
    let s1 := copy_down s i j
    if tr_bitmap_detect bitmap (byteAt s1 i) then
      let r := str_delete_loop_ghost bitmap left (i + 1) j (jg - 1 + 1) s1 true
      (r.1, cursor_event.iter i jg :: copy_down_event i j jg ++ cursor_event.drop i :: r.2.1,
        r.2.2)
    else
      let r := str_delete_loop_ghost bitmap left (i + 1) (j + 1) (jg + 1) s1 flag_changed
      (r.1, cursor_event.iter i jg :: copy_down_event i j jg ++ r.2.1, r.2.2)

/-- The discipline of the two cursors, on one entry of the record: an iteration starts
with `0 <= j <= i`, a store goes to an index `0 <= k <= i`. -/
def cursor_ok : cursor_event → Prop
  | cursor_event.iter i j => 0 ≤ j ∧ j ≤ (i : Int)
  | cursor_event.write k i => 0 ≤ k ∧ k ≤ (i : Int)
  | cursor_event.drop _ => True

/-- The number of bytes dropped, by the record. -/
def dropped : List cursor_event → Nat
  | [] => 0
  | cursor_event.drop _ :: rest => dropped rest + 1
  | _ :: rest => dropped rest

/-- The discipline of the two cursors for a run of a loop over a buffer of `len` bytes, on
the record `log` with the last value `jg` of the write cursor and, when the loop ran to
its end, the final `j`: every entry of the record is in order, and the final `j`, which
is the last value of the write cursor, is `len` minus the number of dropped bytes. -/
def cursors_ok (len : Nat) (log : List cursor_event) (jg : Int) (final_j : Option Nat) : Prop :=
  (∀ e ∈ log, cursor_ok e) ∧
    match final_j with
    | some j => (j : Int) = jg ∧ j + dropped log = len ∧ j ≤ len
    | none => True

/-- The final `j` of the loop of `str_tr`, when it ran to its end. -/
def final_j_of : loop_result → Option Nat
  | loop_result.done _ j _ => some j
  | loop_result.out_of_range _ _ => none

/-- The bytes whose bits the loop of `tr_compile_pattern` sets for one node: the bytes of
the run, or the bytes of `ch[0] .. ch[1] - 1` (the loop runs on `i < ch[1]`). -/
def bitmap_chars (pattern : List Byte) (q : tr_pattern) : List Byte :=
  match q.type with
  | TR_IN_ORDER => (List.range q.n).map (fun (i : Nat) => byteAt pattern (q.start_pos + i))
  | TR_RANGE =>
    (List.range (q.ch1 - q.ch0).toNat).map (fun (k : Nat) => byteOfInt (q.ch0 + (k : Int)))
  | TR_UNINITIALIZED => []

/-- The bytes whose bits `tr_compile_pattern` sets for one item of a spec: the byte of a
literal, or for a range `lo-hi` the bytes of the `char` values from `lo` up to, but not
including, `hi`. -/
def bitmap_item : spec_item → List Byte
  | spec_item.lit b => [b]
  | spec_item.range lo hi =>
    (List.range (charVal hi - charVal lo).toNat).map
      (fun (k : Nat) => byteOfInt (charVal lo + (k : Int)))

/-- A spec of 65539 bytes that the parser accepts: a run of 65535 bytes `a`, the range
`b-c`, and the byte `x`, which makes a run of its own that begins at the offset 65538. -/
def long_spec : List Byte := List.replicate 65535 97 ++ [98, 45, 99, 120]

/-! # Theorems -/

/-! ## The copy-down step of the rewrite loops -/

theorem byteAt_append_cons (pre : List Byte) (x : Byte) (rest : List Byte) :
    byteAt (pre ++ x :: rest) pre.length = x := by
  unfold byteAt
  rw [List.getD_eq_getElem?_getD, List.getElem?_append_right (le_refl _)]
  simp

/-- The state of a rewrite loop at read cursor `i` and write cursor `j`: the buffer is the
output `out` written so far (`j` bytes), `i - j` stale bytes, then the unread input. One
step reads `x`, and leaves the same shape whether `x` is dropped or kept. -/
theorem copy_down_step (out junk : List Byte) (x : Byte) (rest : List Byte) :
    byteAt (out ++ junk ++ x :: rest) (out.length + junk.length) = x ∧
    byteAt (copy_down (out ++ junk ++ x :: rest) (out.length + junk.length) out.length)
      (out.length + junk.length) = x ∧
    (∃ junk1, junk1.length = junk.length + 1 ∧
      copy_down (out ++ junk ++ x :: rest) (out.length + junk.length) out.length
        = out ++ junk1 ++ rest) ∧
    (∃ junk2, junk2.length = junk.length ∧
      copy_down (out ++ junk ++ x :: rest) (out.length + junk.length) out.length
        = (out ++ [x]) ++ junk2 ++ rest) := by
  have h0 : byteAt (out ++ junk ++ x :: rest) (out.length + junk.length) = x := by
    have := byteAt_append_cons (out ++ junk) x rest
    simpa using this
  cases junk with
  | nil =>
    simp only [List.append_nil, List.length_nil, Nat.add_zero] at h0 ⊢
    have hc : copy_down (out ++ x :: rest) out.length out.length = out ++ x :: rest := by
      simp [copy_down]
    rw [hc]
    refine ⟨h0, h0, ⟨[x], by simp, by simp⟩, ⟨[], by simp, by simp⟩⟩
  | cons y junk0 =>
    have hc : copy_down (out ++ y :: junk0 ++ x :: rest) (out.length + (y :: junk0).length)
        out.length = out ++ x :: junk0 ++ x :: rest := by
      unfold copy_down
      rw [if_pos (by simp), h0]
      simp [List.set_append]
    rw [hc]
    refine ⟨h0, ?_, ⟨x :: junk0 ++ [x], by simp, by simp⟩, ⟨junk0 ++ [x], by simp, by simp⟩⟩
    have := byteAt_append_cons (out ++ x :: junk0) x rest
    simpa using this

/-! ## `str_delete` -/

theorem set_len_if_changed_spec (out junk : List Byte) (changed : Bool)
    (h : changed = false → junk = []) :
    set_len_if_changed (out ++ junk, out.length, changed) = str_result.returned out changed := by
  unfold set_len_if_changed
  cases changed with
  | true => simp
  | false => simp [h rfl]

theorem filter_not_eq_self_of_any_false (p : Byte → Bool) (l : List Byte)
    (h : l.any p = false) : l.filter (fun b => !p b) = l := by
  rw [List.filter_eq_self]
  intro a ha
  have := List.any_eq_false.mp h a ha
  simpa using this

theorem str_delete_loop_spec (bitmap : List Nat) :
    ∀ (rest out junk : List Byte) (fc : Bool),
      ∃ junk1, junk1.length + (rest.filter (fun b => !tr_bitmap_detect bitmap b)).length
          = junk.length + rest.length ∧
        str_delete_loop bitmap rest.length (out.length + junk.length) out.length
          (out ++ junk ++ rest) fc
        = (out ++ rest.filter (fun b => !tr_bitmap_detect bitmap b) ++ junk1,
            (out ++ rest.filter (fun b => !tr_bitmap_detect bitmap b)).length,
            fc || rest.any (fun b => tr_bitmap_detect bitmap b)) := by
  intro rest
  induction rest with
  | nil =>
    intro out junk fc
    exact ⟨junk, by simp, by simp [str_delete_loop]⟩
  | cons x rest ih =>
    intro out junk fc
    obtain ⟨_, h1, ⟨junk1, hl1, hd⟩, ⟨junk2, hl2, hk⟩⟩ := copy_down_step out junk x rest
    simp only [List.length_cons, str_delete_loop, h1]
    by_cases hx : tr_bitmap_detect bitmap x = true
    · rw [if_pos hx, hd]
      have hi : out.length + junk.length + 1 = out.length + junk1.length := by omega
      rw [hi]
      obtain ⟨j, hjl, hj⟩ := ih out junk1 true
      refine ⟨j, ?_, by rw [hj]; simp [List.filter_cons, hx]⟩
      simp only [List.filter_cons, hx, Bool.not_true, Bool.false_eq_true, if_false]
      omega
    · rw [if_neg hx, hk]
      have hi : out.length + junk.length + 1 = (out ++ [x]).length + junk2.length := by
        simp; omega
      have hj : out.length + 1 = (out ++ [x]).length := by simp
      rw [hi, hj]
      obtain ⟨j, hjl, hj⟩ := ih (out ++ [x]) junk2 fc
      refine ⟨j, ?_, by rw [hj]; simp [List.filter_cons, hx]⟩
      simp only [List.filter_cons, hx, Bool.not_false, if_true, List.length_cons]
      omega

theorem str_delete_spec (s v_pat : List Byte) (pat : List tr_pattern)
    (hp : tr_parse_pattern v_pat true = some pat) :
    str_delete s v_pat
      = str_result.returned (s.filter (fun b => !bitmap_member pat v_pat b))
          (s.any (fun b => bitmap_member pat v_pat b)) := by
  unfold str_delete
  rw [hp]
  obtain ⟨junk1, hl, h⟩ := str_delete_loop_spec (tr_compile_pattern pat v_pat) s [] [] false
  simp only [List.length_nil, Nat.add_zero, List.nil_append, Bool.false_or] at h hl
  simp only [h]
  have := set_len_if_changed_spec
    (s.filter (fun b => !tr_bitmap_detect (tr_compile_pattern pat v_pat) b)) junk1
    (s.any (fun b => tr_bitmap_detect (tr_compile_pattern pat v_pat) b)) (by
      intro hc
      rw [filter_not_eq_self_of_any_false _ _ hc] at hl
      exact List.length_eq_zero.mp (by omega))
  simpa [bitmap_member] using this

theorem str_count_loop_spec (bitmap : List Nat) :
    ∀ (rest pre : List Byte) (count : Nat),
      str_count_loop bitmap (pre ++ rest) rest.length pre.length count
        = count + (rest.filter (fun b => tr_bitmap_detect bitmap b)).length := by
  intro rest
  induction rest with
  | nil => intro pre count; simp [str_count_loop]
  | cons x rest ih =>
    intro pre count
    simp only [List.length_cons, str_count_loop, byteAt_append_cons]
    have h := ih (pre ++ [x])
    simp only [List.append_assoc, List.singleton_append, List.length_append,
      List.length_singleton] at h
    rw [h]
    by_cases hx : tr_bitmap_detect bitmap x = true
    · simp [List.filter_cons, hx]; omega
    · simp [List.filter_cons, hx]

theorem str_count_spec (s v_pat : List Byte) :
    str_count s v_pat =
      (tr_parse_pattern v_pat true).map
        (fun pat => (s.filter (fun b => bitmap_member pat v_pat b)).length) := by
  unfold str_count
  cases tr_parse_pattern v_pat true with
  | none => rfl
  | some pat =>
    have := str_count_loop_spec (tr_compile_pattern pat v_pat) s [] 0
    simp only [List.nil_append, List.length_nil, Nat.zero_add] at this
    simp [this, bitmap_member]

/-- Claim C5. For every byte string `s` and every spec, `str_delete` (`deleteMembers`) leaves
exactly the bytes of `s`, in their order, whose bit is not set in the bitmap compiled from
the parsed spec, the predicate `str_count` counts with; it reports a change exactly when a
member was met; a spec the parser rejects raises and leaves `s` as it is. In particular
`deleteMembers("hello", "l") = "heo"`. -/
theorem C5_delete_is_filter :
    (∀ s v_pat : List Byte,
      str_delete s v_pat =
        match tr_parse_pattern v_pat true with
        | none => str_result.raised s tr_error.pattern_too_long
        | some pat =>
          str_result.returned (s.filter (fun b => !bitmap_member pat v_pat b))
            (s.any (fun b => bitmap_member pat v_pat b))) ∧
    (∀ s v_pat : List Byte,
      str_count s v_pat =
        (tr_parse_pattern v_pat true).map
          (fun pat => (s.filter (fun b => bitmap_member pat v_pat b)).length)) ∧
    str_delete (bytes "hello") (bytes "l") = str_result.returned (bytes "heo") true := by
  refine ⟨?_, ?_, by decide⟩
  · intro s v_pat
    cases hp : tr_parse_pattern v_pat true with
    | none => simp [str_delete, hp]
    | some pat => simpa using str_delete_spec s v_pat pat hp
  · exact str_count_spec

/-! ## `str_tr`: the two regimes of the loop -/

theorem charAt_eq (s : List Byte) (i : Nat) (x : Byte) (h : byteAt s i = x) :
    charAt s i = charVal x := by
  unfold charAt; rw [h]

/-- When every matched byte has no replacement (`c < 0`), the loop of `str_tr` is the
compaction that drops the matched bytes, with or without `squeeze`. -/
theorem str_tr_loop_drop (pat rep : List tr_pattern) (p1 p2 : List Byte) (squeeze : Bool)
    (hrep : ∀ b : Byte, 0 ≤ tr_find_character pat p1 (charVal b) →
      tr_get_character rep p2 (tr_find_character pat p1 (charVal b)) < 0) :
    ∀ (rest out junk : List Byte) (lastch : Int) (fc : Bool),
      ∃ junk1, junk1.length + (rest.filter (fun b => !matched pat p1 b)).length
          = junk.length + rest.length ∧
        str_tr_loop pat rep (spec_arg.other p1)
            (spec_arg.other p2) squeeze rest.length (out.length + junk.length) out.length
          (out ++ junk ++ rest) lastch fc
        = loop_result.done (out ++ rest.filter (fun b => !matched pat p1 b) ++ junk1)
            (out ++ rest.filter (fun b => !matched pat p1 b)).length
            (fc || rest.any (fun b => matched pat p1 b)) := by
  intro rest
  induction rest with
  | nil =>
    intro out junk lastch fc
    exact ⟨junk, by simp, by simp [str_tr_loop]⟩
  | cons x rest ih =>
    intro out junk lastch fc
    obtain ⟨h0, _, ⟨junk1, hl1, hd⟩, ⟨junk2, hl2, hk⟩⟩ := copy_down_step out junk x rest
    simp only [List.length_cons, str_tr_loop, spec_buf, charAt_eq _ _ _ h0]
    by_cases hx : 0 ≤ tr_find_character pat p1 (charVal x)
    · have hm : matched pat p1 x = true := by simp [matched, hx]
      rw [if_pos hx, if_pos (Or.inl (hrep x hx)), hd]
      have hi : out.length + junk.length + 1 = out.length + junk1.length := by omega
      rw [hi]
      obtain ⟨j, hjl, hj⟩ := ih out junk1 lastch true
      refine ⟨j, ?_, by rw [hj]; simp [List.filter_cons, hm]⟩
      simp only [List.filter_cons, hm, Bool.not_true, Bool.false_eq_true, if_false]
      omega
    · have hm : matched pat p1 x = false := by simp [matched, hx]
      rw [if_neg hx, hk]
      have hi : out.length + junk.length + 1 = (out ++ [x]).length + junk2.length := by
        simp; omega
      have hj : out.length + 1 = (out ++ [x]).length := by simp
      rw [hi, hj]
      obtain ⟨j, hjl, hj⟩ := ih (out ++ [x]) junk2 lastch fc
      refine ⟨j, ?_, by rw [hj]; simp [List.filter_cons, hm]⟩
      simp only [List.filter_cons, hm, Bool.not_false, if_true, List.length_cons]
      omega

/-- When `squeeze` is off, every matched byte has a replacement in `0..0x80`, and the two
lookups give on every buffer the loop goes through what they give on the specs as they
were when the call started (`hs1`, `hs2`: this is plain when a spec is not the receiver),
the loop of `str_tr` never drops a byte (`i = j` throughout) and rewrites each byte by
`f`. Here `pre` is the part of the input already rewritten. -/
theorem str_tr_loop_map (pat rep : List tr_pattern) (a1 a2 : spec_arg) (F1 F2 : List Byte)
    (f : Byte → Byte) (s : List Byte)
    (hf : ∀ b : Byte, 0 ≤ tr_find_character pat F1 (charVal b) →
      0 ≤ tr_get_character rep F2 (tr_find_character pat F1 (charVal b)) ∧
      tr_get_character rep F2 (tr_find_character pat F1 (charVal b)) ≤ 128 ∧
      byteOfInt (tr_get_character rep F2 (tr_find_character pat F1 (charVal b))) = f b)
    (hu : ∀ b : Byte, ¬ 0 ≤ tr_find_character pat F1 (charVal b) → f b = b)
    (hs1 : ∀ (pre : List Byte) (x : Byte) (rest : List Byte), pre ++ x :: rest = s →
      tr_find_character pat (spec_buf a1 (pre.map f ++ x :: rest)) (charVal x)
        = tr_find_character pat F1 (charVal x))
    (hs2 : ∀ (pre : List Byte) (x : Byte) (rest : List Byte), pre ++ x :: rest = s →
      0 ≤ tr_find_character pat F1 (charVal x) →
      tr_get_character rep (spec_buf a2 (pre.map f ++ x :: rest))
          (tr_find_character pat F1 (charVal x))
        = tr_get_character rep F2 (tr_find_character pat F1 (charVal x))) :
    ∀ (rest pre : List Byte) (lastch : Int) (fc : Bool), pre ++ rest = s →
      str_tr_loop pat rep a1 a2 false rest.length pre.length pre.length (pre.map f ++ rest)
          lastch fc
        = loop_result.done (pre.map f ++ rest.map f) (pre.length + rest.length)
            (fc || rest.any (fun b => matched pat F1 b)) := by
  intro rest
  induction rest with
  | nil => intro pre lastch fc _; simp [str_tr_loop]
  | cons x rest ih =>
    intro pre lastch fc hpre
    have h0 : byteAt (pre.map f ++ x :: rest) pre.length = x := by
      have := byteAt_append_cons (pre.map f) x rest
      rwa [List.length_map] at this
    have hc : copy_down (pre.map f ++ x :: rest) pre.length pre.length
        = pre.map f ++ x :: rest := by
      simp [copy_down]
    have hnext : (pre ++ [x]) ++ rest = s := by rw [← hpre]; simp
    simp only [List.length_cons, str_tr_loop, charAt_eq _ _ _ h0, hc, hs1 pre x rest hpre]
    by_cases hx : 0 ≤ tr_find_character pat F1 (charVal x)
    · have hm : matched pat F1 x = true := by simp [matched, hx]
      obtain ⟨hc0, hc1, hcf⟩ := hf x hx
      have hs : (pre.map f ++ x :: rest).set pre.length (f x)
          = (pre ++ [x]).map f ++ rest := by
        have := List.length_map pre f
        simp [List.set_append, this]
      rw [if_pos hx, hs2 pre x rest hpre hx, if_neg (by simp; omega), if_neg (by omega), hcf, hs]
      have hj : pre.length + 1 = (pre ++ [x]).length := by simp
      rw [hj, ih (pre ++ [x]) _ _ hnext]
      simp [hm]; omega
    · have hm : matched pat F1 x = false := by simp [matched, hx]
      have hs : pre.map f ++ x :: rest = (pre ++ [x]).map f ++ rest := by
        simp [hu x hx]
      rw [if_neg hx, hs]
      have hj : pre.length + 1 = (pre ++ [x]).length := by simp
      rw [hj, ih (pre ++ [x]) _ _ hnext]
      simp [hm, hu x hx]; omega

/-- The whole of `str_tr` in the regime of `str_tr_loop_map`; `F1` and `F2` are the bytes
of the two specs when the call starts. -/
theorem str_tr_map (s : List Byte) (a1 a2 : spec_arg) (pat rep : List tr_pattern)
    (f : Byte → Byte)
    (hp : tr_parse_pattern (spec_buf a1 s) true = some pat)
    (hr : tr_parse_pattern (spec_buf a2 s) false = some rep)
    (hf : ∀ b : Byte, 0 ≤ tr_find_character pat (spec_buf a1 s) (charVal b) →
      0 ≤ tr_get_character rep (spec_buf a2 s)
        (tr_find_character pat (spec_buf a1 s) (charVal b)) ∧
      tr_get_character rep (spec_buf a2 s)
        (tr_find_character pat (spec_buf a1 s) (charVal b)) ≤ 128 ∧
      byteOfInt (tr_get_character rep (spec_buf a2 s)
        (tr_find_character pat (spec_buf a1 s) (charVal b))) = f b)
    (hu : ∀ b : Byte, ¬ 0 ≤ tr_find_character pat (spec_buf a1 s) (charVal b) → f b = b)
    (hs1 : ∀ (pre : List Byte) (x : Byte) (rest : List Byte), pre ++ x :: rest = s →
      tr_find_character pat (spec_buf a1 (pre.map f ++ x :: rest)) (charVal x)
        = tr_find_character pat (spec_buf a1 s) (charVal x))
    (hs2 : ∀ (pre : List Byte) (x : Byte) (rest : List Byte), pre ++ x :: rest = s →
      0 ≤ tr_find_character pat (spec_buf a1 s) (charVal x) →
      tr_get_character rep (spec_buf a2 (pre.map f ++ x :: rest))
          (tr_find_character pat (spec_buf a1 s) (charVal x))
        = tr_get_character rep (spec_buf a2 s)
          (tr_find_character pat (spec_buf a1 s) (charVal x))) :
    str_tr s a1 a2 false
      = str_result.returned (s.map f) (s.any (fun b => matched pat (spec_buf a1 s) b)) := by
  unfold str_tr
  rw [hp, hr]
  have h := str_tr_loop_map pat rep a1 a2 (spec_buf a1 s) (spec_buf a2 s) f s hf hu hs1 hs2
    s [] (-1) false rfl
  simp only [List.length_nil, List.nil_append, Bool.false_or, Nat.zero_add, List.map_nil] at h
  simp only [h]
  cases hc : s.any (fun b => matched pat (spec_buf a1 s) b) with
  | true =>
    simp only [if_true]
    congr 1
    rw [List.take_of_length_le (by simp)]
  | false => simp only [Bool.false_eq_true, if_false]

/-- The regime of `str_tr_map` for a call whose specs are objects other than the
receiver: the lookups read the same bytes in every iteration. -/
theorem str_tr_map_other (s p1 p2 : List Byte) (pat rep : List tr_pattern) (f : Byte → Byte)
    (hp : tr_parse_pattern p1 true = some pat) (hr : tr_parse_pattern p2 false = some rep)
    (hf : ∀ b : Byte, 0 ≤ tr_find_character pat p1 (charVal b) →
      0 ≤ tr_get_character rep p2 (tr_find_character pat p1 (charVal b)) ∧
      tr_get_character rep p2 (tr_find_character pat p1 (charVal b)) ≤ 128 ∧
      byteOfInt (tr_get_character rep p2 (tr_find_character pat p1 (charVal b))) = f b)
    (hu : ∀ b : Byte, ¬ 0 ≤ tr_find_character pat p1 (charVal b) → f b = b) :
    str_tr s (spec_arg.other p1) (spec_arg.other p2) false
      = str_result.returned (s.map f) (s.any (fun b => matched pat p1 b)) :=
  str_tr_map s (spec_arg.other p1) (spec_arg.other p2) pat rep f hp hr hf hu
    (fun _ _ _ _ => rfl) (fun _ _ _ _ _ => rfl)

/-- The whole of `str_tr` in the regime of `str_tr_loop_drop`. -/
theorem str_tr_drop (s p1 p2 : List Byte) (squeeze : Bool) (pat rep : List tr_pattern)
    (hp : tr_parse_pattern p1 true = some pat) (hr : tr_parse_pattern p2 false = some rep)
    (hrep : ∀ b : Byte, 0 ≤ tr_find_character pat p1 (charVal b) →
      tr_get_character rep p2 (tr_find_character pat p1 (charVal b)) < 0) :
    str_tr s (spec_arg.other p1) (spec_arg.other p2) squeeze
      = str_result.returned (s.filter (fun b => !matched pat p1 b))
          (s.any (fun b => matched pat p1 b)) := by
  unfold str_tr
  simp only [spec_buf]
  rw [hp, hr]
  obtain ⟨junk1, hl, h⟩ := str_tr_loop_drop pat rep p1 p2 squeeze hrep s [] [] (-1) false
  simp only [List.length_nil, Nat.add_zero, List.nil_append, Bool.false_or] at h hl
  simp only [h]
  cases hc : s.any (fun b => matched pat p1 b) with
  | true => simp
  | false =>
    rw [filter_not_eq_self_of_any_false _ _ hc] at hl ⊢
    have : junk1 = [] := List.length_eq_zero.mp (by omega)
    simp [this]

/-! ## Empty to-spec -/

theorem tr_parse_pattern_empty (flag : Bool) :
    tr_parse_pattern [] flag = some [STATIC_TR_PATTERN] := by
  cases flag <;> rfl

theorem tr_get_character_static (p2 : List Byte) (n : Int) :
    tr_get_character [STATIC_TR_PATTERN] p2 n = -1 := by
  unfold tr_get_character tr_get_loop STATIC_TR_PATTERN
  by_cases h : n < 0 + ((0 : Nat) : Int)
  · simp [h]
  · simp [h]

/-- With specs that are objects other than the receiver: for every byte string `s`,
every from-spec `F` and either value of `squeeze`, `str_tr(s, F, "", squeeze)` drops every
byte the value lookup matches against `F` and keeps the others in order: the buffer is
`filter(s, b => not matched(F, b))`; a from-spec the parser rejects raises and leaves `s`
as it is. -/
theorem str_tr_empty_to_spec (s F : List Byte) (squeeze : Bool) :
    str_tr s (spec_arg.other F) (spec_arg.other []) squeeze =
      match tr_parse_pattern F true with
      | none => str_result.raised s tr_error.pattern_too_long
      | some pat =>
        str_result.returned (s.filter (fun b => !matched pat F b))
          (s.any (fun b => matched pat F b)) := by
  cases hp : tr_parse_pattern F true with
  | none => simp [str_tr, spec_buf, hp]
  | some pat =>
    simpa using str_tr_drop s F [] squeeze pat [STATIC_TR_PATTERN] hp
      (tr_parse_pattern_empty false)
      (fun b _ => by rw [tr_get_character_static]; decide)

/-- Claim C9. `str_tr` looks the from-spec up through `RSTRING_PTR(p1)` in every iteration,
while it compacts the receiver in place; `tr!` passes the receiver itself to `str_tr`, so a
from-spec that is the receiver is read after bytes were copied down. With `s = "-a-c"`,
`s.tr!(s, "")` leaves `"-"`, with either value of `squeeze`: the copy-down of the second
iteration overwrites the `-` at the head of the spec, and the `-` read in the third
iteration is no longer matched. Every byte of `s` is matched by the spec as it was parsed,
so `filter(s, b => not matched(F, b))` is empty, as is the result of
`"-a-c".tr("-a-c", "")`. Whenever the from-spec is not the receiver, the claim holds for
every `s`, `F` and `squeeze`, as in the two examples of the documentation
(`"hello\r\nworld".tr("\r", "")` and `"X['\\b']".tr("X-\\]", "")`). -/
theorem C9_tr_bang_reads_compacted_spec :
    str_tr (bytes "-a-c") spec_arg.receiver (spec_arg.other []) false
      = str_result.returned (bytes "-") true ∧
    str_tr (bytes "-a-c") spec_arg.receiver (spec_arg.other []) true
      = str_result.returned (bytes "-") true ∧
    tr_parse_pattern (bytes "-a-c") true
      = some [⟨TR_IN_ORDER, false, false, 1, 0, 0, 0⟩, ⟨TR_RANGE, false, true, 3, 0, 97, 99⟩] ∧
    (bytes "-a-c").filter (fun b =>
        !matched [⟨TR_IN_ORDER, false, false, 1, 0, 0, 0⟩, ⟨TR_RANGE, false, true, 3, 0, 97, 99⟩]
          (bytes "-a-c") b) = [] ∧
    str_tr (bytes "-a-c") (spec_arg.other (bytes "-a-c")) (spec_arg.other []) false
      = str_result.returned [] true ∧
    (∀ (s F : List Byte) (squeeze : Bool),
      str_tr s (spec_arg.other F) (spec_arg.other []) squeeze =
        match tr_parse_pattern F true with
        | none => str_result.raised s tr_error.pattern_too_long
        | some pat =>
          str_result.returned (s.filter (fun b => !matched pat F b))
            (s.any (fun b => matched pat F b))) ∧
    str_tr (bytes "hello\r\nworld") (spec_arg.other (bytes "\r")) (spec_arg.other []) false
      = str_result.returned (bytes "hello\nworld") true ∧
    str_tr (bytes "X['\\b']") (spec_arg.other (bytes "X-\\]")) (spec_arg.other []) false
      = str_result.returned (bytes "'b'") true :=
  ⟨by decide, by decide, by decide, by decide, by decide,
    fun s F squeeze => str_tr_empty_to_spec s F squeeze, by decide, by decide⟩

/-! ## Where the code departs from the documented behaviour -/

/-- Claim C2. In `tr_s` mode the replacement is stored at the read cursor (`s[i] = (char)c`)
after the unmapped byte was copied to the write cursor (`s[j] = s[i]`): once a byte has
been dropped, the result holds the original byte of a matched input byte, not its
replacement. `"aab".tr_s("ab", "xy")` is `"xb"`, where the documented behaviour
(translate as `tr`, then squeeze the translated region) is `"xy"`. -/
theorem C2_tr_s_keeps_unmapped_byte :
    str_tr (bytes "aab") (spec_arg.other (bytes "ab")) (spec_arg.other (bytes "xy")) true
      = str_result.returned (bytes "xb") true ∧
    str_tr (bytes "aab") (spec_arg.other (bytes "ab")) (spec_arg.other (bytes "xy")) false
      = str_result.returned (bytes "xxy") true := by
  decide

/-- Claim C3. The squeeze test of `str_tr` compares with the last replacement written,
which an unmatched byte in between does not reset: `"aba".tr_s("a", "x")` drops the
second `a` although the byte before it is the unmatched `b`, and returns `"xb"`. -/
theorem C3_tr_s_drops_after_unmatched :
    str_tr (bytes "aba") (spec_arg.other (bytes "a")) (spec_arg.other (bytes "x")) true
      = str_result.returned (bytes "xb") true ∧
    matched [⟨TR_IN_ORDER, false, false, 1, 0, 0, 0⟩] (bytes "a") 98 = false ∧
    str_tr (bytes "hello") (spec_arg.other (bytes "el")) (spec_arg.other (bytes "*")) true
      = str_result.returned (bytes "h*o") true ∧
    str_tr (bytes "hello") (spec_arg.other (bytes "el")) (spec_arg.other (bytes "hx")) true
      = str_result.returned (bytes "hhxo") true := by
  decide

/-- Claim C4. The bitmap compiler expands a range with `i < pat->val.ch[1]`, so the upper
end of a range is not a member: `"abc".count("a-c")` is `2`, while all three bytes of
`"abc"` lie in `a..c` (and the value lookup of `str_tr` does match `c` against `a-c`). -/
theorem C4_count_misses_range_end :
    str_count (bytes "abc") (bytes "a-c") = some 2 ∧
    ((bytes "abc").filter (fun b => decide (b ∈ flatten (bytes "a-c")))).length = 3 ∧
    tr_parse_pattern (bytes "a-c") true = some [⟨TR_RANGE, false, false, 3, 0, 97, 99⟩] ∧
    matched [⟨TR_RANGE, false, false, 3, 0, 97, 99⟩] (bytes "a-c") 99 = true ∧
    bitmap_member [⟨TR_RANGE, false, false, 3, 0, 97, 99⟩] (bytes "a-c") 99 = false := by
  decide

/-! ## `str_squeeze` -/

theorem charVal_inj (a b : Byte) : charVal a = charVal b ↔ a = b := by
  constructor
  · intro h
    apply Fin.ext
    unfold charVal at h
    split at h <;> split at h <;> omega
  · intro h; rw [h]

theorem charVal_lt (b : Byte) : charVal b < 128 := by
  unfold charVal; split <;> omega

theorem charVal_ge (b : Byte) : -128 ≤ charVal b := by
  unfold charVal; split <;> omega

theorem charVal_nonneg (b : Byte) : 0 ≤ charVal b ↔ b.val < 128 := by
  unfold charVal; split <;> omega

theorem charVal_of_lt (b : Byte) (h : b.val < 128) : charVal b = (b.val : Int) := by
  unfold charVal; rw [if_pos h]

theorem squeeze_model_length_le (subject : Byte → Bool) :
    ∀ (l : List Byte) (lastch : Int), (squeeze_model subject lastch l).length ≤ l.length := by
  intro l
  induction l with
  | nil => intro _; simp [squeeze_model]
  | cons x xs ih =>
    intro lastch
    unfold squeeze_model
    split
    · exact Nat.le_succ_of_le (ih _)
    · simpa using ih _

theorem str_squeeze_loop_pat_spec (bitmap : List Nat) :
    ∀ (rest out junk : List Byte) (lastch : Int) (fc : Bool),
      ∃ junk1, junk1.length + (squeeze_model (tr_bitmap_detect bitmap) lastch rest).length
          = junk.length + rest.length ∧
        str_squeeze_loop_pat bitmap rest.length (out.length + junk.length) out.length
          (out ++ junk ++ rest) lastch fc
        = (out ++ squeeze_model (tr_bitmap_detect bitmap) lastch rest ++ junk1,
            (out ++ squeeze_model (tr_bitmap_detect bitmap) lastch rest).length,
            fc || decide ((squeeze_model (tr_bitmap_detect bitmap) lastch rest).length
              < rest.length)) := by
  intro rest
  induction rest with
  | nil =>
    intro out junk lastch fc
    exact ⟨junk, by simp [squeeze_model], by simp [str_squeeze_loop_pat, squeeze_model]⟩
  | cons x rest ih =>
    intro out junk lastch fc
    obtain ⟨_, h1, ⟨junk1, hl1, hd⟩, ⟨junk2, hl2, hk⟩⟩ := copy_down_step out junk x rest
    simp only [List.length_cons, str_squeeze_loop_pat, h1, charAt_eq _ _ _ h1]
    have hle := squeeze_model_length_le (tr_bitmap_detect bitmap) rest (charVal x)
    by_cases hx : tr_bitmap_detect bitmap x = true ∧ charVal x = lastch
    · rw [if_pos hx, hd]
      have hi : out.length + junk.length + 1 = out.length + junk1.length := by omega
      rw [hi]
      obtain ⟨j, hjl, hj⟩ := ih out junk1 (charVal x) true
      have hm : squeeze_model (tr_bitmap_detect bitmap) lastch (x :: rest)
          = squeeze_model (tr_bitmap_detect bitmap) (charVal x) rest := by
        rw [squeeze_model, if_pos hx]
      rw [hm]
      refine ⟨j, by omega, ?_⟩
      rw [hj]
      have hlt : (squeeze_model (tr_bitmap_detect bitmap) (charVal x) rest).length
          < rest.length + 1 := by omega
      simp [hlt]
    · rw [if_neg hx, hk]
      have hi : out.length + junk.length + 1 = (out ++ [x]).length + junk2.length := by
        simp; omega
      have hj : out.length + 1 = (out ++ [x]).length := by simp
      rw [hi, hj]
      obtain ⟨j, hjl, hj⟩ := ih (out ++ [x]) junk2 (charVal x) fc
      have hm : squeeze_model (tr_bitmap_detect bitmap) lastch (x :: rest)
          = x :: squeeze_model (tr_bitmap_detect bitmap) (charVal x) rest := by
        rw [squeeze_model, if_neg hx]
      rw [hm]
      refine ⟨j, by simp only [List.length_cons]; omega, ?_⟩
      rw [hj]
      simp

theorem str_squeeze_loop_all_spec :
    ∀ (rest out junk : List Byte) (lastch : Int) (fc : Bool),
      ∃ junk1, junk1.length
            + (squeeze_model (fun b => decide (0 ≤ charVal b)) lastch rest).length
          = junk.length + rest.length ∧
        str_squeeze_loop_all rest.length (out.length + junk.length) out.length
          (out ++ junk ++ rest) lastch fc
        = (out ++ squeeze_model (fun b => decide (0 ≤ charVal b)) lastch rest ++ junk1,
            (out ++ squeeze_model (fun b => decide (0 ≤ charVal b)) lastch rest).length,
            fc || decide ((squeeze_model (fun b => decide (0 ≤ charVal b)) lastch rest).length
              < rest.length)) := by
  intro rest
  induction rest with
  | nil =>
    intro out junk lastch fc
    exact ⟨junk, by simp [squeeze_model], by simp [str_squeeze_loop_all, squeeze_model]⟩
  | cons x rest ih =>
    intro out junk lastch fc
    obtain ⟨_, h1, ⟨junk1, hl1, hd⟩, ⟨junk2, hl2, hk⟩⟩ := copy_down_step out junk x rest
    simp only [List.length_cons, str_squeeze_loop_all, charAt_eq _ _ _ h1]
    have hle := squeeze_model_length_le (fun b => decide (0 ≤ charVal b)) rest (charVal x)
    by_cases hx : charVal x ≥ 0 ∧ charVal x = lastch
    · have hx2 : (fun b => decide (0 ≤ charVal b)) x = true ∧ charVal x = lastch := by
        simpa using hx
      rw [if_pos hx, hd]
      have hi : out.length + junk.length + 1 = out.length + junk1.length := by omega
      rw [hi]
      obtain ⟨j, hjl, hj⟩ := ih out junk1 (charVal x) true
      have hm : squeeze_model (fun b => decide (0 ≤ charVal b)) lastch (x :: rest)
          = squeeze_model (fun b => decide (0 ≤ charVal b)) (charVal x) rest := by
        rw [squeeze_model, if_pos hx2]
      rw [hm]
      refine ⟨j, by omega, ?_⟩
      rw [hj]
      have hlt : (squeeze_model (fun b => decide (0 ≤ charVal b)) (charVal x) rest).length
          < rest.length + 1 := by omega
      simp [hlt]
    · have hx2 : ¬ ((fun b => decide (0 ≤ charVal b)) x = true ∧ charVal x = lastch) := by
        simpa using hx
      rw [if_neg hx, hk]
      have hi : out.length + junk.length + 1 = (out ++ [x]).length + junk2.length := by
        simp; omega
      have hj : out.length + 1 = (out ++ [x]).length := by simp
      rw [hi, hj]
      obtain ⟨j, hjl, hj⟩ := ih (out ++ [x]) junk2 (charVal x) fc
      have hm : squeeze_model (fun b => decide (0 ≤ charVal b)) lastch (x :: rest)
          = x :: squeeze_model (fun b => decide (0 ≤ charVal b)) (charVal x) rest := by
        rw [squeeze_model, if_neg hx2]
      rw [hm]
      refine ⟨j, by simp only [List.length_cons]; omega, ?_⟩
      rw [hj]
      simp

/-- The function `str_squeeze` without a pattern, as a function on lists. -/
theorem str_squeeze_none_model (s : List Byte) :
    str_squeeze s none
      = str_result.returned (squeeze_model (fun b => decide (0 ≤ charVal b)) (-1) s)
          (decide ((squeeze_model (fun b => decide (0 ≤ charVal b)) (-1) s).length
            < s.length)) := by
  unfold str_squeeze
  obtain ⟨junk1, hl, h⟩ := str_squeeze_loop_all_spec s [] [] (-1) false
  simp only [List.length_nil, Nat.add_zero, List.nil_append, Bool.false_or] at h hl
  simp only [h]
  exact set_len_if_changed_spec _ junk1 _ (by
    intro hc
    have : ¬ (squeeze_model (fun b => decide (0 ≤ charVal b)) (-1) s).length < s.length := by
      simpa using hc
    exact List.length_eq_zero.mp (by omega))

/-- The function `str_squeeze` with a pattern, as a function on lists. -/
theorem str_squeeze_some_model (s p : List Byte) (pat : List tr_pattern)
    (hp : tr_parse_pattern p true = some pat) :
    str_squeeze s (some p)
      = str_result.returned (squeeze_model (fun b => bitmap_member pat p b) (-1) s)
          (decide ((squeeze_model (fun b => bitmap_member pat p b) (-1) s).length
            < s.length)) := by
  unfold str_squeeze
  simp only [hp]
  obtain ⟨junk1, hl, h⟩ := str_squeeze_loop_pat_spec (tr_compile_pattern pat p) s [] [] (-1) false
  simp only [List.length_nil, Nat.add_zero, List.nil_append, Bool.false_or] at h hl
  simp only [h]
  exact set_len_if_changed_spec _ junk1 _ (by
    intro hc
    have : ¬ (squeeze_model (tr_bitmap_detect (tr_compile_pattern pat p)) (-1) s).length
        < s.length := by
      simpa using hc
    exact List.length_eq_zero.mp (by omega))

/-- The loop model is the reference compaction as soon as `lastch` is the value of the byte
read last; before the first byte (`lastch = -1`) this needs that no byte subject to
squeezing has the `char` value `-1`. -/
theorem squeeze_model_eq_ref (subject : Byte → Bool)
    (hs : ∀ b, subject b = true → charVal b ≠ -1) :
    ∀ (l : List Byte) (last : Option Byte),
      squeeze_model subject (lastch_of last) l = squeeze_ref subject last l := by
  intro l
  induction l with
  | nil => intro _; simp [squeeze_model, squeeze_ref]
  | cons x xs ih =>
    intro last
    have hiff : (subject x = true ∧ charVal x = lastch_of last)
        ↔ (subject x = true ∧ last = some x) := by
      constructor
      · rintro ⟨h1, h2⟩
        refine ⟨h1, ?_⟩
        cases last with
        | none => exact absurd h2 (hs x h1)
        | some p =>
          simp only [lastch_of] at h2
          rw [(charVal_inj x p).mp h2]
      · rintro ⟨h1, h2⟩
        exact ⟨h1, by rw [h2]; rfl⟩
    unfold squeeze_model squeeze_ref
    by_cases hx : subject x = true ∧ last = some x
    · rw [if_pos hx, if_pos (hiff.mpr hx)]
      have := ih (some x)
      simp only [lastch_of] at this
      rw [this, hx.2]
    · rw [if_neg hx, if_neg (fun h => hx (hiff.mp h))]
      have := ih (some x)
      simp only [lastch_of] at this
      rw [this]

theorem squeeze_ref_head (subject : Byte → Bool) :
    ∀ (l : List Byte) (p : Byte) (y : Byte),
      (squeeze_ref subject (some p) l).head? = some y → ¬ (p = y ∧ subject y = true) := by
  intro l
  induction l with
  | nil => intro p y h; simp [squeeze_ref] at h
  | cons x xs ih =>
    intro p y h
    unfold squeeze_ref at h
    by_cases hx : subject x = true ∧ some p = some x
    · rw [if_pos hx] at h
      exact ih p y h
    · rw [if_neg hx] at h
      simp only [List.head?_cons, Option.some.injEq] at h
      subst h
      intro hh
      exact hx ⟨hh.2, by rw [hh.1]⟩

theorem squeeze_ref_chain (subject : Byte → Bool) :
    ∀ (l : List Byte) (last : Option Byte),
      List.Chain' (fun a b => ¬ (a = b ∧ subject b = true)) (squeeze_ref subject last l) := by
  intro l
  induction l with
  | nil => intro _; simp [squeeze_ref]
  | cons x xs ih =>
    intro last
    unfold squeeze_ref
    split
    · exact ih last
    · rw [List.chain'_cons']
      exact ⟨fun y hy => squeeze_ref_head subject xs x y hy, ih (some x)⟩

theorem squeeze_ref_eq_remove_repeated (subject : Byte → Bool) :
    ∀ (l : List Byte) (last : Option Byte),
      squeeze_ref subject last l = remove_repeated subject last l := by
  intro l
  induction l with
  | nil => intro _; simp [squeeze_ref, remove_repeated]
  | cons x xs ih =>
    intro last
    unfold squeeze_ref remove_repeated
    by_cases hx : subject x = true ∧ last = some x
    · rw [if_pos hx, if_pos hx, ih last, hx.2]
    · rw [if_neg hx, if_neg hx, ih (some x)]

theorem below_0x80_subject :
    (fun b : Byte => decide (0 ≤ charVal b)) = (fun b : Byte => decide (b.val < 128)) := by
  funext b
  simp only [charVal_nonneg]

theorem str_squeeze_none_ref (s : List Byte) :
    str_squeeze s none
      = str_result.returned (squeeze_ref (fun b => decide (b.val < 128)) none s)
          (decide ((squeeze_ref (fun b => decide (b.val < 128)) none s).length < s.length)) := by
  rw [str_squeeze_none_model, below_0x80_subject]
  have h := squeeze_model_eq_ref (fun b : Byte => decide (b.val < 128))
    (by
      intro b hb
      have hb2 : b.val < 128 := by simpa using hb
      rw [charVal_of_lt b hb2]
      omega) s none
  simp only [lastch_of] at h
  rw [h]

/-- With a pattern whose bitmap does not hold the byte `0xFF`, `str_squeeze` is the
reference compaction over the bitmap. -/
theorem str_squeeze_some_ref (s p : List Byte) (pat : List tr_pattern)
    (hp : tr_parse_pattern p true = some pat) (hff : bitmap_member pat p 255 = false) :
    str_squeeze s (some p)
      = str_result.returned (squeeze_ref (fun b => bitmap_member pat p b) none s)
          (decide ((squeeze_ref (fun b => bitmap_member pat p b) none s).length
            < s.length)) := by
  rw [str_squeeze_some_model s p pat hp]
  have h := squeeze_model_eq_ref (fun b : Byte => bitmap_member pat p b)
    (by
      intro b hb hc
      have : b = 255 := by
        apply Fin.ext
        unfold charVal at hc
        split at hc
        · omega
        · have : (b.val : Int) = 255 := by omega
          have h2 : b.val = 255 := by omega
          simpa using h2
      have hb2 : bitmap_member pat p b = true := hb
      rw [this, hff] at hb2
      exact Bool.false_ne_true hb2) s none
  simp only [lastch_of] at h
  rw [h]

/-- Claim C6. With a pattern, `str_squeeze` compares `s[i]` with `lastch`, which starts at
`-1`: as a signed `char` the byte `0xFF` has that value, so a leading `0xFF` that is a
member of the bitmap is dropped although no byte was kept before it.
`"\xFF".squeeze("\xFF")` is the empty string, where the reference compaction keeps the
byte. The examples of the documentation evaluate as documented. -/
theorem C6_squeeze_drops_leading_0xFF :
    tr_parse_pattern [255] true = some [⟨TR_IN_ORDER, false, false, 1, 0, 0, 0⟩] ∧
    str_squeeze [255] (some [255]) = str_result.returned [] true ∧
    squeeze_ref (fun b => bitmap_member [⟨TR_IN_ORDER, false, false, 1, 0, 0, 0⟩] [255] b)
      none [255] = [255] ∧
    str_squeeze (bytes "  now   is  the") (some (bytes " "))
      = str_result.returned (bytes " now is the") true ∧
    str_squeeze (bytes "putters shoot balls") (some (bytes "m-z"))
      = str_result.returned (bytes "puters shot balls") true := by
  decide

/-- Claim C7 (counterexample). Without a pattern `str_squeeze` leaves the run `0xC8 0xC8` as it
is: the result holds two adjacent equal bytes. -/
theorem C7_counterexample :
    str_squeeze [200, 200] none = str_result.returned [200, 200] false ∧
    ¬ List.Chain' (fun a b : Byte => a ≠ b) (result_buf (str_squeeze [200, 200] none)) := by
  have h : str_squeeze [200, 200] none = str_result.returned [200, 200] false := by decide
  refine ⟨h, ?_⟩
  rw [h]
  simp [result_buf]

/-- Claim C7 (amended). Without a pattern, `str_squeeze` (`squeezeRuns(s, none)`) squeezes the
bytes below `0x80` only (the guard `s[i] >= 0`): for every byte string `s` the result is `s`
without every byte below `0x80` that equals its immediate predecessor, no other byte is
removed, the result holds no two adjacent equal bytes below `0x80`, and a change is
reported exactly when a byte was removed. `squeezeRuns("yellow moon", none)` is
`"yelow mon"`. -/
theorem C7_squeeze_none_below_0x80 :
    (∀ s : List Byte,
      str_squeeze s none
        = str_result.returned (remove_repeated (fun b => decide (b.val < 128)) none s)
            (decide ((remove_repeated (fun b => decide (b.val < 128)) none s).length
              < s.length))) ∧
    (∀ s : List Byte,
      List.Chain' (fun a b : Byte => ¬ (a = b ∧ b.val < 128))
        (result_buf (str_squeeze s none))) ∧
    str_squeeze (bytes "yellow moon") none = str_result.returned (bytes "yelow mon") true := by
  refine ⟨?_, ?_, by decide⟩
  · intro s
    rw [str_squeeze_none_ref, squeeze_ref_eq_remove_repeated]
  · intro s
    rw [str_squeeze_none_ref]
    have h := squeeze_ref_chain (fun b : Byte => decide (b.val < 128)) s none
    simpa [result_buf] using h

/-! ## The parser -/

theorem scan_in_order_spec (pattern : List Byte) :
    ∀ (fuel j : Nat), pattern.length ≤ j + fuel → j ≤ pattern.length →
      j ≤ scan_in_order pattern fuel j ∧ scan_in_order pattern fuel j ≤ pattern.length ∧
      (∀ k, j ≤ k → k < scan_in_order pattern fuel j → is_range pattern k = false) ∧
      (scan_in_order pattern fuel j < pattern.length →
        is_range pattern (scan_in_order pattern fuel j) = true) := by
  intro fuel
  induction fuel with
  | zero =>
    intro j h1 h2
    have : j = pattern.length := by omega
    simp only [scan_in_order]
    exact ⟨le_refl _, h2, fun k hk1 hk2 => by omega, fun h => by omega⟩
  | succ fuel ih =>
    intro j h1 h2
    unfold scan_in_order
    by_cases hj : j < pattern.length
    · rw [if_pos hj]
      by_cases hr : is_range pattern j = true
      · rw [if_pos hr]
        exact ⟨le_refl _, h2, fun k hk1 hk2 => by omega, fun _ => hr⟩
      · rw [if_neg hr]
        obtain ⟨a, b, c, d⟩ := ih (j + 1) (by omega) (by omega)
        refine ⟨by omega, b, ?_, d⟩
        intro k hk1 hk2
        by_cases hkj : k = j
        · rw [hkj]; simpa using hr
        · exact c k (by omega) hk2
    · rw [if_neg hj]
      exact ⟨le_refl _, h2, fun k hk1 hk2 => by omega, fun h => by omega⟩

theorem ret_uninit_ret_of (acc : List tr_pattern)
    (hacc : ∀ q ∈ acc, q.type ≠ TR_UNINITIALIZED) :
    ret_uninit (ret_of acc) = decide (acc = []) := by
  cases acc with
  | nil => rfl
  | cons q qs =>
    have := hacc q (List.mem_cons_self _ _)
    simp [ret_of, ret_uninit, this]

theorem link_pattern_ret_of (acc : List tr_pattern) (pat1 : tr_pattern) :
    link_pattern (decide (acc = [])) (ret_of acc) pat1 = ret_of (acc ++ [pat1]) := by
  cases acc with
  | nil => simp [link_pattern, ret_of]
  | cons q qs => simp [link_pattern, ret_of]

/-- The loop of the parser scans the whole pattern: with fuel for every remaining byte it
either raises on a run longer than `UINT16_MAX` (which needs a pattern longer than that),
or links to `ret` exactly the nodes of a complete scan. -/
theorem tr_parse_loop_parsed (pattern : List Byte) (flag_reverse : Bool) :
    ∀ (fuel i : Nat) (acc : List tr_pattern), pattern.length ≤ i + fuel →
      (∀ q ∈ acc, q.type ≠ TR_UNINITIALIZED) →
      (tr_parse_loop pattern flag_reverse fuel i (ret_of acc) = none
          ∧ UINT16_MAX < pattern.length) ∨
      (∃ nodes, Parsed pattern flag_reverse i (!decide (acc = [])) nodes ∧
        tr_parse_loop pattern flag_reverse fuel i (ret_of acc) = some (ret_of (acc ++ nodes))) := by
  intro fuel
  induction fuel with
  | zero =>
    intro i acc h _
    right
    exact ⟨[], Parsed.done i _ (by omega), by simp [tr_parse_loop]⟩
  | succ fuel ih =>
    intro i acc h hacc
    unfold tr_parse_loop
    by_cases hi : i < pattern.length
    · rw [if_pos hi]
      simp only [ret_uninit_ret_of acc hacc]
      by_cases hr : is_range pattern i = true
      · rw [if_pos hr, link_pattern_ret_of]
        have hacc1 : ∀ q ∈ acc ++ [range_node pattern flag_reverse (!decide (acc = [])) i],
            q.type ≠ TR_UNINITIALIZED := by
          intro q hq
          rcases List.mem_append.mp hq with hq | hq
          · exact hacc q hq
          · rw [List.mem_singleton.mp hq]; simp [range_node]
        rcases ih (i + 3) _ (by omega) hacc1 with ⟨hn, hl⟩ | ⟨nodes, hp, hs⟩
        · left; exact ⟨hn, hl⟩
        · right
          refine ⟨range_node pattern flag_reverse (!decide (acc = [])) i :: nodes, ?_, ?_⟩
          · have hp1 : Parsed pattern flag_reverse (i + 3) true nodes := by
              simpa using hp
            exact Parsed.range i _ nodes hi hr hp1
          · rw [hs]; simp
      · rw [if_neg hr]
        have hr2 : is_range pattern i = false := by simpa using hr
        obtain ⟨a, b, c, d⟩ := scan_in_order_spec pattern pattern.length (i + 1)
          (by omega) (by omega)
        by_cases hlen : scan_in_order pattern pattern.length (i + 1) - i > UINT16_MAX
        · left
          simp only [hlen, if_true, true_and]
          omega
        · simp only [hlen, if_false]
          rw [link_pattern_ret_of]
          have hacc1 : ∀ q ∈ acc ++ [in_order_node flag_reverse (!decide (acc = [])) i
                (scan_in_order pattern pattern.length (i + 1))],
              q.type ≠ TR_UNINITIALIZED := by
            intro q hq
            rcases List.mem_append.mp hq with hq | hq
            · exact hacc q hq
            · rw [List.mem_singleton.mp hq]; simp [in_order_node]
          rcases ih (scan_in_order pattern pattern.length (i + 1)) _ (by omega) hacc1
            with ⟨hn, hl⟩ | ⟨nodes, hp, hs⟩
          · left; exact ⟨hn, hl⟩
          · right
            refine ⟨in_order_node flag_reverse (!decide (acc = [])) i
                (scan_in_order pattern pattern.length (i + 1)) :: nodes, ?_, ?_⟩
            · have hp1 : Parsed pattern flag_reverse
                  (scan_in_order pattern pattern.length (i + 1)) true nodes := by
                simpa using hp
              exact Parsed.run i _ _ nodes hi hr2 (by omega) b
                (fun k hk1 hk2 => c k (by omega) hk2) d (by omega) hp1
            · rw [hs]; simp
    · rw [if_neg hi]
      right
      exact ⟨[], Parsed.done i _ (by omega), by simp⟩

/-- The function `tr_parse_pattern` raises only on a pattern longer than `UINT16_MAX`;
otherwise it returns the caller's uninitialised node when the scan yields no node, and
the nodes of the complete scan (the first one in the caller's storage) when it does. -/
theorem tr_parse_pattern_parsed (pattern : List Byte) (flag_reverse_enable : Bool) :
    (tr_parse_pattern pattern flag_reverse_enable = none ∧ UINT16_MAX < pattern.length) ∨
    (∃ nodes,
      Parsed pattern (is_reversed pattern flag_reverse_enable)
        (if is_reversed pattern flag_reverse_enable then 1 else 0) false nodes ∧
      tr_parse_pattern pattern flag_reverse_enable = some (ret_of nodes)) := by
  unfold tr_parse_pattern
  have h := tr_parse_loop_parsed pattern (is_reversed pattern flag_reverse_enable)
    pattern.length (if is_reversed pattern flag_reverse_enable then 1 else 0) []
    (by omega) (by simp)
  simpa [ret_of] using h

theorem charAt_lt (buf : List Byte) (k : Nat) : charAt buf k < 128 := charVal_lt _

theorem charAt_ge (buf : List Byte) (k : Nat) : -128 ≤ charAt buf k := charVal_ge _

theorem range_node_ok (pattern : List Byte) (fr h : Bool) (i : Nat) :
    range_ok (range_node pattern fr h i) := by
  intro _ hle
  simp only [range_node] at hle ⊢
  have a1 := charAt_lt pattern i
  have a2 := charAt_ge pattern i
  have a3 := charAt_lt pattern (i + 2)
  have a4 := charAt_ge pattern (i + 2)
  omega

/-- What every node of a scan satisfies. -/
theorem parsed_nodes (pattern : List Byte) (fr : Bool) (i : Nat) (h : Bool)
    (nodes : List tr_pattern) (hp : Parsed pattern fr i h nodes) :
    ∀ q ∈ nodes, q.flag_reverse = fr ∧ q.type ≠ TR_UNINITIALIZED ∧ range_ok q ∧
      (q.type = TR_RANGE → ∃ k, k < pattern.length ∧ q.ch0 = charAt pattern k) := by
  induction hp with
  | done i h hi => intro q hq; simp at hq
  | range i h rest hi hr hrest ih =>
    intro q hq
    rcases List.mem_cons.mp hq with hq | hq
    · rw [hq]
      exact ⟨rfl, by simp [range_node], range_node_ok _ _ _ _, fun _ => ⟨i, hi, rfl⟩⟩
    · exact ih q hq
  | run i i1 h rest hi hr h1 h2 hmid hend hlen hrest ih =>
    intro q hq
    rcases List.mem_cons.mp hq with hq | hq
    · rw [hq]
      refine ⟨rfl, by simp [in_order_node], ?_, ?_⟩
      · intro ht; simp [in_order_node] at ht
      · intro ht; simp [in_order_node] at ht
    · exact ih q hq

/-! ## The two lookups: what is found can be fetched -/

theorem find_in_order_cases (pat_str : List Byte) (start_pos : Nat) (n_sum ch ret : Int) :
    ∀ n : Nat,
      find_in_order pat_str start_pos n n_sum ch ret = ret ∨
      ∃ i, i < n ∧ find_in_order pat_str start_pos n n_sum ch ret = n_sum + (i : Int) ∧
        charAt pat_str (start_pos + i) = ch := by
  intro n
  induction n with
  | zero => left; simp [find_in_order]
  | succ n ih =>
    unfold find_in_order at ih ⊢
    rw [List.range_succ, List.foldl_append]
    simp only [List.foldl_cons, List.foldl_nil]
    by_cases hc : charAt pat_str (start_pos + n) = ch
    · rw [if_pos hc]
      right
      exact ⟨n, by omega, rfl, hc⟩
    · rw [if_neg hc]
      rcases ih with h | ⟨i, hi, h1, h2⟩
      · left; exact h
      · right; exact ⟨i, by omega, h1, h2⟩

/-- One node of `tr_find_character` against the same node of `tr_get_character`: either the
node leaves `ret` alone, or it sets it to an ordinal inside the node at which the node
holds `ch`. -/
theorem find_node_cases (pat_str : List Byte) (ch : Int) (p : tr_pattern) (next : List tr_pattern)
    (ret n_sum : Int) (hok : range_ok p) :
    (match p.type with
      | TR_IN_ORDER => find_in_order pat_str p.start_pos p.n n_sum ch ret
      | TR_RANGE => if p.ch0 ≤ ch ∧ ch ≤ p.ch1 then n_sum + ch - p.ch0 else ret
      | TR_UNINITIALIZED => ret) = ret ∨
    (n_sum ≤ (match p.type with
      | TR_IN_ORDER => find_in_order pat_str p.start_pos p.n n_sum ch ret
      | TR_RANGE => if p.ch0 ≤ ch ∧ ch ≤ p.ch1 then n_sum + ch - p.ch0 else ret
      | TR_UNINITIALIZED => ret) ∧
     tr_get_loop pat_str (match p.type with
      | TR_IN_ORDER => find_in_order pat_str p.start_pos p.n n_sum ch ret
      | TR_RANGE => if p.ch0 ≤ ch ∧ ch ≤ p.ch1 then n_sum + ch - p.ch0 else ret
      | TR_UNINITIALIZED => ret) (p :: next) n_sum = ch) := by
  cases ht : p.type with
  | TR_UNINITIALIZED => left; rfl
  | TR_IN_ORDER =>
    simp only
    rcases find_in_order_cases pat_str p.start_pos n_sum ch ret p.n with h | ⟨i, hi, h1, h2⟩
    · left; exact h
    · right
      rw [h1]
      refine ⟨by omega, ?_⟩
      unfold tr_get_loop
      rw [if_pos (by omega)]
      simp only [ht]
      have : ((p.start_pos : Int) + (n_sum + (i : Int) - n_sum)).toNat = p.start_pos + i := by
        omega
      rw [this, h2]
  | TR_RANGE =>
    simp only
    by_cases hc : p.ch0 ≤ ch ∧ ch ≤ p.ch1
    · rw [if_pos hc]
      right
      have hn := hok ht (by omega)
      refine ⟨by omega, ?_⟩
      unfold tr_get_loop
      rw [if_pos (by omega)]
      simp only [ht]
      omega
    · rw [if_neg hc]; left; trivial

/-- Round trip of the two lookups over one list of nodes: if the value lookup moves `ret`
at all, it moves it to an ordinal (at least `n_sum`) whose character, by the ordinal
lookup, is `ch`. -/
theorem tr_find_get_loop (pat_str : List Byte) (ch : Int) :
    ∀ (pat : List tr_pattern) (ret n_sum : Int), (∀ q ∈ pat, range_ok q) →
      tr_find_loop pat_str ch pat ret n_sum = ret ∨
      (n_sum ≤ tr_find_loop pat_str ch pat ret n_sum ∧
        tr_get_loop pat_str (tr_find_loop pat_str ch pat ret n_sum) pat n_sum = ch) := by
  intro pat
  induction pat with
  | nil => intro ret n_sum _; left; rfl
  | cons p next ih =>
    intro ret n_sum hok
    have hp := find_node_cases pat_str ch p next ret n_sum (hok p (List.mem_cons_self _ _))
    unfold tr_find_loop
    simp only
    generalize hret1 : (match p.type with
      | TR_IN_ORDER => find_in_order pat_str p.start_pos p.n n_sum ch ret
      | TR_RANGE => if p.ch0 ≤ ch ∧ ch ≤ p.ch1 then n_sum + ch - p.ch0 else ret
      | TR_UNINITIALIZED => ret) = ret1 at hp ⊢
    cases next with
    | nil =>
      simp only [tr_find_loop]
      exact hp
    | cons q qs =>
      rcases ih ret1 (n_sum + p.n) (fun x hx => hok x (List.mem_cons_of_mem _ hx))
        with h | ⟨h1, h2⟩
      · rw [h]; exact hp
      · right
        refine ⟨by omega, ?_⟩
        rw [tr_get_loop, if_neg (by omega)]
        simp only [List.isEmpty_cons, Bool.false_eq_true, if_false]
        exact h2

theorem byteOfInt_charVal (b : Byte) : byteOfInt (charVal b) = b := by
  apply Fin.ext
  have hb := b.isLt
  unfold byteOfInt charVal Fin.ofNat
  simp only
  split <;> omega

theorem ascii_iff (spec : List Byte) : ascii spec ↔ ∀ b ∈ spec, b.val < 128 := by
  unfold ascii
  rw [List.all_eq_true]
  simp only [decide_eq_true_eq]

theorem charAt_nonneg_of_ascii (buf : List Byte) (h : ascii buf) (k : Nat) :
    0 ≤ charAt buf k := by
  rw [ascii_iff] at h
  unfold charAt byteAt
  rw [charVal_nonneg, List.getD_eq_getElem?_getD]
  by_cases hk : k < buf.length
  · rw [List.getElem?_eq_getElem hk]
    exact h _ (List.getElem_mem _)
  · rw [List.getElem?_eq_none (by omega)]
    simp

/-- Against an ASCII pattern the value lookup only ever moves `ret` for a `ch >= 0`. -/
theorem tr_find_loop_nonneg (pat_str : List Byte) (ch : Int)
    (hstr : ∀ k, 0 ≤ charAt pat_str k) :
    ∀ (pat : List tr_pattern) (ret n_sum : Int),
      (∀ q ∈ pat, q.type = TR_RANGE → 0 ≤ q.ch0) →
      tr_find_loop pat_str ch pat ret n_sum = ret ∨ 0 ≤ ch := by
  intro pat
  induction pat with
  | nil => intro ret n_sum _; left; rfl
  | cons p next ih =>
    intro ret n_sum hq
    unfold tr_find_loop
    simp only
    have h1 : (match p.type with
        | TR_IN_ORDER => find_in_order pat_str p.start_pos p.n n_sum ch ret
        | TR_RANGE => if p.ch0 ≤ ch ∧ ch ≤ p.ch1 then n_sum + ch - p.ch0 else ret
        | TR_UNINITIALIZED => ret) = ret ∨ 0 ≤ ch := by
      cases ht : p.type with
      | TR_UNINITIALIZED => left; rfl
      | TR_IN_ORDER =>
        simp only
        rcases find_in_order_cases pat_str p.start_pos n_sum ch ret p.n with h | ⟨i, _, _, h2⟩
        · left; exact h
        · right; rw [← h2]; exact hstr _
      | TR_RANGE =>
        simp only
        by_cases hc : p.ch0 ≤ ch ∧ ch ≤ p.ch1
        · right
          have := hq p (List.mem_cons_self _ _) ht
          omega
        · rw [if_neg hc]; left; trivial
    rcases ih _ (n_sum + p.n) (fun x hx => hq x (List.mem_cons_of_mem _ hx)) with h | h
    · rw [h]; exact h1
    · right; exact h

theorem head_flag_reverse_of_forall (pat : List tr_pattern) (fr : Bool)
    (h : ∀ q ∈ pat, q.flag_reverse = fr) (hne : pat ≠ []) : head_flag_reverse pat = fr := by
  cases pat with
  | nil => exact absurd rfl hne
  | cons q qs => exact h q (List.mem_cons_self _ _)

theorem mem_ret_of (acc : List tr_pattern) (q : tr_pattern) (hq : q ∈ ret_of acc) :
    q = STATIC_TR_PATTERN ∨ q ∈ acc := by
  unfold ret_of at hq
  split at hq
  · left; simpa using hq
  · right; exact hq

theorem ret_of_ne_nil (acc : List tr_pattern) : ret_of acc ≠ [] := by
  unfold ret_of
  split
  · simp
  · assumption

/-- Claim C10 (counterexample). With a spec that is negated as a from-spec, or that holds a byte
from `0x80` up, the identity mapping changes the content: `"hello".tr("^ab", "^ab")` is
`"bbbbb"`, and the byte `0x80` mapped to itself is dropped. -/
theorem C10_counterexample :
    str_tr (bytes "hello") (spec_arg.other (bytes "^ab")) (spec_arg.other (bytes "^ab")) false
      = str_result.returned (bytes "bbbbb") true ∧
    str_tr [128, 65] (spec_arg.other [128])
        (spec_arg.other [128]) false = str_result.returned [65] true := by
  decide

/-- Claim C10 (amended). For every byte string `s` and every spec `X` that is not negated as a
from-spec and whose bytes are all below `0x80`, `str_tr(s, X, X, false)` leaves in the buffer
exactly the bytes of `s` (also when the parser rejects `X`). This holds for every call
whose from-spec and to-spec both hold the bytes `X` when it starts, whether each of them
is the receiver itself or another object. -/
theorem C10_identity_mapping_keeps_content (s X : List Byte) (a1 a2 : spec_arg)
    (h1 : spec_buf a1 s = X) (h2 : spec_buf a2 s = X)
    (hneg : is_reversed X true = false) (hascii : ascii X) :
    result_buf (str_tr s a1 a2 false) = s := by
  have hsame : tr_parse_pattern X true = tr_parse_pattern X false := by
    have h2 : is_reversed X false = false := by simp [is_reversed]
    unfold tr_parse_pattern
    rw [hneg, h2]
  rcases tr_parse_pattern_parsed X false with ⟨hn, _⟩ | ⟨nodes, hp, hs⟩
  · simp [str_tr, h1, hsame, hn, result_buf]
  · have h3 : is_reversed X false = false := by simp [is_reversed]
    rw [h3] at hp
    have hnodes := parsed_nodes X false _ false nodes hp
    have hall : ∀ q ∈ ret_of nodes, q.flag_reverse = false ∧ range_ok q ∧
        (q.type = TR_RANGE → 0 ≤ q.ch0) := by
      intro q hq
      rcases mem_ret_of nodes q hq with h | h
      · rw [h]
        exact ⟨rfl, fun ht => by simp [STATIC_TR_PATTERN] at ht,
          fun ht => by simp [STATIC_TR_PATTERN] at ht⟩
      · obtain ⟨a, _, c, d⟩ := hnodes q h
        refine ⟨a, c, fun ht => ?_⟩
        obtain ⟨k, _, hk⟩ := d ht
        rw [hk]
        exact charAt_nonneg_of_ascii X hascii k
    have hflag : head_flag_reverse (ret_of nodes) = false :=
      head_flag_reverse_of_forall _ false (fun q hq => (hall q hq).1) (ret_of_ne_nil nodes)
    have hfind : ∀ ch, tr_find_character (ret_of nodes) X ch
        = tr_find_loop X ch (ret_of nodes) (-1) 0 := by
      intro ch
      unfold tr_find_character
      rw [hflag]
      simp
    have key : ∀ b : Byte, 0 ≤ tr_find_character (ret_of nodes) X (charVal b) →
        tr_get_character (ret_of nodes) X (tr_find_character (ret_of nodes) X (charVal b))
          = charVal b ∧ 0 ≤ charVal b := by
      intro b hb
      rw [hfind] at hb ⊢
      constructor
      · rcases tr_find_get_loop X (charVal b) (ret_of nodes) (-1) 0
          (fun q hq => (hall q hq).2.1) with h | ⟨_, h⟩
        · rw [h] at hb; omega
        · exact h
      · rcases tr_find_loop_nonneg X (charVal b) (charAt_nonneg_of_ascii X hascii)
          (ret_of nodes) (-1) 0 (fun q hq => (hall q hq).2.2) with h | h
        · rw [h] at hb; omega
        · exact h
    have hmap := str_tr_map s a1 a2 (ret_of nodes) (ret_of nodes) id
      (by rw [h1]; exact hsame ▸ hs) (by rw [h2]; exact hs)
      (by
        rw [h1, h2]
        intro b hb
        obtain ⟨h1, h2⟩ := key b hb
        rw [h1]
        exact ⟨h2, by have := charVal_lt b; omega, byteOfInt_charVal b⟩)
      (fun b _ => rfl)
      (by
        intro pre x rest hpre
        rw [List.map_id, hpre])
      (by
        intro pre x rest hpre _
        rw [List.map_id, hpre])
    rw [hmap]
    simp [result_buf]

/-- A use of `C10_identity_mapping_keeps_content`: `"hello".tr("a-y", "a-y")`, and the
call `s.tr!(s, s)` on `s = "a-y"`, where both specs are the receiver. -/
theorem C10_identity_mapping_witness :
    is_reversed (bytes "a-y") true = false ∧ ascii (bytes "a-y") ∧
    result_buf (str_tr (bytes "hello") (spec_arg.other (bytes "a-y"))
      (spec_arg.other (bytes "a-y")) false) = bytes "hello" ∧
    result_buf (str_tr (bytes "a-y") spec_arg.receiver spec_arg.receiver false)
      = bytes "a-y" :=
  ⟨by decide, by decide,
    C10_identity_mapping_keeps_content (bytes "hello") (bytes "a-y")
      (spec_arg.other (bytes "a-y")) (spec_arg.other (bytes "a-y")) rfl rfl
      (by decide) (by decide),
    C10_identity_mapping_keeps_content (bytes "a-y") (bytes "a-y")
      spec_arg.receiver spec_arg.receiver rfl rfl (by decide) (by decide)⟩

/-! ## The grammar of the specification against the scan of the parser -/

theorem charVal_eq_iff (b : Byte) (v : Nat) (hv : v < 128) :
    charVal b = (v : Int) ↔ b.val = v := by
  unfold charVal; split <;> omega

theorem spec_items_lit (x : Byte) (tl : List Byte)
    (h : ¬ (2 ≤ tl.length ∧ x.val ≠ 92 ∧ (tl.getD 0 0).val = 45)) :
    spec_items (x :: tl) = spec_item.lit x :: spec_items tl := by
  match tl with
  | [] => simp [spec_items]
  | [b] => simp [spec_items]
  | m :: hi :: rest =>
    rw [spec_items, if_neg]
    intro hc
    exact h ⟨by simp, hc.1, by simpa using hc.2⟩

theorem spec_items_range (lo m hi : Byte) (rest : List Byte)
    (h1 : lo.val ≠ 92) (h2 : m.val = 45) :
    spec_items (lo :: m :: hi :: rest) = spec_item.range lo hi :: spec_items rest := by
  rw [spec_items, if_pos ⟨h1, h2⟩]

theorem drop_eq_cons (pattern : List Byte) (i : Nat) (h : i < pattern.length) :
    pattern.drop i = byteAt pattern i :: pattern.drop (i + 1) := by
  rw [List.drop_eq_getElem_cons h]
  congr 1
  unfold byteAt
  rw [List.getD_eq_getElem _ _ h]

theorem is_range_iff (pattern : List Byte) (i : Nat) :
    is_range pattern i = true ↔
      i + 2 < pattern.length ∧ (byteAt pattern i).val ≠ 92 ∧ (byteAt pattern (i + 1)).val = 45 := by
  unfold is_range charAt BACKSLASH DASH
  have h1 := charVal_eq_iff (byteAt pattern i) 92 (by omega)
  have h2 := charVal_eq_iff (byteAt pattern (i + 1)) 45 (by omega)
  simp only [Bool.and_eq_true, decide_eq_true_eq, ne_eq]
  constructor
  · rintro ⟨⟨a, b⟩, c⟩
    exact ⟨a, fun h => b (h1.mpr h), h2.mp c⟩
  · rintro ⟨a, b, c⟩
    exact ⟨⟨a, fun h => b (h1.mp h)⟩, h2.mpr c⟩

/-- Where the parser detects a range, the grammar reads a range item. -/
theorem spec_items_drop_range (pattern : List Byte) (i : Nat)
    (hr : is_range pattern i = true) :
    spec_items (pattern.drop i)
      = spec_item.range (byteAt pattern i) (byteAt pattern (i + 2))
          :: spec_items (pattern.drop (i + 3)) := by
  obtain ⟨a, b, c⟩ := (is_range_iff pattern i).mp hr
  rw [drop_eq_cons pattern i (by omega), drop_eq_cons pattern (i + 1) (by omega),
    drop_eq_cons pattern (i + 2) (by omega)]
  exact spec_items_range _ _ _ _ b c

/-- Where the parser detects no range, the grammar reads a literal byte. -/
theorem spec_items_drop_lit (pattern : List Byte) (i : Nat) (hi : i < pattern.length)
    (hr : is_range pattern i = false) :
    spec_items (pattern.drop i)
      = spec_item.lit (byteAt pattern i) :: spec_items (pattern.drop (i + 1)) := by
  rw [drop_eq_cons pattern i hi]
  apply spec_items_lit
  rintro ⟨a, b, c⟩
  have hlen : i + 2 < pattern.length := by
    simp only [List.length_drop] at a
    omega
  have hc : (byteAt pattern (i + 1)).val = 45 := by
    rw [drop_eq_cons pattern (i + 1) (by omega)] at c
    simpa using c
  have := (is_range_iff pattern i).mpr ⟨hlen, b, hc⟩
  rw [hr] at this
  exact Bool.false_ne_true this

/-- A run of the parser is a sequence of literal items of the grammar. -/
theorem spec_items_drop_run (pattern : List Byte) :
    ∀ (m i : Nat), i + m ≤ pattern.length →
      (∀ k, i ≤ k → k < i + m → is_range pattern k = false) →
      spec_items (pattern.drop i)
        = (List.range m).map (fun k => spec_item.lit (byteAt pattern (i + k)))
            ++ spec_items (pattern.drop (i + m)) := by
  intro m
  induction m with
  | zero => intro i _ _; simp
  | succ m ih =>
    intro i h1 h2
    rw [spec_items_drop_lit pattern i (by omega) (h2 i (le_refl _) (by omega)),
      ih (i + 1) (by omega) (fun k hk1 hk2 => h2 k (by omega) (by omega)),
      List.range_succ_eq_map]
    simp only [List.map_cons, List.map_map, List.cons_append, Nat.add_zero]
    congr 2
    · apply List.map_congr_left
      intro k _
      simp only [Function.comp]
      congr 2
      omega
    · congr 2; omega

theorem byteAt_lt_of_ascii (buf : List Byte) (h : ascii buf) (k : Nat) :
    (byteAt buf k).val < 128 := by
  have := charAt_nonneg_of_ascii buf h k
  unfold charAt at this
  exact (charVal_nonneg _).mp this

theorem charAt_of_ascii (buf : List Byte) (h : ascii buf) (k : Nat) :
    charAt buf k = ((byteAt buf k).val : Int) :=
  charVal_of_lt _ (byteAt_lt_of_ascii buf h k)

theorem range_bytes_chars (lo hi : Byte) (h2 : hi.val < 128) :
    (List.range ((hi.val : Int) - (lo.val : Int) + 1).toNat).map
        (fun (k : Nat) => (lo.val : Int) + (k : Int))
      = (range_bytes lo hi).map charVal := by
  unfold range_bytes
  have hn : ((hi.val : Int) - (lo.val : Int) + 1).toNat = hi.val + 1 - lo.val := by omega
  rw [hn, List.map_map]
  apply List.map_congr_left
  intro k hk
  have hk2 : k < hi.val + 1 - lo.val := List.mem_range.mp hk
  simp only [Function.comp]
  have hv : (Fin.ofNat (lo.val + k) : Byte).val = lo.val + k := by
    unfold Fin.ofNat
    simp only
    omega
  rw [charVal_of_lt _ (by omega), hv]
  push_cast
  rfl

theorem expand_cons (pat_str : List Byte) (q : tr_pattern) (rest : List tr_pattern) :
    expand pat_str (q :: rest) = node_chars pat_str q ++ expand pat_str rest := by
  simp [expand]

theorem flatten_drop_range (pattern : List Byte) (i : Nat) (hr : is_range pattern i = true) :
    flatten (pattern.drop i)
      = range_bytes (byteAt pattern i) (byteAt pattern (i + 2))
          ++ flatten (pattern.drop (i + 3)) := by
  unfold flatten
  rw [spec_items_drop_range pattern i hr]
  simp [flatten_item]

theorem flatten_drop_run (pattern : List Byte) (m i : Nat) (h1 : i + m ≤ pattern.length)
    (h2 : ∀ k, i ≤ k → k < i + m → is_range pattern k = false) :
    flatten (pattern.drop i)
      = (List.range m).map (fun k => byteAt pattern (i + k))
          ++ flatten (pattern.drop (i + m)) := by
  unfold flatten
  rw [spec_items_drop_run pattern m i h1 h2, List.flatMap_append]
  congr 1
  generalize List.range m = l
  induction l with
  | nil => rfl
  | cons a l ih => simp [flatten_item, ih]

/-- For an ASCII pattern of at most 65535 bytes, the nodes of a scan stand for the logical
flattening of the scanned part of the pattern. -/
theorem parsed_expand (pattern : List Byte) (fr : Bool) (hascii : ascii pattern)
    (hlen : pattern.length ≤ 65535) (i : Nat) (h : Bool) (nodes : List tr_pattern)
    (hp : Parsed pattern fr i h nodes) :
    expand pattern nodes = (flatten (pattern.drop i)).map charVal := by
  induction hp with
  | done i h hi =>
    rw [List.drop_eq_nil_of_le hi]
    rfl
  | range i h rest hi hr hrest ih =>
    rw [expand_cons, ih, flatten_drop_range pattern i hr, List.map_append]
    congr 1
    simp only [node_chars, range_node]
    rw [charAt_of_ascii pattern hascii i, charAt_of_ascii pattern hascii (i + 2)]
    exact range_bytes_chars _ _ (byteAt_lt_of_ascii pattern hascii _)
  | run i i1 h rest hi hr h1 h2 hmid hend hl hrest ih =>
    have hm : i + (i1 - i) = i1 := by omega
    have hf := flatten_drop_run pattern (i1 - i) i (by omega) (by
      intro k hk1 hk2
      by_cases hki : k = i
      · rw [hki]; exact hr
      · exact hmid k (by omega) (by omega))
    rw [hm] at hf
    rw [expand_cons, ih, hf, List.map_append]
    congr 1
    simp only [node_chars, in_order_node]
    rw [Nat.mod_eq_of_lt (by omega), Nat.mod_eq_of_lt (by omega), List.map_map]
    rfl

theorem ranges_ordered_cons (it : spec_item) (l1 l2 : List Byte)
    (h : spec_items l1 = it :: spec_items l2) (ho : ranges_ordered l1) :
    item_ordered it = true ∧ ranges_ordered l2 := by
  unfold ranges_ordered at ho ⊢
  rw [h, List.all_cons, Bool.and_eq_true] at ho
  exact ho

theorem ranges_ordered_append (its : List spec_item) (l1 l2 : List Byte)
    (h : spec_items l1 = its ++ spec_items l2) (ho : ranges_ordered l1) :
    ranges_ordered l2 := by
  unfold ranges_ordered at ho ⊢
  rw [h, List.all_append, Bool.and_eq_true] at ho
  exact ho.2

/-- For an ASCII pattern of at most 65535 bytes whose ranges are in order, the count of
every node of a scan is the number of characters it stands for, and is not zero. -/
theorem parsed_count_ok (pattern : List Byte) (fr : Bool) (hascii : ascii pattern)
    (hlen : pattern.length ≤ 65535) (i : Nat) (h : Bool) (nodes : List tr_pattern)
    (hp : Parsed pattern fr i h nodes) (ho : ranges_ordered (pattern.drop i)) :
    ∀ q ∈ nodes, count_ok pattern q ∧ 1 ≤ q.n := by
  induction hp with
  | done i h hi => intro q hq; simp at hq
  | range i h rest hi hr hrest ih =>
    obtain ⟨ho1, ho2⟩ := ranges_ordered_cons _ _ _ (spec_items_drop_range pattern i hr) ho
    intro q hq
    rcases List.mem_cons.mp hq with hq | hq
    · rw [hq]
      have hle : (byteAt pattern i).val ≤ (byteAt pattern (i + 2)).val := by
        simpa [item_ordered] using ho1
      have a1 := byteAt_lt_of_ascii pattern hascii i
      have a2 := byteAt_lt_of_ascii pattern hascii (i + 2)
      simp only [count_ok, node_chars, range_node, List.length_map, List.length_range]
      rw [charAt_of_ascii pattern hascii i, charAt_of_ascii pattern hascii (i + 2)]
      omega
    · exact ih ho2 q hq
  | run i i1 h rest hi hr h1 h2 hmid hend hl hrest ih =>
    have hm : i + (i1 - i) = i1 := by omega
    have hs := spec_items_drop_run pattern (i1 - i) i (by omega) (by
      intro k hk1 hk2
      by_cases hki : k = i
      · rw [hki]; exact hr
      · exact hmid k (by omega) (by omega))
    rw [hm] at hs
    have ho2 := ranges_ordered_append _ _ _ hs ho
    intro q hq
    rcases List.mem_cons.mp hq with hq | hq
    · rw [hq]
      simp only [count_ok, node_chars, in_order_node, List.length_map, List.length_range]
      rw [Nat.mod_eq_of_lt (by omega)]
      exact ⟨trivial, by omega⟩
    · exact ih ho2 q hq

/-! ## The value lookup as a last index -/

theorem last_index_append {α : Type} [DecidableEq α] (x : α) (l1 l2 : List α) :
    last_index x (l1 ++ l2)
      = match last_index x l2 with
        | some k => some (l1.length + k)
        | none => last_index x l1 := by
  induction l1 with
  | nil =>
    cases h : last_index x l2 <;> simp [h, last_index]
  | cons y ys ih =>
    have h1 : last_index x ((y :: ys) ++ l2)
        = match last_index x (ys ++ l2) with
          | some k => some (k + 1)
          | none => if y = x then some 0 else none := rfl
    rw [h1, ih]
    cases h : last_index x l2 with
    | none => rfl
    | some k =>
      simp only [List.length_cons, Option.some.injEq]
      omega

theorem last_index_eq_none {α : Type} [DecidableEq α] (x : α) (l : List α) :
    last_index x l = none ↔ x ∉ l := by
  induction l with
  | nil => simp [last_index]
  | cons y ys ih =>
    simp only [last_index, List.mem_cons, not_or]
    cases h : last_index x ys with
    | some k =>
      simp only [reduceCtorEq, false_iff, not_and, not_not]
      intro _
      by_contra hc
      exact absurd (ih.mpr hc) (by rw [h]; simp)
    | none =>
      have := ih.mp h
      by_cases hy : y = x
      · simp [hy]
      · simp only [hy, if_false, true_iff]
        exact ⟨fun h2 => hy h2.symm, this⟩

theorem last_index_lt {α : Type} [DecidableEq α] (x : α) (l : List α) (k : Nat)
    (h : last_index x l = some k) : k < l.length := by
  induction l generalizing k with
  | nil => simp [last_index] at h
  | cons y ys ih =>
    simp only [last_index] at h
    cases h2 : last_index x ys with
    | some j =>
      rw [h2] at h
      simp only [Option.some.injEq] at h
      have := ih j h2
      simp only [List.length_cons]
      omega
    | none =>
      rw [h2] at h
      by_cases hy : y = x
      · simp only [hy, if_true, Option.some.injEq] at h
        simp only [List.length_cons]; omega
      · simp [hy] at h

theorem last_index_map_charVal (b : Byte) (l : List Byte) :
    last_index (charVal b) (l.map charVal) = last_index b l := by
  induction l with
  | nil => rfl
  | cons y ys ih =>
    simp only [List.map_cons, last_index, ih]
    cases last_index b ys with
    | some k => rfl
    | none =>
      by_cases hy : y = b
      · simp [hy]
      · have : ¬ charVal y = charVal b := fun h => hy ((charVal_inj y b).mp h)
        simp [hy, this]

theorem find_in_order_eq (pat_str : List Byte) (start_pos : Nat) (n_sum ch ret : Int) :
    ∀ n : Nat,
      find_in_order pat_str start_pos n n_sum ch ret
        = match last_index ch
            ((List.range n).map (fun (i : Nat) => charAt pat_str (start_pos + i))) with
          | some k => n_sum + (k : Int)
          | none => ret := by
  intro n
  induction n with
  | zero => simp [find_in_order, last_index]
  | succ n ih =>
    unfold find_in_order at ih ⊢
    rw [List.range_succ, List.foldl_append, List.map_append, last_index_append, ih]
    simp only [List.foldl_cons, List.foldl_nil, List.map_cons, List.map_nil, last_index,
      List.length_map, List.length_range]
    by_cases hc : charAt pat_str (start_pos + n) = ch
    · simp [hc]
    · simp [hc]

theorem last_index_int_range (c0 ch : Int) :
    ∀ m : Nat,
      last_index ch ((List.range m).map (fun (i : Nat) => c0 + (i : Int)))
        = if c0 ≤ ch ∧ ch < c0 + m then some (ch - c0).toNat else none := by
  intro m
  induction m with
  | zero =>
    simp only [List.range_zero, List.map_nil, last_index]
    rw [if_neg]
    intro h
    have := h.2
    simp only [Nat.cast_zero] at this
    omega
  | succ m ih =>
    rw [List.range_succ, List.map_append, last_index_append, ih]
    simp only [List.map_cons, List.map_nil, last_index, List.length_map, List.length_range]
    by_cases hc : c0 + (m : Int) = ch
    · rw [if_pos hc]
      simp only
      rw [if_pos (by push_cast; omega)]
      congr 1
      omega
    · rw [if_neg hc]
      simp only
      by_cases h2 : c0 ≤ ch ∧ ch < c0 + (m : Int)
      · rw [if_pos h2, if_pos (by push_cast; omega)]
      · rw [if_neg h2, if_neg (by push_cast; omega)]

/-- One node of `tr_find_character`: `ret` becomes `n_sum` plus the last index of `ch`
among the characters of the node, if there is one. -/
theorem find_node_eq (pat_str : List Byte) (ch : Int) (p : tr_pattern) (ret n_sum : Int) :
    (match p.type with
      | TR_IN_ORDER => find_in_order pat_str p.start_pos p.n n_sum ch ret
      | TR_RANGE => if p.ch0 ≤ ch ∧ ch ≤ p.ch1 then n_sum + ch - p.ch0 else ret
      | TR_UNINITIALIZED => ret)
      = match last_index ch (node_chars pat_str p) with
        | some k => n_sum + (k : Int)
        | none => ret := by
  unfold node_chars
  cases ht : p.type with
  | TR_UNINITIALIZED => simp [last_index]
  | TR_IN_ORDER =>
    simp only
    exact find_in_order_eq pat_str p.start_pos n_sum ch ret p.n
  | TR_RANGE =>
    simp only
    rw [last_index_int_range]
    by_cases hc : p.ch0 ≤ ch ∧ ch ≤ p.ch1
    · rw [if_pos hc, if_pos (by omega)]
      have hk : ((ch - p.ch0).toNat : Int) = ch - p.ch0 := Int.toNat_of_nonneg (by omega)
      simp only [hk]
      ring
    · rw [if_neg hc, if_neg (by omega)]

/-- The loop of `tr_find_character` over nodes whose counts are exact: `ret` becomes
`n_sum` plus the last index of `ch` in the characters the nodes stand for. -/
theorem tr_find_loop_eq (pat_str : List Byte) (ch : Int) :
    ∀ (pat : List tr_pattern) (ret n_sum : Int), (∀ q ∈ pat, count_ok pat_str q) →
      tr_find_loop pat_str ch pat ret n_sum
        = match last_index ch (expand pat_str pat) with
          | some k => n_sum + (k : Int)
          | none => ret := by
  intro pat
  induction pat with
  | nil => intro ret n_sum _; simp [tr_find_loop, expand, last_index]
  | cons p next ih =>
    intro ret n_sum hq
    have hc : p.n = (node_chars pat_str p).length := hq p (List.mem_cons_self _ _)
    unfold tr_find_loop
    simp only
    rw [find_node_eq, ih _ _ (fun x hx => hq x (List.mem_cons_of_mem _ hx)), expand_cons,
      last_index_append]
    cases h2 : last_index ch (expand pat_str next) with
    | some k =>
      simp only [hc, Nat.cast_add]
      ring
    | none => rfl

/-- The loop of `tr_find_character` as a membership test, for any nodes: started on a
negative `ret`, the result is negative exactly when `ch` is none of their characters. -/
theorem tr_find_loop_mem (pat_str : List Byte) (ch : Int) :
    ∀ (pat : List tr_pattern) (ret n_sum : Int), 0 ≤ n_sum →
      (ch ∈ expand pat_str pat → 0 ≤ tr_find_loop pat_str ch pat ret n_sum) ∧
      (ch ∉ expand pat_str pat → tr_find_loop pat_str ch pat ret n_sum = ret) := by
  intro pat
  induction pat with
  | nil =>
    intro ret n_sum _
    simp [tr_find_loop, expand]
  | cons p next ih =>
    intro ret n_sum hn
    unfold tr_find_loop
    simp only
    rw [find_node_eq, expand_cons]
    obtain ⟨ih1, ih2⟩ := ih
      (match last_index ch (node_chars pat_str p) with
        | some k => n_sum + (k : Int)
        | none => ret) (n_sum + p.n) (by omega)
    constructor
    · intro hm
      by_cases he : ch ∈ expand pat_str next
      · exact ih1 he
      · rw [ih2 he]
        have hc : ch ∈ node_chars pat_str p := by
          rcases List.mem_append.mp hm with h | h
          · exact h
          · exact absurd h he
        cases h3 : last_index ch (node_chars pat_str p) with
        | none => exact absurd hc ((last_index_eq_none _ _).mp h3)
        | some k => simp only; omega
    · intro hm
      have h1 : ch ∉ node_chars pat_str p := fun h => hm (List.mem_append_left _ h)
      have h2 : ch ∉ expand pat_str next := fun h => hm (List.mem_append_right _ h)
      rw [ih2 h2, (last_index_eq_none _ _).mpr h1]

/-! ## The ordinal lookup as an index with clamping -/

/-- The first `switch` of `tr_get_character` at a node, for an ordinal inside the node. -/
theorem node_chars_get (pat_str : List Byte) (q : tr_pattern) (d : Int)
    (hc : count_ok pat_str q) (h0 : 0 ≤ d) (h1 : d < q.n) :
    (node_chars pat_str q)[d.toNat]?
      = some (match q.type with
          | TR_IN_ORDER => charAt pat_str (q.start_pos + d).toNat
          | TR_RANGE => q.ch0 + d
          | TR_UNINITIALIZED => -1) := by
  unfold count_ok at hc
  unfold node_chars at hc ⊢
  cases ht : q.type with
  | TR_UNINITIALIZED =>
    rw [ht] at hc
    simp only [List.length_nil] at hc
    omega
  | TR_IN_ORDER =>
    simp only
    rw [List.getElem?_map, List.getElem?_range (by omega)]
    simp only [Option.map_some']
    congr 2
    omega
  | TR_RANGE =>
    rw [ht] at hc
    simp only [List.length_map, List.length_range] at hc
    simp only
    rw [List.getElem?_map, List.getElem?_range (by omega)]
    simp only [Option.map_some', Option.some.injEq]
    omega

/-- The second `switch` of `tr_get_character` (the clamp) at a node that is not empty. -/
theorem node_chars_last (pat_str : List Byte) (q : tr_pattern)
    (hc : count_ok pat_str q) (h1 : 1 ≤ q.n) :
    (node_chars pat_str q)[q.n - 1]?
      = some (match q.type with
          | TR_IN_ORDER => charAt pat_str (q.start_pos + q.n - 1)
          | TR_RANGE => q.ch1
          | TR_UNINITIALIZED => -1) := by
  unfold count_ok at hc
  unfold node_chars at hc ⊢
  cases ht : q.type with
  | TR_UNINITIALIZED =>
    rw [ht] at hc
    simp only [List.length_nil] at hc
    omega
  | TR_IN_ORDER =>
    simp only
    rw [List.getElem?_map, List.getElem?_range (by omega)]
    simp only [Option.map_some']
    congr 2
    omega
  | TR_RANGE =>
    rw [ht] at hc
    simp only [List.length_map, List.length_range] at hc
    simp only
    rw [List.getElem?_map, List.getElem?_range (by omega)]
    simp only [Option.map_some', Option.some.injEq]
    omega

theorem expand_length_pos (pat_str : List Byte) (q : tr_pattern) (rest : List tr_pattern)
    (hc : count_ok pat_str q) (h1 : 1 ≤ q.n) : 1 ≤ (expand pat_str (q :: rest)).length := by
  rw [expand_cons, List.length_append]
  unfold count_ok at hc
  omega

/-- The loop of `tr_get_character` over nodes that are filled in, with exact counts, none
empty: the character at ordinal `n_th - n_sum` of what the nodes stand for, clamped to the
last one. -/
theorem tr_get_loop_eq (pat_str : List Byte) (n_th : Int) :
    ∀ (pat : List tr_pattern) (n_sum : Int), pat ≠ [] →
      (∀ q ∈ pat, count_ok pat_str q ∧ 1 ≤ q.n) → n_sum ≤ n_th →
      (expand pat_str pat)[min (n_th - n_sum).toNat ((expand pat_str pat).length - 1)]?
        = some (tr_get_loop pat_str n_th pat n_sum) := by
  intro pat
  induction pat with
  | nil => intro _ h; exact absurd rfl h
  | cons p next ih =>
    intro n_sum _ hq hn
    obtain ⟨hc, h1⟩ := hq p (List.mem_cons_self _ _)
    have hlen : (node_chars pat_str p).length = p.n := hc.symm
    rw [expand_cons, List.length_append]
    unfold tr_get_loop
    by_cases hlt : n_th < n_sum + p.n
    · rw [if_pos hlt]
      have hidx : min (n_th - n_sum).toNat
          ((node_chars pat_str p).length + (expand pat_str next).length - 1)
          = (n_th - n_sum).toNat := by omega
      rw [hidx, List.getElem?_append_left (by omega)]
      exact node_chars_get pat_str p (n_th - n_sum) hc (by omega) (by omega)
    · rw [if_neg hlt]
      cases next with
      | nil =>
        simp only [List.isEmpty_nil, if_true]
        have hidx : min (n_th - n_sum).toNat
            ((node_chars pat_str p).length + (expand pat_str []).length - 1) = p.n - 1 := by
          simp only [expand, List.flatMap_nil, List.length_nil]
          omega
        rw [hidx, List.getElem?_append_left (by omega)]
        exact node_chars_last pat_str p hc h1
      | cons q qs =>
        simp only [List.isEmpty_cons, Bool.false_eq_true, if_false]
        obtain ⟨hcq, h1q⟩ := hq q (List.mem_cons_of_mem _ (List.mem_cons_self _ _))
        have hpos := expand_length_pos pat_str q qs hcq h1q
        have hidx : min (n_th - n_sum).toNat
            ((node_chars pat_str p).length + (expand pat_str (q :: qs)).length - 1)
            = (node_chars pat_str p).length
              + min (n_th - (n_sum + p.n)).toNat ((expand pat_str (q :: qs)).length - 1) := by
          omega
        rw [hidx, List.getElem?_append_right (by omega), Nat.add_sub_cancel_left]
        exact ih (n_sum + p.n) (by simp) (fun x hx => hq x (List.mem_cons_of_mem _ hx))
          (by omega)

/-! ## `tr` with a plain from-spec -/

theorem parsed_ne_nil (pattern : List Byte) (fr : Bool) (i : Nat) (h : Bool)
    (nodes : List tr_pattern) (hp : Parsed pattern fr i h nodes) (hi : i < pattern.length) :
    nodes ≠ [] := by
  cases hp with
  | done _ _ h2 => omega
  | range _ _ _ _ _ _ => simp
  | run _ _ _ _ _ _ _ _ _ _ _ _ => simp

theorem expand_ret_of (pat_str : List Byte) (nodes : List tr_pattern) :
    expand pat_str (ret_of nodes) = expand pat_str nodes := by
  unfold ret_of
  split
  · next h => rw [h]; simp [expand, node_chars, STATIC_TR_PATTERN]
  · rfl

theorem count_ok_ret_of (pat_str : List Byte) (nodes : List tr_pattern)
    (h : ∀ q ∈ nodes, count_ok pat_str q) : ∀ q ∈ ret_of nodes, count_ok pat_str q := by
  intro q hq
  rcases mem_ret_of nodes q hq with h1 | h1
  · rw [h1]; simp [count_ok, node_chars, STATIC_TR_PATTERN]
  · exact h q h1

theorem ret_of_eq (nodes : List tr_pattern) (h : nodes ≠ []) : ret_of nodes = nodes := by
  unfold ret_of
  rw [if_neg h]

/-- A spec of at most 65535 bytes is never rejected: the parser returns the nodes of the
complete scan (or the caller's node, left uninitialised, when there is none). -/
theorem tr_parse_pattern_short (pattern : List Byte) (enable : Bool)
    (hlen : pattern.length ≤ 65535) :
    ∃ nodes,
      Parsed pattern (is_reversed pattern enable)
        (if is_reversed pattern enable then 1 else 0) false nodes ∧
      tr_parse_pattern pattern enable = some (ret_of nodes) := by
  rcases tr_parse_pattern_parsed pattern enable with ⟨_, h⟩ | h
  · unfold UINT16_MAX at h; omega
  · exact h

theorem spec_items_mem : ∀ (l : List Byte) (it : spec_item), it ∈ spec_items l →
    match it with
    | spec_item.lit b => b ∈ l
    | spec_item.range lo hi => lo ∈ l ∧ hi ∈ l
  | [], it, h => by simp [spec_items] at h
  | [a], it, h => by
    simp only [spec_items, List.mem_singleton] at h
    rw [h]; simp
  | [a, b], it, h => by
    simp only [spec_items, List.mem_cons, List.mem_singleton, List.not_mem_nil, or_false] at h
    rcases h with h | h <;> rw [h] <;> simp
  | lo :: m :: hi :: rest, it, h => by
    rw [spec_items] at h
    split at h
    · rcases List.mem_cons.mp h with h1 | h1
      · rw [h1]; simp
      · have := spec_items_mem rest it h1
        cases it with
        | lit b => simp only at this ⊢; simp [this]
        | range a c => simp only at this ⊢; simp [this.1, this.2]
    · rcases List.mem_cons.mp h with h1 | h1
      · rw [h1]; simp
      · have := spec_items_mem (m :: hi :: rest) it h1
        cases it with
        | lit b => simp only at this ⊢; exact List.mem_cons_of_mem _ this
        | range a c =>
          simp only at this ⊢
          exact ⟨List.mem_cons_of_mem _ this.1, List.mem_cons_of_mem _ this.2⟩

theorem range_bytes_lt (lo hi : Byte) (t : Byte) (ht : t ∈ range_bytes lo hi) :
    t.val ≤ hi.val := by
  unfold range_bytes at ht
  obtain ⟨k, hk, rfl⟩ := List.mem_map.mp ht
  have hk2 : k < hi.val + 1 - lo.val := List.mem_range.mp hk
  have hhi := hi.isLt
  unfold Fin.ofNat
  simp only
  omega

/-- The flattening of an ASCII spec is ASCII. -/
theorem flatten_ascii (spec : List Byte) (h : ascii spec) :
    ∀ t ∈ flatten spec, t.val < 128 := by
  rw [ascii_iff] at h
  intro t ht
  unfold flatten at ht
  obtain ⟨it, hit, htit⟩ := List.mem_flatMap.mp ht
  have hm := spec_items_mem spec it hit
  cases it with
  | lit b =>
    simp only [flatten_item, List.mem_singleton] at htit
    rw [htit]; exact h b hm
  | range lo hi =>
    simp only [flatten_item] at htit
    have := range_bytes_lt lo hi t htit
    have := h hi hm.2
    omega

/-- The value lookup against a parsed plain spec (ASCII, ranges in order, at most 65535
bytes): the last index of the byte in the flattening, or `-1`. -/
theorem tr_find_character_plain (F : List Byte) (nodes : List tr_pattern)
    (hp : Parsed F false 0 false nodes) (hascii : ascii F) (hord : ranges_ordered F)
    (hlen : F.length ≤ 65535) (b : Byte) :
    tr_find_character (ret_of nodes) F (charVal b)
      = match last_index b (flatten F) with
        | some k => (k : Int)
        | none => -1 := by
  have hnodes := parsed_nodes F false 0 false nodes hp
  have hflag : head_flag_reverse (ret_of nodes) = false := by
    apply head_flag_reverse_of_forall _ false _ (ret_of_ne_nil nodes)
    intro q hq
    rcases mem_ret_of nodes q hq with h | h
    · rw [h]; rfl
    · exact (hnodes q h).1
  have hcount := count_ok_ret_of F nodes
    (fun q hq => (parsed_count_ok F false hascii hlen 0 false nodes hp
      (by simpa using hord) q hq).1)
  have hexp : expand F (ret_of nodes) = (flatten F).map charVal := by
    rw [expand_ret_of, parsed_expand F false hascii hlen 0 false nodes hp]
    simp
  unfold tr_find_character
  rw [hflag, tr_find_loop_eq F (charVal b) (ret_of nodes) (-1) 0 hcount, hexp,
    last_index_map_charVal]
  cases last_index b (flatten F) with
  | none => simp
  | some k => simp

/-- The ordinal lookup against a parsed non-empty to-spec (ASCII, ranges in order, at most
65535 bytes): the byte of the flattening at the ordinal, clamped to the last one. -/
theorem tr_get_character_plain (T : List Byte) (nodes : List tr_pattern)
    (hp : Parsed T false 0 false nodes) (hne : T ≠ []) (hascii : ascii T)
    (hord : ranges_ordered T) (hlen : T.length ≤ 65535) (k : Int) (hk : 0 ≤ k) :
    1 ≤ (flatten T).length ∧
    tr_get_character (ret_of nodes) T k
      = charVal ((flatten T).getD (min k.toNat ((flatten T).length - 1)) 0) ∧
    ((flatten T).getD (min k.toNat ((flatten T).length - 1)) 0).val < 128 := by
  have hpos : 0 < T.length := List.length_pos.mpr hne
  have hnn := parsed_ne_nil T false 0 false nodes hp hpos
  have hcount := parsed_count_ok T false hascii hlen 0 false nodes hp (by simpa using hord)
  have hexp : expand T nodes = (flatten T).map charVal := by
    rw [parsed_expand T false hascii hlen 0 false nodes hp]
    simp
  have hget := tr_get_loop_eq T k nodes 0 hnn hcount hk
  have hlen1 : 1 ≤ (flatten T).length := by
    cases nodes with
    | nil => exact absurd rfl hnn
    | cons q qs =>
      have := expand_length_pos T q qs (hcount q (List.mem_cons_self _ _)).1
        (hcount q (List.mem_cons_self _ _)).2
      rw [hexp, List.length_map] at this
      exact this
  rw [hexp, List.length_map, List.getElem?_map] at hget
  simp only [Int.sub_zero] at hget
  have hidx : min k.toNat ((flatten T).length - 1) < (flatten T).length := by omega
  rw [List.getElem?_eq_getElem hidx] at hget
  simp only [Option.map_some', Option.some.injEq] at hget
  rw [List.getD_eq_getElem _ _ hidx, ret_of_eq nodes hnn]
  refine ⟨hlen1, ?_, flatten_ascii T hascii _ (List.getElem_mem _)⟩
  unfold tr_get_character
  exact hget.symm

/-- With specs that are objects other than the receiver: for every byte string `s`,
every from-spec `F` that is not negated and every non-empty to-spec `T`, both ASCII, with
every range written `lo-hi` with `lo <= hi`, and of at most 65535 bytes,
`str_tr(s, F, T, false)` returns with a buffer of the length of `s` in which a byte that
does not occur in `flatten(F)` is unchanged and a byte whose last index in `flatten(F)` is
`k` is replaced by `flatten(T)[min(k, |flatten(T)| - 1)]`; a change is reported exactly
when some byte of `s` occurs in `flatten(F)`. -/
theorem str_tr_maps_by_last_index (s F T : List Byte)
    (hneg : is_reversed F true = false) (hT : T ≠ [])
    (hFa : ascii F) (hTa : ascii T) (hFo : ranges_ordered F) (hTo : ranges_ordered T)
    (hFl : F.length ≤ 65535) (hTl : T.length ≤ 65535) :
    str_tr s (spec_arg.other F) (spec_arg.other T) false
        = str_result.returned (s.map (tr_ref F T)) (s.any (fun b => decide (b ∈ flatten F))) ∧
    (s.map (tr_ref F T)).length = s.length := by
  refine ⟨?_, by simp⟩
  obtain ⟨nF, hpF, hsF⟩ := tr_parse_pattern_short F true hFl
  obtain ⟨nT, hpT, hsT⟩ := tr_parse_pattern_short T false hTl
  have hT2 : is_reversed T false = false := by simp [is_reversed]
  rw [hneg] at hpF
  rw [hT2] at hpT
  simp only [Bool.false_eq_true, if_false] at hpF hpT
  have hfind := tr_find_character_plain F nF hpF hFa hFo hFl
  have hmap := str_tr_map_other s F T (ret_of nF) (ret_of nT) (tr_ref F T) hsF hsT
    (by
      intro b hb
      rw [hfind b] at hb ⊢
      unfold tr_ref
      cases hl : last_index b (flatten F) with
      | none => rw [hl] at hb; simp at hb
      | some k =>
        simp only
        obtain ⟨_, h2, h3⟩ := tr_get_character_plain T nT hpT hT hTa hTo hTl (k : Int)
          (by omega)
        simp only [Int.toNat_ofNat] at h2 h3
        rw [h2]
        have h4 := charVal_lt ((flatten T).getD (min k ((flatten T).length - 1)) 0)
        exact ⟨(charVal_nonneg _).mpr h3, by omega, byteOfInt_charVal _⟩)
    (by
      intro b hb
      rw [hfind b] at hb
      unfold tr_ref
      cases hl : last_index b (flatten F) with
      | none => rfl
      | some k => rw [hl] at hb; simp at hb)
  rw [hmap]
  congr 1
  congr 1
  funext b
  unfold matched
  rw [hfind b]
  cases hl : last_index b (flatten F) with
  | none =>
    have := (last_index_eq_none b (flatten F)).mp hl
    simp [this]
  | some k =>
    have : b ∈ flatten F := by
      by_contra hc
      rw [(last_index_eq_none b (flatten F)).mpr hc] at hl
      simp at hl
    simp [this]

/-- Claim C1. `str_tr` looks both specs up through `RSTRING_PTR(p1)` and `RSTRING_PTR(p2)`
in every iteration, while it rewrites the receiver in place; `tr!` passes the receiver
itself to `str_tr`, so a spec that is the receiver is read after earlier bytes were
replaced. With `s = "-a-c"`, `s.tr!(s, "x")` leaves `"xx-x"`: the third byte `-` is looked
up in the buffer `"xx-c"` and no longer found, where the mapping by last index in
`flatten("-a-c")` gives `"xxxx"`, as `"-a-c".tr("-a-c", "x")` does. With `s = "ba"`,
`s.tr!("ab", s)` leaves `"aa"`: the second byte is replaced by the byte the first
iteration stored, where the mapping gives `"ab"`. Both inputs meet every condition of
the claim. Whenever neither spec is the receiver, the claim holds for every `s`, `F` and
`T` of its conditions, as in the two examples of the documentation. -/
theorem C1_tr_bang_reads_rewritten_spec :
    str_tr (bytes "-a-c") spec_arg.receiver (spec_arg.other (bytes "x")) false
      = str_result.returned (bytes "xx-x") true ∧
    (bytes "-a-c").map (tr_ref (bytes "-a-c") (bytes "x")) = bytes "xxxx" ∧
    str_tr (bytes "-a-c") (spec_arg.other (bytes "-a-c")) (spec_arg.other (bytes "x")) false
      = str_result.returned (bytes "xxxx") true ∧
    str_tr (bytes "ba") (spec_arg.other (bytes "ab")) spec_arg.receiver false
      = str_result.returned (bytes "aa") true ∧
    (bytes "ba").map (tr_ref (bytes "ab") (bytes "ba")) = bytes "ab" ∧
    str_tr (bytes "ba") (spec_arg.other (bytes "ab")) (spec_arg.other (bytes "ba")) false
      = str_result.returned (bytes "ab") true ∧
    (is_reversed (bytes "-a-c") true = false ∧ ascii (bytes "-a-c") ∧
      ranges_ordered (bytes "-a-c") ∧ ascii (bytes "x") ∧ ranges_ordered (bytes "x")) ∧
    (is_reversed (bytes "ab") true = false ∧ ascii (bytes "ab") ∧
      ranges_ordered (bytes "ab") ∧ ascii (bytes "ba") ∧ ranges_ordered (bytes "ba")) ∧
    (∀ s F T : List Byte, is_reversed F true = false → T ≠ [] → ascii F → ascii T →
      ranges_ordered F → ranges_ordered T → F.length ≤ 65535 → T.length ≤ 65535 →
      str_tr s (spec_arg.other F) (spec_arg.other T) false
          = str_result.returned (s.map (tr_ref F T))
              (s.any (fun b => decide (b ∈ flatten F))) ∧
        (s.map (tr_ref F T)).length = s.length) ∧
    str_tr (bytes "hello") (spec_arg.other (bytes "el")) (spec_arg.other (bytes "ip")) false
      = str_result.returned (bytes "hippo") true ∧
    str_tr (bytes "hello") (spec_arg.other (bytes "a-y")) (spec_arg.other (bytes "b-z")) false
      = str_result.returned (bytes "ifmmp") true :=
  ⟨by decide, by decide, by decide, by decide, by decide, by decide, by decide, by decide,
    fun s F T h1 h2 h3 h4 h5 h6 h7 h8 => str_tr_maps_by_last_index s F T h1 h2 h3 h4 h5 h6 h7 h8,
    by decide, by decide⟩

/-! ## `tr` with a negated from-spec -/

theorem flatten_length_le : ∀ l : List Byte, (flatten l).length ≤ 256 * l.length
  | [] => by simp [flatten, spec_items]
  | [a] => by simp [flatten, spec_items, flatten_item]
  | [a, b] => by simp [flatten, spec_items, flatten_item]
  | lo :: m :: hi :: rest => by
    unfold flatten
    rw [spec_items]
    split
    · have ih := flatten_length_le rest
      unfold flatten at ih
      have hlo := lo.isLt
      have hhi := hi.isLt
      simp only [List.flatMap_cons, List.length_append, flatten_item, range_bytes,
        List.length_map, List.length_range, List.length_cons]
      omega
    · have ih := flatten_length_le (m :: hi :: rest)
      unfold flatten at ih
      simp only [List.flatMap_cons, List.length_append, flatten_item, List.length_cons,
        List.length_nil] at ih ⊢
      omega

theorem mem_map_charVal (b : Byte) (l : List Byte) : charVal b ∈ l.map charVal ↔ b ∈ l := by
  rw [List.mem_map]
  constructor
  · rintro ⟨a, ha, h⟩
    rw [← (charVal_inj a b).mp h]; exact ha
  · intro h; exact ⟨b, h, rfl⟩

/-- The value lookup against a parsed negated spec `^X` (ASCII, at most 65535 bytes): no
match for a byte of the flattening of `X`, the sentinel `MRB_INT_MAX` for every other. -/
theorem tr_find_character_negated (X : List Byte) (nodes : List tr_pattern)
    (hX : X ≠ []) (hp : Parsed (94 :: X) true 1 false nodes) (hascii : ascii X)
    (hlen : X.length ≤ 65534) (b : Byte) :
    tr_find_character (ret_of nodes) (94 :: X) (charVal b)
      = if b ∈ flatten X then -1 else MRB_INT_MAX := by
  have hpos : 0 < X.length := List.length_pos.mpr hX
  have hFa : ascii (94 :: X) := by
    rw [ascii_iff] at hascii ⊢
    intro c hc
    rcases List.mem_cons.mp hc with h | h
    · rw [h]; decide
    · exact hascii c h
  have hnn := parsed_ne_nil (94 :: X) true 1 false nodes hp (by simp; omega)
  have hnodes := parsed_nodes (94 :: X) true 1 false nodes hp
  have hflag : head_flag_reverse nodes = true :=
    head_flag_reverse_of_forall _ true (fun q hq => (hnodes q hq).1) hnn
  have hexp : expand (94 :: X) nodes = (flatten X).map charVal := by
    rw [parsed_expand (94 :: X) true hFa (by simp; omega) 1 false nodes hp]
    simp
  obtain ⟨h1, h2⟩ := tr_find_loop_mem (94 :: X) (charVal b) nodes (-1) 0 (le_refl _)
  rw [hexp, mem_map_charVal] at h1 h2
  rw [ret_of_eq nodes hnn]
  unfold tr_find_character
  rw [hflag]
  simp only [if_true]
  by_cases hb : b ∈ flatten X
  · rw [if_pos hb, if_neg (by have := h1 hb; omega)]
  · rw [if_neg hb, if_pos (by rw [h2 hb]; omega)]

/-! ### A spec that is the receiver: the bytes the lookups read -/

/-- The characters of a node read from two buffers that agree on the run of the node. -/
theorem node_chars_congr (B F : List Byte) (q : tr_pattern)
    (h : q.type = TR_IN_ORDER →
      ∀ k, k < q.n → byteAt B (q.start_pos + k) = byteAt F (q.start_pos + k)) :
    node_chars B q = node_chars F q := by
  unfold node_chars
  cases ht : q.type with
  | TR_UNINITIALIZED => rfl
  | TR_RANGE => rfl
  | TR_IN_ORDER =>
    simp only
    apply List.map_congr_left
    intro k hk
    unfold charAt
    rw [h ht k (List.mem_range.mp hk)]

theorem tr_find_loop_congr (B F : List Byte) (ch : Int) :
    ∀ (pat : List tr_pattern) (ret n_sum : Int),
      (∀ q ∈ pat, node_chars B q = node_chars F q) →
      tr_find_loop B ch pat ret n_sum = tr_find_loop F ch pat ret n_sum := by
  intro pat
  induction pat with
  | nil => intro ret n_sum _; simp [tr_find_loop]
  | cons p next ih =>
    intro ret n_sum h
    unfold tr_find_loop
    simp only
    rw [find_node_eq B ch p ret n_sum, find_node_eq F ch p ret n_sum,
      h p (List.mem_cons_self _ _)]
    exact ih _ _ (fun q hq => h q (List.mem_cons_of_mem _ hq))

/-- The value lookup reads the spec only on the runs of the in-order nodes. -/
theorem tr_find_character_congr (pat : List tr_pattern) (B F : List Byte) (ch : Int)
    (h : ∀ q ∈ pat, node_chars B q = node_chars F q) :
    tr_find_character pat B ch = tr_find_character pat F ch := by
  unfold tr_find_character
  rw [tr_find_loop_congr B F ch pat (-1) 0 h]

/-- Past a rewritten prefix the buffer holds the bytes it held. -/
theorem byteAt_map_prefix_ge (f : Byte → Byte) (pre tail : List Byte) (k : Nat)
    (h : pre.length ≤ k) : byteAt (pre.map f ++ tail) k = byteAt (pre ++ tail) k := by
  unfold byteAt
  rw [List.getD_append_right _ _ _ _ (by rw [List.length_map]; exact h),
    List.getD_append_right _ _ _ _ h, List.length_map]

theorem byteAt_map_prefix_lt (f : Byte → Byte) (pre tail : List Byte) (k : Nat)
    (h : k < pre.length) : byteAt (pre.map f ++ tail) k = f (byteAt (pre ++ tail) k) := by
  unfold byteAt
  rw [List.getD_append _ _ _ _ (by rw [List.length_map]; exact h),
    List.getD_append _ _ _ _ h,
    List.getD_eq_getElem _ _ (by rw [List.length_map]; exact h),
    List.getD_eq_getElem _ _ h, List.getElem_map]

/-- A mapping that fixes every character of the nodes leaves the value lookup against the
buffer as it was, whatever prefix of the buffer has been rewritten by it. -/
theorem tr_find_character_map_prefix (pat : List tr_pattern) (f : Byte → Byte)
    (pre tail : List Byte) (ch : Int)
    (hfix : ∀ b : Byte, charVal b ∈ expand (pre ++ tail) pat → f b = b) :
    tr_find_character pat (pre.map f ++ tail) ch = tr_find_character pat (pre ++ tail) ch := by
  apply tr_find_character_congr
  intro q hq
  apply node_chars_congr
  intro ht k hk
  by_cases hlt : q.start_pos + k < pre.length
  · rw [byteAt_map_prefix_lt f pre tail _ hlt]
    apply hfix
    unfold expand
    apply List.mem_flatMap.mpr
    refine ⟨q, hq, ?_⟩
    unfold node_chars
    simp only [ht]
    exact List.mem_map.mpr ⟨k, List.mem_range.mpr hk, rfl⟩
  · exact byteAt_map_prefix_ge f pre tail _ (by omega)

/-- An ordinal at or past the sum of the counts is clamped to the last character of the
last node, whatever the counts are. -/
theorem tr_get_loop_clamp (X : List Byte) (n_th : Int) (q : tr_pattern) :
    ∀ (init : List tr_pattern) (n_sum : Int),
      n_sum + ((((init ++ [q]).map (fun p => p.n)).sum : Nat) : Int) ≤ n_th →
      tr_get_loop X n_th (init ++ [q]) n_sum
        = match q.type with
          | TR_IN_ORDER => charAt X (q.start_pos + q.n - 1)
          | TR_RANGE => q.ch1
          | TR_UNINITIALIZED => -1 := by
  intro init
  induction init with
  | nil =>
    intro n_sum h
    simp only [List.nil_append, List.map_cons, List.map_nil, List.sum_cons, List.sum_nil,
      Nat.add_zero] at h
    rw [List.nil_append]
    unfold tr_get_loop
    rw [if_neg (by omega)]
    simp
  | cons p init ih =>
    intro n_sum h
    simp only [List.cons_append, List.map_cons, List.sum_cons, Nat.cast_add] at h
    rw [List.cons_append]
    unfold tr_get_loop
    rw [if_neg (by omega), if_neg (by simp)]
    exact ih (n_sum + p.n) (by omega)

/-- The counts of the nodes of a scan add up to at most 65536 per byte scanned. -/
theorem parsed_total_le (pattern : List Byte) (fr : Bool) (i : Nat) (h : Bool)
    (nodes : List tr_pattern) (hp : Parsed pattern fr i h nodes) :
    (nodes.map (fun p => p.n)).sum ≤ 65536 * (pattern.length - i) := by
  induction hp with
  | done i h hi => simp
  | range i h rest hi hr hrest ih =>
    have h3 := ((is_range_iff pattern i).mp hr).1
    have hn : (range_node pattern fr h i).n < 65536 := by
      simp only [range_node]
      have h1 := Int.emod_lt_of_pos (charAt pattern (i + 2) - charAt pattern i + 1)
        (by decide : (0 : Int) < 65536)
      have h2 := Int.emod_nonneg (charAt pattern (i + 2) - charAt pattern i + 1)
        (by decide : (65536 : Int) ≠ 0)
      omega
    simp only [List.map_cons, List.sum_cons]
    omega
  | run i i1 h rest hi hr h1 h2 hmid hend hlen hrest ih =>
    have hn : (in_order_node fr h i i1).n < 65536 := by
      simp only [in_order_node]
      omega
    simp only [List.map_cons, List.sum_cons]
    omega

/-- The last node of the scan of a spec of at most 65535 bytes, when it is an in-order
node, ends at the end of the spec. -/
theorem parsed_last_in_order (pattern : List Byte) (fr : Bool) (hlen : pattern.length ≤ 65535)
    (i : Nat) (h : Bool) (nodes : List tr_pattern) (hp : Parsed pattern fr i h nodes) :
    ∀ (init : List tr_pattern) (q : tr_pattern), nodes = init ++ [q] → q.type = TR_IN_ORDER →
      q.start_pos + q.n = pattern.length := by
  induction hp with
  | done i h hi => intro init q he; simp at he
  | range i h rest hi hr hrest ih =>
    intro init q he ht
    cases init with
    | nil =>
      simp only [List.nil_append, List.cons.injEq] at he
      rw [← he.1] at ht
      simp [range_node] at ht
    | cons p init =>
      simp only [List.cons_append, List.cons.injEq] at he
      exact ih init q he.2 ht
  | run i i1 h rest hi hr h1 h2 hmid hend hlen2 hrest ih =>
    intro init q he ht
    cases init with
    | nil =>
      simp only [List.nil_append, List.cons.injEq] at he
      obtain ⟨hq, hr0⟩ := he
      subst hr0
      cases hrest with
      | done _ _ hi1 =>
        rw [← hq]
        simp only [in_order_node]
        omega
    | cons p init =>
      simp only [List.cons_append, List.cons.injEq] at he
      exact ih init q he.2 ht

/-- The replacement of the sentinel ordinal `MRB_INT_MAX` in a to-spec that is the
receiver: it is read at the last node, past every byte already rewritten. -/
theorem tr_get_character_sentinel_map_prefix (nodes : List tr_pattern) (f : Byte → Byte)
    (pre tail : List Byte) (fr : Bool) (i : Nat) (h : Bool)
    (hp : Parsed (pre ++ tail) fr i h nodes) (htail : tail ≠ [])
    (hlen : (pre ++ tail).length ≤ 65535) (hnn : nodes ≠ []) :
    tr_get_character nodes (pre.map f ++ tail) MRB_INT_MAX
      = tr_get_character nodes (pre ++ tail) MRB_INT_MAX := by
  obtain ⟨init, q, hn⟩ : ∃ init q, nodes = init ++ [q] :=
    ⟨nodes.dropLast, nodes.getLast hnn, (List.dropLast_append_getLast hnn).symm⟩
  have htot := parsed_total_le (pre ++ tail) fr i h nodes hp
  have hmax : MRB_INT_MAX = 9223372036854775807 := by decide
  have hb : (0 : Int) + ((((init ++ [q]).map (fun p => p.n)).sum : Nat) : Int) ≤ MRB_INT_MAX := by
    rw [← hn, hmax]
    have : 65536 * ((pre ++ tail).length - i) ≤ 65536 * 65535 :=
      Nat.mul_le_mul_left _ (by omega)
    omega
  unfold tr_get_character
  rw [hn, tr_get_loop_clamp _ _ q init 0 hb, tr_get_loop_clamp _ _ q init 0 hb]
  cases ht : q.type with
  | TR_UNINITIALIZED => rfl
  | TR_RANGE => rfl
  | TR_IN_ORDER =>
    simp only
    have hl := parsed_last_in_order (pre ++ tail) fr hlen i h nodes hp init q hn ht
    have htl : 0 < tail.length := List.length_pos.mpr htail
    rw [List.length_append] at hl
    unfold charAt
    rw [byteAt_map_prefix_ge f pre tail _ (by omega)]

/-- The characters of the nodes of a negated spec `^X` are those of `flatten(X)`. -/
theorem expand_negated (X : List Byte) (nodes : List tr_pattern) (hX : X ≠ [])
    (hp : Parsed (94 :: X) true 1 false nodes) (hascii : ascii X) (hlen : X.length ≤ 65534) :
    expand (94 :: X) (ret_of nodes) = (flatten X).map charVal := by
  have hpos : 0 < X.length := List.length_pos.mpr hX
  have hFa : ascii (94 :: X) := by
    rw [ascii_iff] at hascii ⊢
    intro c hc
    rcases List.mem_cons.mp hc with h | h
    · rw [h]; decide
    · exact hascii c h
  rw [expand_ret_of, parsed_expand (94 :: X) true hFa (by simp; omega) 1 false nodes hp]
  simp

/-- Claim C8 (counterexample). With the to-spec `"abz-a"`, whose range is written with
`lo > hi`, the flattening is `"ab"` and its last character is `b`, but
`"hello".tr("^aeiou", "abz-a")` replaces the bytes outside the set by `a`, the upper end
stored in the last node. -/
theorem C8_counterexample :
    str_tr (bytes "hello") (spec_arg.other (bytes "^aeiou")) (spec_arg.other (bytes "abz-a")) false
      = str_result.returned (bytes "aeaao") true ∧
    flatten (bytes "abz-a") = bytes "ab" ∧
    (bytes "hello").map (tr_neg_ref (bytes "aeiou") (bytes "abz-a")) = bytes "bebbo" ∧
    ascii (bytes "abz-a") := by
  decide

/-- Claim C8 (amended). For every byte string `s`, every negated from-spec `^X` (`X` not
empty) and every non-empty to-spec `T`, both ASCII and of at most 65535 bytes, `T` with
every range written `lo-hi` with `lo <= hi`, `str_tr(s, ^X, T, false)` leaves every byte
of the literal set of `X` unchanged and replaces every other byte by the last character
of `flatten(T)`; a change is reported exactly when some byte of `s` is outside the set.
Either spec may be the receiver itself (`a1`, `a2`): the bytes the lookups read are not
among those the call rewrites. -/
theorem C8_negated_from_spec (s X T : List Byte) (a1 a2 : spec_arg)
    (h1 : spec_buf a1 s = 94 :: X) (h2 : spec_buf a2 s = T) (hX : X ≠ []) (hT : T ≠ [])
    (hXa : ascii X) (hTa : ascii T) (hTo : ranges_ordered T)
    (hXl : X.length ≤ 65534) (hTl : T.length ≤ 65535) :
    str_tr s a1 a2 false
      = str_result.returned (s.map (tr_neg_ref X T))
          (s.any (fun b => decide (b ∉ flatten X))) := by
  have hpos : 0 < X.length := List.length_pos.mpr hX
  obtain ⟨nF, hpF, hsF⟩ := tr_parse_pattern_short (94 :: X) true (by simp; omega)
  obtain ⟨nT, hpT, hsT⟩ := tr_parse_pattern_short T false hTl
  have hF2 : is_reversed (94 :: X) true = true := by
    have h1 : 2 ≤ (94 :: X).length := by simp; omega
    have h2 : charAt (94 :: X) 0 = CARET := by
      simp only [charAt, byteAt, List.getD_cons_zero]
      decide
    unfold is_reversed
    rw [decide_eq_true h1, decide_eq_true h2]
    rfl
  have hT2 : is_reversed T false = false := by simp [is_reversed]
  rw [hF2] at hpF
  rw [hT2] at hpT
  simp only [Bool.false_eq_true, if_false, if_true] at hpF hpT
  have hfind := tr_find_character_negated X nF hX hpF hXa hXl
  have hexp := expand_negated X nF hX hpF hXa hXl
  have hnT : nT ≠ [] := parsed_ne_nil T false 0 false nT hpT (List.length_pos.mpr hT)
  obtain ⟨hl1, hg, hg3⟩ := tr_get_character_plain T nT hpT hT hTa hTo hTl MRB_INT_MAX
    (by decide)
  have hbound := flatten_length_le T
  have hidx : min MRB_INT_MAX.toNat ((flatten T).length - 1) = (flatten T).length - 1 := by
    have : MRB_INT_MAX.toNat = 9223372036854775807 := by decide
    omega
  rw [hidx] at hg hg3
  have hmap := str_tr_map s a1 a2 (ret_of nF) (ret_of nT) (tr_neg_ref X T)
    (by rw [h1]; exact hsF) (by rw [h2]; exact hsT)
    (by
      rw [h1, h2]
      intro b hb
      rw [hfind b] at hb ⊢
      unfold tr_neg_ref
      by_cases hm : b ∈ flatten X
      · rw [if_pos hm] at hb; omega
      · rw [if_neg hm, if_neg hm, hg]
        have h4 := charVal_lt ((flatten T).getD ((flatten T).length - 1) 0)
        exact ⟨(charVal_nonneg _).mpr hg3, by omega, byteOfInt_charVal _⟩)
    (by
      rw [h1]
      intro b hb
      rw [hfind b] at hb
      unfold tr_neg_ref
      by_cases hm : b ∈ flatten X
      · rw [if_pos hm]
      · rw [if_neg hm] at hb
        exact absurd (by decide : 0 ≤ MRB_INT_MAX) hb)
    (by
      intro pre x rest hs
      cases a1 with
      | other p => rfl
      | receiver =>
        simp only [spec_buf] at h1 ⊢
        rw [← hs]
        apply tr_find_character_map_prefix
        intro b hb
        rw [hs, h1, hexp, mem_map_charVal] at hb
        unfold tr_neg_ref
        rw [if_pos hb])
    (by
      intro pre x rest hs hn
      cases a2 with
      | other p => rfl
      | receiver =>
        rw [h1, hfind x] at hn ⊢
        simp only [spec_buf] at h2 ⊢
        by_cases hm : x ∈ flatten X
        · rw [if_pos hm] at hn; omega
        · rw [if_neg hm, ← hs, ret_of_eq nT hnT]
          have hpT2 : Parsed (pre ++ x :: rest) false 0 false nT := by rw [hs, h2]; exact hpT
          exact tr_get_character_sentinel_map_prefix nT (tr_neg_ref X T) pre (x :: rest)
            false 0 false hpT2 (by simp) (by rw [hs, h2]; exact hTl) hnT)
  rw [hmap, h1]
  congr 1
  congr 1
  funext b
  unfold matched
  rw [hfind b]
  by_cases hm : b ∈ flatten X
  · simp [hm]
  · have : (0 : Int) ≤ MRB_INT_MAX := by decide
    simp [hm, this]

/-- A use of `C8_negated_from_spec`: `"hello".tr("^aeiou", "*") = "*e**o"`, and, the
from-spec being the receiver, `s.tr!(s, "*")` for `s = "^aeiou"`, which leaves `"*aeiou"`. -/
theorem C8_negated_witness :
    (str_tr (bytes "hello") (spec_arg.other (94 :: bytes "aeiou")) (spec_arg.other (bytes "*"))
        false
        = str_result.returned ((bytes "hello").map (tr_neg_ref (bytes "aeiou") (bytes "*")))
            ((bytes "hello").any (fun b => decide (b ∉ flatten (bytes "aeiou"))))) ∧
    (bytes "hello").map (tr_neg_ref (bytes "aeiou") (bytes "*")) = bytes "*e**o" ∧
    (94 :: bytes "aeiou") = bytes "^aeiou" ∧
    (str_tr (bytes "^aeiou") spec_arg.receiver (spec_arg.other (bytes "*")) false
        = str_result.returned ((bytes "^aeiou").map (tr_neg_ref (bytes "aeiou") (bytes "*")))
            ((bytes "^aeiou").any (fun b => decide (b ∉ flatten (bytes "aeiou"))))) ∧
    (bytes "^aeiou").map (tr_neg_ref (bytes "aeiou") (bytes "*")) = bytes "*aeiou" :=
  ⟨C8_negated_from_spec (bytes "hello") (bytes "aeiou") (bytes "*")
      (spec_arg.other (94 :: bytes "aeiou")) (spec_arg.other (bytes "*")) rfl rfl
      (by decide) (by decide) (by decide) (by decide) (by decide) (by decide) (by decide),
    by decide, by decide,
    C8_negated_from_spec (bytes "^aeiou") (bytes "aeiou") (bytes "*")
      spec_arg.receiver (spec_arg.other (bytes "*")) (by decide) rfl
      (by decide) (by decide) (by decide) (by decide) (by decide) (by decide) (by decide),
    by decide⟩

/-! ## The shape of the nodes of a scan -/

/-- Every node of a scan is the range node of a position where a range was detected, or
the in-order node of a run `a .. b-1` of positions where none was, ended by a detected
range or by the end of the pattern, and of at most `UINT16_MAX` bytes. -/
theorem parsed_node_shape (pattern : List Byte) (fr : Bool) (i : Nat) (h : Bool)
    (nodes : List tr_pattern) (hp : Parsed pattern fr i h nodes) :
    ∀ q ∈ nodes,
      (∃ k on_heap, i ≤ k ∧ k < pattern.length ∧ is_range pattern k = true ∧
        q = range_node pattern fr on_heap k) ∨
      (∃ a b on_heap, i ≤ a ∧ a < b ∧ b ≤ pattern.length ∧ b - a ≤ UINT16_MAX ∧
        (∀ x, a ≤ x → x < b → is_range pattern x = false) ∧
        (b < pattern.length → is_range pattern b = true) ∧
        q = in_order_node fr on_heap a b) := by
  induction hp with
  | done i h hi => intro q hq; simp at hq
  | range i h rest hi hr hrest ih =>
    intro q hq
    rcases List.mem_cons.mp hq with hq | hq
    · left; exact ⟨i, h, le_refl _, hi, hr, hq⟩
    · rcases ih q hq with ⟨k, o, a1, a2, a3, a4⟩ | ⟨a, b, o, a1, a2, a3, a4, a5, a6, a7⟩
      · left; exact ⟨k, o, by omega, a2, a3, a4⟩
      · right; exact ⟨a, b, o, by omega, a2, a3, a4, a5, a6, a7⟩
  | run i i1 h rest hi hr h1 h2 hmid hend hlen hrest ih =>
    intro q hq
    rcases List.mem_cons.mp hq with hq | hq
    · right
      refine ⟨i, i1, h, le_refl _, h1, h2, hlen, ?_, hend, hq⟩
      intro x hx1 hx2
      by_cases hxi : x = i
      · rw [hxi]; exact hr
      · exact hmid x (by omega) hx2
    · rcases ih q hq with ⟨k, o, a1, a2, a3, a4⟩ | ⟨a, b, o, a1, a2, a3, a4, a5, a6, a7⟩
      · left; exact ⟨k, o, by omega, a2, a3, a4⟩
      · right; exact ⟨a, b, o, by omega, a2, a3, a4, a5, a6, a7⟩

/-- What `tr_parse_pattern` returns is the caller's node, left uninitialised, or nodes of
a scan. -/
theorem tr_parse_pattern_some (pattern : List Byte) (enable : Bool) (pat : List tr_pattern)
    (hp : tr_parse_pattern pattern enable = some pat) :
    ∃ nodes,
      Parsed pattern (is_reversed pattern enable)
        (if is_reversed pattern enable then 1 else 0) false nodes ∧
      pat = ret_of nodes := by
  rcases tr_parse_pattern_parsed pattern enable with ⟨hn, _⟩ | ⟨nodes, hpn, hs⟩
  · rw [hn] at hp; simp at hp
  · rw [hs] at hp
    exact ⟨nodes, hpn, (Option.some.inj hp).symm⟩

/-! ## The error of a replacement out of range -/

/-- Claim C14. The error "character out of range" is not atomic: `"ai".tr("a-z", "Az-a")`
first rewrites `a` to `A` in place, then raises on the replacement `129` of `i`
(`z + 7`, from the range `z-a` whose ends are out of order), and the buffer the failed
call leaves, `"Ai"`, differs from the buffer before the call. -/
theorem C14_out_of_range_not_atomic :
    str_tr (bytes "ai") (spec_arg.other (bytes "a-z")) (spec_arg.other (bytes "Az-a")) false
      = str_result.raised (bytes "Ai") (tr_error.char_out_of_range 129) ∧
    result_buf (str_tr (bytes "ai") (spec_arg.other (bytes "a-z"))
        (spec_arg.other (bytes "Az-a")) false) ≠ bytes "ai" := by
  decide

/-! ## Identity mapping and the change flag -/

/-- With a from-spec `X` that is not negated and is ASCII, `str_tr(s, X, X, false)` leaves
`s` as it is and returns `flag_changed` set as soon as one byte of `s` is matched, whether
each spec is the receiver itself or another object. -/
theorem str_tr_identity (s X : List Byte) (a1 a2 : spec_arg) (pat : List tr_pattern)
    (ha1 : spec_buf a1 s = X) (ha2 : spec_buf a2 s = X)
    (hneg : is_reversed X true = false) (hascii : ascii X)
    (hp : tr_parse_pattern X true = some pat) :
    str_tr s a1 a2 false = str_result.returned s (s.any (fun b => matched pat X b)) := by
  have h2 : is_reversed X false = false := by simp [is_reversed]
  have hsame : tr_parse_pattern X false = some pat := by
    rw [← hp]
    unfold tr_parse_pattern
    rw [hneg, h2]
  obtain ⟨nodes, hpn, hs⟩ := tr_parse_pattern_some X true pat hp
  rw [hneg] at hpn
  have hnodes := parsed_nodes X false _ false nodes hpn
  have hall : ∀ q ∈ pat, q.flag_reverse = false ∧ range_ok q ∧
      (q.type = TR_RANGE → 0 ≤ q.ch0) := by
    intro q hq
    rw [hs] at hq
    rcases mem_ret_of nodes q hq with h | h
    · rw [h]
      exact ⟨rfl, fun ht => by simp [STATIC_TR_PATTERN] at ht,
        fun ht => by simp [STATIC_TR_PATTERN] at ht⟩
    · obtain ⟨a, _, c, d⟩ := hnodes q h
      refine ⟨a, c, fun ht => ?_⟩
      obtain ⟨k, _, hk⟩ := d ht
      rw [hk]
      exact charAt_nonneg_of_ascii X hascii k
  have hflag : head_flag_reverse pat = false :=
    head_flag_reverse_of_forall _ false (fun q hq => (hall q hq).1)
      (by rw [hs]; exact ret_of_ne_nil nodes)
  have hfind : ∀ ch, tr_find_character pat X ch = tr_find_loop X ch pat (-1) 0 := by
    intro ch
    unfold tr_find_character
    rw [hflag]
    simp
  have key : ∀ b : Byte, 0 ≤ tr_find_character pat X (charVal b) →
      tr_get_character pat X (tr_find_character pat X (charVal b)) = charVal b ∧
        0 ≤ charVal b := by
    intro b hb
    rw [hfind] at hb ⊢
    constructor
    · rcases tr_find_get_loop X (charVal b) pat (-1) 0 (fun q hq => (hall q hq).2.1)
        with h | ⟨_, h⟩
      · rw [h] at hb; omega
      · exact h
    · rcases tr_find_loop_nonneg X (charVal b) (charAt_nonneg_of_ascii X hascii) pat (-1) 0
        (fun q hq => (hall q hq).2.2) with h | h
      · rw [h] at hb; omega
      · exact h
  have hmap := str_tr_map s a1 a2 pat pat id (by rw [ha1]; exact hp) (by rw [ha2]; exact hsame)
    (by
      rw [ha1, ha2]
      intro b hb
      obtain ⟨h1, h2⟩ := key b hb
      rw [h1]
      exact ⟨h2, by have := charVal_lt b; omega, byteOfInt_charVal b⟩)
    (fun b _ => rfl)
    (by
      intro pre x rest hpre
      rw [List.map_id, hpre])
    (by
      intro pre x rest hpre _
      rw [List.map_id, hpre])
  rw [hmap, ha1]
  simp

/-- Claim C11. The function `str_tr` sets `flag_changed` at every matched byte, whether or not
the replacement differs from it: `"hello".tr!("l", "l")` leaves the string as it is and
still returns it (`flag_changed = TRUE`) instead of `nil`. The spec `"l"` is not negated
and is ASCII. -/
theorem C11_identity_mapping_reports_change :
    str_tr (bytes "hello") (spec_arg.other (bytes "l")) (spec_arg.other (bytes "l")) false
      = str_result.returned (bytes "hello") true ∧
    is_reversed (bytes "l") true = false ∧ ascii (bytes "l") := by
  decide

/-! ## Invariants of the parsed nodes -/

/-- Claim C19 (counterexample). For the spec `"z-a"` the parser emits a range node with
`lo = 'z' > hi = 'a'` and the count `65512`, that is `'a' - 'z' + 1` stored in a
`uint16_t`. -/
theorem C19_counterexample :
    tr_parse_pattern (bytes "z-a") true = some [⟨TR_RANGE, false, false, 65512, 0, 122, 97⟩] ∧
    ¬ ((122 : Int) ≤ 97) ∧ (65512 : Int) ≠ 97 - 122 + 1 := by
  decide

/-- Claim C19 (amended). Every range node the parser emits, for every spec, holds the
`char` values of the two ends of a range `spec[k] - spec[k+2]` detected at a position `k`,
its count is `hi - lo + 1` reduced modulo `2^16`, and the count equals `hi - lo + 1`
whenever `lo <= hi`. -/
theorem C19_range_node_count (p : List Byte) (enable : Bool) (pat : List tr_pattern)
    (hp : tr_parse_pattern p enable = some pat) :
    ∀ q ∈ pat, q.type = TR_RANGE →
      (∃ k, k + 2 < p.length ∧ is_range p k = true ∧
        q.ch0 = charAt p k ∧ q.ch1 = charAt p (k + 2)) ∧
      (q.n : Int) = (q.ch1 - q.ch0 + 1) % 65536 ∧
      (q.ch0 ≤ q.ch1 → (q.n : Int) = q.ch1 - q.ch0 + 1) := by
  obtain ⟨nodes, hpn, hs⟩ := tr_parse_pattern_some p enable pat hp
  intro q hq ht
  rw [hs] at hq
  rcases mem_ret_of nodes q hq with h | h
  · rw [h] at ht; simp [STATIC_TR_PATTERN] at ht
  · rcases parsed_node_shape p _ _ _ nodes hpn q h with
      ⟨k, o, _, a2, a3, a4⟩ | ⟨a, b, o, _, _, _, _, _, _, a7⟩
    · have hk := ((is_range_iff p k).mp a3).1
      have b1 := charAt_lt p k
      have b2 := charAt_ge p k
      have b3 := charAt_lt p (k + 2)
      have b4 := charAt_ge p (k + 2)
      rw [a4]
      refine ⟨⟨k, hk, a3, rfl, rfl⟩, ?_, ?_⟩
      · simp only [range_node]; omega
      · simp only [range_node]; omega
    · rw [a7] at ht; simp [in_order_node] at ht

/-- A use of `C19_range_node_count`: the range node of `"a-y"`, of count 25. -/
theorem C19_range_node_count_witness :
    tr_parse_pattern (bytes "a-y") true = some [⟨TR_RANGE, false, false, 25, 0, 97, 121⟩] ∧
    ((∃ k, k + 2 < (bytes "a-y").length ∧ is_range (bytes "a-y") k = true ∧
        (97 : Int) = charAt (bytes "a-y") k ∧ (121 : Int) = charAt (bytes "a-y") (k + 2)) ∧
      ((25 : Nat) : Int) = ((121 : Int) - 97 + 1) % 65536 ∧
      ((97 : Int) ≤ 121 → ((25 : Nat) : Int) = (121 : Int) - 97 + 1)) :=
  ⟨by decide,
    C19_range_node_count (bytes "a-y") true [⟨TR_RANGE, false, false, 25, 0, 97, 121⟩]
      (by decide) ⟨TR_RANGE, false, false, 25, 0, 97, 121⟩ (by simp) rfl⟩

theorem is_reversed_iff (p : List Byte) (enable : Bool) :
    is_reversed p enable = true ↔
      enable = true ∧ 2 ≤ p.length ∧ (byteAt p 0).val = 94 := by
  unfold is_reversed charAt CARET
  have h := charVal_eq_iff (byteAt p 0) 94 (by omega)
  simp only [Bool.and_eq_true, decide_eq_true_eq]
  constructor
  · rintro ⟨⟨a, b⟩, c⟩
    exact ⟨a, b, h.mp c⟩
  · rintro ⟨a, b, c⟩
    exact ⟨⟨a, b⟩, h.mpr c⟩

/-- The first node of a scan that starts inside the pattern covers the start position. -/
theorem parsed_first_node (pattern : List Byte) (fr : Bool) (i : Nat) (h : Bool)
    (nodes : List tr_pattern) (hp : Parsed pattern fr i h nodes) (hi : i < pattern.length) :
    ∃ q rest, nodes = q :: rest ∧
      ((q.type = TR_IN_ORDER ∧ q.start_pos = i % 65536 ∧ 1 ≤ q.n) ∨
        (q.type = TR_RANGE ∧ q.ch0 = charAt pattern i)) := by
  cases hp with
  | done _ _ h2 => omega
  | range _ _ rest _ _ _ => exact ⟨_, rest, rfl, Or.inr ⟨rfl, rfl⟩⟩
  | run _ i1 _ rest _ _ h1 h2 _ _ hlen _ =>
    refine ⟨_, rest, rfl, Or.inl ⟨rfl, rfl, ?_⟩⟩
    simp only [in_order_node]
    unfold UINT16_MAX at hlen
    omega

/-- Claim C17. For every spec and either setting of the negation switch, every node of the
parsed set carries the same `flag_reverse`, namely (negation enabled and spec length at
least 2 and `spec[0] = '^'`). Hence a to-spec (negation disabled) is never negated and its
scan starts at its first byte, caret or not; a negated set has at least one node, all
filled in, and its scan starts after the caret; and the one-byte spec `"^"` is the
literal caret. -/
theorem C17_reversed_flag_uniform (p : List Byte) (enable : Bool) (pat : List tr_pattern)
    (hp : tr_parse_pattern p enable = some pat) :
    (is_reversed p enable = true ↔
      enable = true ∧ 2 ≤ p.length ∧ (byteAt p 0).val = 94) ∧
    (∀ q ∈ pat, q.flag_reverse = is_reversed p enable) ∧
    (is_reversed p enable = true →
      (∀ q ∈ pat, q.type ≠ TR_UNINITIALIZED) ∧
      ∃ q rest, pat = q :: rest ∧
        ((q.type = TR_IN_ORDER ∧ q.start_pos = 1 ∧ 1 ≤ q.n) ∨
          (q.type = TR_RANGE ∧ q.ch0 = charAt p 1))) ∧
    (is_reversed p enable = false → p ≠ [] →
      ∃ q rest, pat = q :: rest ∧
        ((q.type = TR_IN_ORDER ∧ q.start_pos = 0 ∧ 1 ≤ q.n) ∨
          (q.type = TR_RANGE ∧ q.ch0 = charAt p 0))) ∧
    is_reversed p false = false ∧
    tr_parse_pattern [94] true = some [⟨TR_IN_ORDER, false, false, 1, 0, 0, 0⟩] ∧
    matched [⟨TR_IN_ORDER, false, false, 1, 0, 0, 0⟩] [94] 94 = true := by
  obtain ⟨nodes, hpn, hs⟩ := tr_parse_pattern_some p enable pat hp
  have hnodes := parsed_nodes p _ _ false nodes hpn
  refine ⟨is_reversed_iff p enable, ?_, ?_, ?_, by simp [is_reversed], by decide, by decide⟩
  · intro q hq
    rw [hs] at hq
    rcases mem_ret_of nodes q hq with h | h
    · -- only the empty scan leaves the caller's node, and an empty scan is not negated
      have hnil : nodes = [] := by
        by_contra hne
        rw [ret_of_eq nodes hne] at hq
        obtain ⟨_, hu, _⟩ := hnodes q hq
        rw [h] at hu
        exact hu rfl
      rw [hnil] at hpn
      rw [h]
      cases hr : is_reversed p enable with
      | false => rfl
      | true =>
        have hlen := ((is_reversed_iff p enable).mp hr).2.1
        rw [hr] at hpn
        cases hpn with
        | done _ _ h2 => simp only [if_true] at h2; omega
    · exact (hnodes q h).1
  · intro hr
    have hlen := ((is_reversed_iff p enable).mp hr).2.1
    rw [hr] at hpn
    simp only [if_true] at hpn
    have hne := parsed_ne_nil p true 1 false nodes hpn (by omega)
    rw [ret_of_eq nodes hne] at hs
    rw [hs]
    refine ⟨fun q hq => ?_, ?_⟩
    · have := parsed_nodes p true 1 false nodes hpn q hq
      exact this.2.1
    · exact parsed_first_node p true 1 false nodes hpn (by omega)
  · intro hr hne0
    have hpos : 0 < p.length := List.length_pos.mpr hne0
    rw [hr] at hpn
    simp only [Bool.false_eq_true, if_false] at hpn
    have hne := parsed_ne_nil p false 0 false nodes hpn hpos
    rw [ret_of_eq nodes hne] at hs
    rw [hs]
    exact parsed_first_node p false 0 false nodes hpn hpos

/-- A use of `C17_reversed_flag_uniform`: the negated from-spec `"^a-cx"`, whose two nodes
both carry the flag. -/
theorem C17_reversed_flag_witness :
    tr_parse_pattern (bytes "^a-cx") true
      = some [⟨TR_RANGE, true, false, 3, 0, 97, 99⟩, ⟨TR_IN_ORDER, true, true, 1, 4, 0, 0⟩] ∧
    is_reversed (bytes "^a-cx") true = true ∧
    (∀ q ∈ [(⟨TR_RANGE, true, false, 3, 0, 97, 99⟩ : tr_pattern),
        ⟨TR_IN_ORDER, true, true, 1, 4, 0, 0⟩],
      q.flag_reverse = is_reversed (bytes "^a-cx") true) :=
  ⟨by decide, by decide,
    (C17_reversed_flag_uniform (bytes "^a-cx") true
      [⟨TR_RANGE, true, false, 3, 0, 97, 99⟩, ⟨TR_IN_ORDER, true, true, 1, 4, 0, 0⟩]
      (by decide)).2.1⟩

/-! ## The change flag of `str_squeeze` and `str_delete` -/

theorem squeeze_model_sublist (subject : Byte → Bool) :
    ∀ (l : List Byte) (lastch : Int), (squeeze_model subject lastch l).Sublist l := by
  intro l
  induction l with
  | nil => intro _; simp [squeeze_model]
  | cons x xs ih =>
    intro lastch
    unfold squeeze_model
    split
    · exact List.Sublist.cons _ (ih _)
    · exact List.Sublist.cons₂ _ (ih _)

theorem change_flag_exact_of_sublist (s buf : List Byte) (hsub : buf.Sublist s) :
    change_flag_exact s (str_result.returned buf (decide (buf.length < s.length))) := by
  have hle := hsub.length_le
  have hne : buf.length < s.length ↔ buf ≠ s := by
    constructor
    · intro h1 h2; rw [h2] at h1; omega
    · intro h1
      by_contra h2
      exact h1 (hsub.eq_of_length (by omega))
  refine ⟨hsub, by simp, by simp [hne], ?_⟩
  intro hc
  have h3 : ¬ buf.length < s.length := by simpa using hc
  have h4 : buf = s := by
    by_contra h5
    exact h3 (hne.mpr h5)
  exact ⟨h4, by rw [h4]⟩

theorem any_eq_filter_not_length_lt (p : Byte → Bool) (l : List Byte) :
    l.any p = decide ((l.filter (fun b => !p b)).length < l.length) := by
  induction l with
  | nil => simp
  | cons x xs ih =>
    have hle : (xs.filter (fun b => !p b)).length ≤ xs.length := List.length_filter_le _ _
    cases hx : p x with
    | true =>
      have : (xs.filter (fun b => !p b)).length < xs.length + 1 := by omega
      simp [List.filter_cons, hx, this]
    | false =>
      simp only [List.any_cons, hx, Bool.false_or, ih, List.filter_cons, Bool.not_false,
        if_true, List.length_cons]
      congr 1
      simp

/-- Claim C12. For `str_squeeze` (with or without a pattern) and `str_delete`, on every
input: the buffer returned is the input with some bytes dropped; `changed = true` is
reported if and only if at least one byte was dropped, that is if and only if the buffer
is strictly shorter than the input, that is if and only if it differs from the input;
with `changed = false` content and length are those of the input. A call that raises
(pattern too long) leaves the input as it is. -/
theorem C12_change_flag_exact :
    (∀ (s : List Byte) (v_pat : Option (List Byte)),
      change_flag_exact s (str_squeeze s v_pat)) ∧
    (∀ s v_pat : List Byte, change_flag_exact s (str_delete s v_pat)) := by
  constructor
  · intro s v_pat
    cases v_pat with
    | none =>
      rw [str_squeeze_none_model]
      exact change_flag_exact_of_sublist s _ (squeeze_model_sublist _ s (-1))
    | some p =>
      cases hp : tr_parse_pattern p true with
      | none => simp [str_squeeze, hp, change_flag_exact]
      | some pat =>
        rw [str_squeeze_some_model s p pat hp]
        exact change_flag_exact_of_sublist s _ (squeeze_model_sublist _ s (-1))
  · intro s v_pat
    cases hp : tr_parse_pattern v_pat true with
    | none => simp [str_delete, hp, change_flag_exact]
    | some pat =>
      rw [str_delete_spec s v_pat pat hp, any_eq_filter_not_length_lt]
      exact change_flag_exact_of_sublist s _ (List.filter_sublist s)

/-! ## The value lookup on a well-formed set -/

theorem drop_copy_down (s : List Byte) (i j : Nat) :
    (copy_down s i j).drop (i + 1) = s.drop (i + 1) := by
  unfold copy_down
  split
  · exact List.drop_set_of_lt _ _ (by omega)
  · rfl

theorem byteAt_of_drop (s : List Byte) (i : Nat) (x : Byte) (rest : List Byte)
    (h : s.drop i = x :: rest) : byteAt s i = x ∧ s.drop (i + 1) = rest := by
  have hi : i < s.length := by
    by_contra hc
    rw [List.drop_eq_nil_of_le (by omega)] at h
    simp at h
  rw [drop_eq_cons s i hi] at h
  exact ⟨(List.cons.inj h).1, (List.cons.inj h).2⟩

/-- The loop of `str_tr` raises exactly when one of the bytes still to read is matched with
a replacement above `0x80`, and then on such a replacement; `squeeze` cannot hide it,
since the last replacement written is never above `0x80`. -/
theorem str_tr_loop_raises (pat rep : List tr_pattern) (p1 p2 : List Byte) (squeeze : Bool) :
    ∀ (rest : List Byte) (i j : Nat) (s : List Byte) (lastch : Int) (fc : Bool),
      s.drop i = rest → j ≤ i → lastch ≤ 128 →
      (rest.any (replaced_out_of_range pat rep p1 p2) = true →
        ∃ s1 c, 128 < c ∧
          str_tr_loop pat rep (spec_arg.other p1)
              (spec_arg.other p2) squeeze rest.length i j s lastch fc
            = loop_result.out_of_range s1 c) ∧
      (rest.any (replaced_out_of_range pat rep p1 p2) = false →
        ∃ s1 j1 fc1,
          str_tr_loop pat rep (spec_arg.other p1)
              (spec_arg.other p2) squeeze rest.length i j s lastch fc
            = loop_result.done s1 j1 fc1) := by
  intro rest
  induction rest with
  | nil =>
    intro i j s lastch fc _ _ _
    exact ⟨fun h => by simp at h, fun _ => ⟨s, j, fc, by simp [str_tr_loop]⟩⟩
  | cons x rest ih =>
    intro i j s lastch fc hs hj hl
    obtain ⟨hx, hd⟩ := byteAt_of_drop s i x rest hs
    have hd1 : (copy_down s i j).drop (i + 1) = rest := by rw [drop_copy_down s i j, hd]
    simp only [List.length_cons, str_tr_loop, spec_buf, charAt_eq _ _ _ hx, List.any_cons]
    by_cases hn : 0 ≤ tr_find_character pat p1 (charVal x)
    · have hm : matched pat p1 x = true := by simp [matched, hn]
      rw [if_pos hn]
      by_cases hc : tr_get_character rep p2 (tr_find_character pat p1 (charVal x)) < 0 ∨
          (squeeze = true ∧
            tr_get_character rep p2 (tr_find_character pat p1 (charVal x)) = lastch)
      · rw [if_pos hc]
        have hb : replaced_out_of_range pat rep p1 p2 x = false := by
          have : ¬ 128 < replacement pat rep p1 p2 x := by
            unfold replacement
            rcases hc with h | ⟨_, h⟩ <;> omega
          simp [replaced_out_of_range, this]
        rw [hb, Bool.false_or]
        exact ih (i + 1) j (copy_down s i j) lastch true hd1 (by omega) hl
      · rw [if_neg hc]
        by_cases hg : tr_get_character rep p2 (tr_find_character pat p1 (charVal x)) > 128
        · rw [if_pos hg]
          exact ⟨fun _ => ⟨_, _, hg, rfl⟩, fun h => by
            have : replaced_out_of_range pat rep p1 p2 x = true := by
              simp only [replaced_out_of_range, hm, Bool.true_and, decide_eq_true_eq]
              exact hg
            rw [this] at h
            simp at h⟩
        · rw [if_neg hg]
          have hb : replaced_out_of_range pat rep p1 p2 x = false := by
            have : ¬ 128 < replacement pat rep p1 p2 x := by
              unfold replacement; omega
            simp [replaced_out_of_range, this]
          rw [hb, Bool.false_or]
          exact ih (i + 1) (j + 1) _ _ true
            (by rw [List.drop_set_of_lt _ _ (by omega)]; exact hd1) (by omega) (by omega)
    · have hm : matched pat p1 x = false := by simp [matched, hn]
      have hb : replaced_out_of_range pat rep p1 p2 x = false := by
        simp [replaced_out_of_range, hm]
      rw [if_neg hn, hb, Bool.false_or]
      exact ih (i + 1) (j + 1) (copy_down s i j) lastch fc hd1 (by omega) hl

/-- Without `squeeze`, when every matched byte still to read has a replacement in
`0..0x80`, the loop of `str_tr` stores each replacement in place of its byte. -/
theorem str_tr_loop_store (pat rep : List tr_pattern) (p1 p2 : List Byte) :
    ∀ (rest pre : List Byte) (lastch : Int) (fc : Bool),
      (∀ b ∈ rest, matched pat p1 b = true →
        0 ≤ replacement pat rep p1 p2 b ∧ replacement pat rep p1 p2 b ≤ 128) →
      str_tr_loop pat rep (spec_arg.other p1)
          (spec_arg.other p2) false rest.length pre.length pre.length (pre ++ rest) lastch fc
        = loop_result.done
            (pre ++ rest.map (fun b =>
              if matched pat p1 b then byteOfInt (replacement pat rep p1 p2 b) else b))
            (pre.length + rest.length) (fc || rest.any (fun b => matched pat p1 b)) := by
  intro rest
  induction rest with
  | nil => intro pre lastch fc _; simp [str_tr_loop]
  | cons x rest ih =>
    intro pre lastch fc hall
    have h0 := byteAt_append_cons pre x rest
    have hc : copy_down (pre ++ x :: rest) pre.length pre.length = pre ++ x :: rest := by
      simp [copy_down]
    have hrest : ∀ b ∈ rest, matched pat p1 b = true →
        0 ≤ replacement pat rep p1 p2 b ∧ replacement pat rep p1 p2 b ≤ 128 :=
      fun b hb => hall b (List.mem_cons_of_mem _ hb)
    simp only [List.length_cons, str_tr_loop, spec_buf, charAt_eq _ _ _ h0, hc]
    by_cases hx : 0 ≤ tr_find_character pat p1 (charVal x)
    · have hm : matched pat p1 x = true := by simp [matched, hx]
      obtain ⟨hc0, hc1⟩ := hall x (List.mem_cons_self _ _) hm
      unfold replacement at hc0 hc1
      have hs : (pre ++ x :: rest).set pre.length
          (byteOfInt (tr_get_character rep p2 (tr_find_character pat p1 (charVal x))))
          = (pre ++ [byteOfInt (replacement pat rep p1 p2 x)]) ++ rest := by
        simp [List.set_append, replacement]
      rw [if_pos hx, if_neg (by simp; omega), if_neg (by omega), hs]
      have hj : pre.length + 1 = (pre ++ [byteOfInt (replacement pat rep p1 p2 x)]).length := by
        simp
      rw [hj, ih _ _ _ hrest]
      simp [hm]; omega
    · have hm : matched pat p1 x = false := by simp [matched, hx]
      have hs : pre ++ x :: rest = (pre ++ [x]) ++ rest := by simp
      rw [if_neg hx, hs]
      have hj : pre.length + 1 = (pre ++ [x]).length := by simp
      rw [hj, ih _ _ _ hrest]
      simp [hm]; omega

/-- With specs that are objects other than the receiver, once both are parsed: `str_tr`
raises "character out of range" if and only if some byte of the input is matched by the
from-spec and the value `tr_get_character` fetches for it, a signed `mrb_int`, is above
`0x80`, and it raises on such a value. When no matched byte has one, the call returns;
without `squeeze`, when the values fetched for the matched bytes are all in `0..0x80`,
each of them is stored in the buffer in place of its byte. -/
theorem str_tr_out_of_range_iff (s F T : List Byte) (squeeze : Bool) (pat rep : List tr_pattern)
    (hp : tr_parse_pattern F true = some pat) (hr : tr_parse_pattern T false = some rep) :
    ((∃ buf c, str_tr s (spec_arg.other F)
        (spec_arg.other T) squeeze = str_result.raised buf (tr_error.char_out_of_range c)) ↔
      ∃ b ∈ s, matched pat F b = true ∧ 128 < replacement pat rep F T b) ∧
    (∀ buf c, str_tr s (spec_arg.other F)
        (spec_arg.other T) squeeze = str_result.raised buf (tr_error.char_out_of_range c) →
      128 < c) ∧
    ((¬ ∃ b ∈ s, matched pat F b = true ∧ 128 < replacement pat rep F T b) →
      ∃ buf changed, str_tr s (spec_arg.other F)
          (spec_arg.other T) squeeze = str_result.returned buf changed) ∧
    ((∀ b ∈ s, matched pat F b = true →
        0 ≤ replacement pat rep F T b ∧ replacement pat rep F T b ≤ 128) →
      str_tr s (spec_arg.other F) (spec_arg.other T) false
        = str_result.returned
            (s.map (fun b =>
              if matched pat F b then byteOfInt (replacement pat rep F T b) else b))
            (s.any (fun b => matched pat F b))) := by
  have hany : s.any (replaced_out_of_range pat rep F T) = true ↔
      ∃ b ∈ s, matched pat F b = true ∧ 128 < replacement pat rep F T b := by
    simp [List.any_eq_true, replaced_out_of_range]
  obtain ⟨h1, h2⟩ := str_tr_loop_raises pat rep F T squeeze s 0 0 s (-1) false
    (by simp) (le_refl _) (by omega)
  have hcase : (∃ s1 c, 128 < c ∧
        str_tr s (spec_arg.other F) (spec_arg.other T) squeeze
            = str_result.raised s1 (tr_error.char_out_of_range c) ∧
        s.any (replaced_out_of_range pat rep F T) = true) ∨
      (∃ buf changed, str_tr s (spec_arg.other F)
          (spec_arg.other T) squeeze = str_result.returned buf changed ∧
        s.any (replaced_out_of_range pat rep F T) = false) := by
    cases ha : s.any (replaced_out_of_range pat rep F T) with
    | true =>
      obtain ⟨s1, c, hc, hl⟩ := h1 ha
      left
      refine ⟨s1, c, hc, ?_, rfl⟩
      simp only [str_tr, spec_buf, hp, hr, hl]
    | false =>
      obtain ⟨s1, j1, fc1, hl⟩ := h2 ha
      right
      simp only [str_tr, spec_buf, hp, hr, hl]
      cases fc1 with
      | true => exact ⟨s1.take j1, true, by simp, trivial⟩
      | false => exact ⟨s1, false, by simp, trivial⟩
  refine ⟨?_, ?_, ?_, ?_⟩
  · rw [← hany]
    rcases hcase with ⟨s1, c, _, hs, ha⟩ | ⟨buf, ch, hs, ha⟩
    · exact ⟨fun _ => ha, fun _ => ⟨s1, c, hs⟩⟩
    · constructor
      · rintro ⟨b1, c1, h⟩
        rw [hs] at h
        simp at h
      · intro h
        rw [ha] at h
        simp at h
  · intro buf c h
    rcases hcase with ⟨s1, c1, hc, hs, _⟩ | ⟨buf1, ch, hs, _⟩
    · rw [hs] at h
      injection h with _ h2
      injection h2 with h3
      omega
    · rw [hs] at h
      simp at h
  · intro hno
    rcases hcase with ⟨s1, c1, hc, hs, ha⟩ | ⟨buf1, ch, hs, _⟩
    · exact absurd (hany.mp ha) hno
    · exact ⟨buf1, ch, hs⟩
  · intro hall
    have h := str_tr_loop_store pat rep F T s [] (-1) false hall
    simp only [List.length_nil, List.nil_append, Bool.false_or, Nat.zero_add] at h
    simp only [str_tr, spec_buf, hp, hr, h]
    cases hc : s.any (fun b => matched pat F b) with
    | true =>
      simp only [if_true]
      congr 1
      rw [List.take_of_length_le (by simp)]
    | false => simp only [Bool.false_eq_true, if_false]

/-- Claim C13. The replacement is fetched from the to-spec through a `char`, which is
signed: a to-spec byte `0x81..0xFF` arrives as a negative `mrb_int`, takes the branch
`c < 0` of a missing replacement and never reaches the test `c > 0x80`.
`"hello".tr("l", "\xC3")` fetches `-61` for `l`, drops both `l` and returns `"heo"`
without raising, although the replacement character `0xC3` is above `0x80`; and
`"a".tr("a", "\x80")` fetches `-128` and returns the empty string: the replacement `0x80`
is dropped, not written. The test does what it is written for on the values computed
from a range: `"g".tr("a-z", "z-a")` stores the replacement `0x80`, and
`"h".tr("a-z", "z-a")` raises on `0x81`. Read on the signed value fetched, the rule of the
claim holds for every call whose specs are not the receiver. -/
theorem C13_high_to_spec_byte_not_rejected :
    str_tr (bytes "hello") (spec_arg.other (bytes "l")) (spec_arg.other [195]) false
      = str_result.returned (bytes "heo") true ∧
    tr_parse_pattern (bytes "l") true = some [⟨TR_IN_ORDER, false, false, 1, 0, 0, 0⟩] ∧
    tr_parse_pattern [195] false = some [⟨TR_IN_ORDER, false, false, 1, 0, 0, 0⟩] ∧
    matched [⟨TR_IN_ORDER, false, false, 1, 0, 0, 0⟩] (bytes "l") 108 = true ∧
    replacement [⟨TR_IN_ORDER, false, false, 1, 0, 0, 0⟩] [⟨TR_IN_ORDER, false, false, 1, 0, 0, 0⟩]
      (bytes "l") [195] 108 = -61 ∧
    str_tr (bytes "a") (spec_arg.other (bytes "a")) (spec_arg.other [128]) false
      = str_result.returned [] true ∧
    replacement [⟨TR_IN_ORDER, false, false, 1, 0, 0, 0⟩] [⟨TR_IN_ORDER, false, false, 1, 0, 0, 0⟩]
      (bytes "a") [128] 97 = -128 ∧
    str_tr (bytes "g") (spec_arg.other (bytes "a-z")) (spec_arg.other (bytes "z-a")) false
      = str_result.returned [128] true ∧
    str_tr (bytes "h") (spec_arg.other (bytes "a-z")) (spec_arg.other (bytes "z-a")) false
      = str_result.raised (bytes "h") (tr_error.char_out_of_range 129) ∧
    (∀ (s F T : List Byte) (squeeze : Bool) (pat rep : List tr_pattern),
      tr_parse_pattern F true = some pat → tr_parse_pattern T false = some rep →
      ((∃ buf c, str_tr s (spec_arg.other F) (spec_arg.other T) squeeze
          = str_result.raised buf (tr_error.char_out_of_range c)) ↔
        ∃ b ∈ s, matched pat F b = true ∧ 128 < replacement pat rep F T b) ∧
      (∀ buf c, str_tr s (spec_arg.other F) (spec_arg.other T) squeeze
          = str_result.raised buf (tr_error.char_out_of_range c) → 128 < c) ∧
      ((∀ b ∈ s, matched pat F b = true →
          0 ≤ replacement pat rep F T b ∧ replacement pat rep F T b ≤ 128) →
        str_tr s (spec_arg.other F) (spec_arg.other T) false
          = str_result.returned
              (s.map (fun b =>
                if matched pat F b then byteOfInt (replacement pat rep F T b) else b))
              (s.any (fun b => matched pat F b)))) :=
  ⟨by decide, by decide, by decide, by decide, by decide, by decide, by decide, by decide,
    by decide,
    fun s F T squeeze pat rep hp hr =>
      ⟨(str_tr_out_of_range_iff s F T squeeze pat rep hp hr).1,
        (str_tr_out_of_range_iff s F T squeeze pat rep hp hr).2.1,
        (str_tr_out_of_range_iff s F T squeeze pat rep hp hr).2.2.2⟩⟩

/-! ## Runs and the error "tr pattern too long" -/

theorem run_lengths_from_lits (f : Nat → Byte) :
    ∀ (m acc : Nat) (R : List spec_item),
      run_lengths_from acc ((List.range m).map (fun k => spec_item.lit (f k)) ++ R)
        = run_lengths_from (acc + m) R := by
  intro m
  induction m with
  | zero => intro acc R; simp
  | succ m ih =>
    intro acc R
    rw [List.range_succ, List.map_append, List.append_assoc, ih]
    simp only [List.map_cons, List.map_nil, List.cons_append, List.nil_append,
      run_lengths_from]
    congr 1

theorem run_lengths_from_pos (acc : Nat) (hacc : 0 < acc) (R : List spec_item)
    (hR : R = [] ∨ ∃ lo hi rest, R = spec_item.range lo hi :: rest) :
    run_lengths_from acc R = acc :: run_lengths R := by
  rcases hR with h | ⟨lo, hi, rest, h⟩
  · rw [h]
    simp [run_lengths_from, run_lengths, Nat.pos_iff_ne_zero.mp hacc]
  · rw [h]
    simp [run_lengths_from, run_lengths, Nat.pos_iff_ne_zero.mp hacc]

/-- A run `i .. i1-1` of the scan is one maximal run of literal items of the grammar. -/
theorem run_lengths_drop_run (pattern : List Byte) (i i1 : Nat) (h1 : i < i1)
    (h2 : i1 ≤ pattern.length) (hmid : ∀ x, i ≤ x → x < i1 → is_range pattern x = false)
    (hend : i1 < pattern.length → is_range pattern i1 = true) :
    run_lengths (spec_items (pattern.drop i))
      = (i1 - i) :: run_lengths (spec_items (pattern.drop i1)) := by
  have hm : i + (i1 - i) = i1 := by omega
  have hs := spec_items_drop_run pattern (i1 - i) i (by omega)
    (fun k hk1 hk2 => hmid k hk1 (by omega))
  rw [hm] at hs
  rw [hs]
  unfold run_lengths
  rw [run_lengths_from_lits, Nat.zero_add]
  apply run_lengths_from_pos _ (by omega)
  by_cases hlt : i1 < pattern.length
  · right
    rw [spec_items_drop_range pattern i1 (hend hlt)]
    exact ⟨_, _, _, rfl⟩
  · left
    rw [List.drop_eq_nil_of_le (by omega)]
    rfl

theorem run_lengths_drop_range (pattern : List Byte) (i : Nat)
    (hr : is_range pattern i = true) :
    run_lengths (spec_items (pattern.drop i))
      = run_lengths (spec_items (pattern.drop (i + 3))) := by
  rw [spec_items_drop_range pattern i hr]
  simp [run_lengths, run_lengths_from]

theorem in_order_counts_cons (q : tr_pattern) (rest : List tr_pattern) :
    in_order_counts (q :: rest)
      = (if q.type = TR_IN_ORDER then [q.n] else []) ++ in_order_counts rest := by
  unfold in_order_counts
  by_cases h : q.type = TR_IN_ORDER
  · simp [List.filter_cons, h]
  · simp [List.filter_cons, h]

/-- The counts of the in-order nodes of a scan are the lengths of the maximal runs of the
grammar, each at most `UINT16_MAX`. -/
theorem parsed_in_order_counts (pattern : List Byte) (fr : Bool) (i : Nat) (h : Bool)
    (nodes : List tr_pattern) (hp : Parsed pattern fr i h nodes) :
    in_order_counts nodes = run_lengths (spec_items (pattern.drop i)) ∧
    ∀ n ∈ in_order_counts nodes, n ≤ UINT16_MAX := by
  induction hp with
  | done i h hi =>
    rw [List.drop_eq_nil_of_le hi]
    simp [in_order_counts, spec_items, run_lengths, run_lengths_from]
  | range i h rest hi hr hrest ih =>
    rw [in_order_counts_cons, run_lengths_drop_range pattern i hr]
    simpa [range_node] using ih
  | run i i1 h rest hi hr h1 h2 hmid hend hlen hrest ih =>
    have hrun := run_lengths_drop_run pattern i i1 h1 h2 (by
      intro x hx1 hx2
      by_cases hxi : x = i
      · rw [hxi]; exact hr
      · exact hmid x (by omega) hx2) hend
    have hn : (i1 - i) % 65536 = i1 - i := Nat.mod_eq_of_lt (by unfold UINT16_MAX at hlen; omega)
    rw [in_order_counts_cons, hrun]
    simp only [in_order_node, if_true, hn, List.singleton_append, List.mem_cons]
    refine ⟨by rw [ih.1], ?_⟩
    rintro n (hn1 | hn1)
    · rw [hn1]; exact hlen
    · exact ih.2 n hn1

/-- The loop of the parser raises only at a maximal run longer than `UINT16_MAX`. -/
theorem tr_parse_loop_none (pattern : List Byte) (fr : Bool) :
    ∀ (fuel i : Nat) (ret : List tr_pattern), pattern.length ≤ i + fuel →
      tr_parse_loop pattern fr fuel i ret = none →
      ∃ n ∈ run_lengths (spec_items (pattern.drop i)), UINT16_MAX < n := by
  intro fuel
  induction fuel with
  | zero => intro i ret _ h; simp [tr_parse_loop] at h
  | succ fuel ih =>
    intro i ret hf h
    unfold tr_parse_loop at h
    by_cases hi : i < pattern.length
    · rw [if_pos hi] at h
      by_cases hr : is_range pattern i = true
      · rw [if_pos hr] at h
        rw [run_lengths_drop_range pattern i hr]
        exact ih (i + 3) _ (by omega) h
      · rw [if_neg hr] at h
        have hr2 : is_range pattern i = false := by simpa using hr
        obtain ⟨a, b, c, d⟩ := scan_in_order_spec pattern pattern.length (i + 1)
          (by omega) (by omega)
        rw [run_lengths_drop_run pattern i (scan_in_order pattern pattern.length (i + 1))
          (by omega) b (by
            intro x hx1 hx2
            by_cases hxi : x = i
            · rw [hxi]; exact hr2
            · exact c x (by omega) hx2) d]
        by_cases hlen : scan_in_order pattern pattern.length (i + 1) - i > UINT16_MAX
        · exact ⟨_, List.mem_cons_self _ _, hlen⟩
        · simp only [hlen, if_false] at h
          obtain ⟨n, hn1, hn2⟩ := ih _ _ (by omega) h
          exact ⟨n, List.mem_cons_of_mem _ hn1, hn2⟩
    · rw [if_neg hi] at h
      simp at h

theorem in_order_counts_ret_of (nodes : List tr_pattern) :
    in_order_counts (ret_of nodes) = in_order_counts nodes := by
  unfold ret_of
  split
  · next h => rw [h]; simp [in_order_counts, STATIC_TR_PATTERN]
  · rfl

theorem mem_in_order_counts (pat : List tr_pattern) (q : tr_pattern) (hq : q ∈ pat)
    (ht : q.type = TR_IN_ORDER) : q.n ∈ in_order_counts pat := by
  unfold in_order_counts
  exact List.mem_map.mpr ⟨q, List.mem_filter.mpr ⟨hq, by simp [ht]⟩, rfl⟩

theorem spec_items_replicate (c : Byte) (hc : c.val ≠ 45) :
    ∀ n : Nat, spec_items (List.replicate n c) = List.replicate n (spec_item.lit c) := by
  intro n
  induction n with
  | zero => rfl
  | succ n ih =>
    rw [List.replicate_succ, List.replicate_succ, spec_items_lit, ih]
    rintro ⟨h1, _, h3⟩
    cases n with
    | zero => simp at h1
    | succ n =>
      rw [List.replicate_succ] at h3
      exact hc (by simpa using h3)

theorem run_lengths_from_replicate (c : Byte) :
    ∀ (n acc : Nat),
      run_lengths_from acc (List.replicate n (spec_item.lit c))
        = if acc + n = 0 then [] else [acc + n] := by
  intro n
  induction n with
  | zero => intro acc; simp [run_lengths_from]
  | succ n ih =>
    intro acc
    rw [List.replicate_succ, run_lengths_from, ih]
    have : acc + 1 + n = acc + (n + 1) := by omega
    rw [this]

/-- Claim C15. The parser raises "tr pattern too long" if and only if the spec (without its
negation mark) holds a maximal in-order run, as the range detection delimits it, of more
than 65535 bytes; on success the counts of the in-order nodes are, in order, the true
lengths of the runs, each at most 65535. A spec that is one run of exactly 65535 bytes is
accepted with that count, one of 65536 bytes is rejected. -/
theorem C15_pattern_too_long_iff :
    (∀ (p : List Byte) (enable : Bool),
      tr_parse_pattern p enable = none ↔
        ∃ n ∈ run_lengths (spec_items (spec_body p enable)), UINT16_MAX < n) ∧
    (∀ (p : List Byte) (enable : Bool) (pat : List tr_pattern),
      tr_parse_pattern p enable = some pat →
        in_order_counts pat = run_lengths (spec_items (spec_body p enable)) ∧
        ∀ q ∈ pat, q.type = TR_IN_ORDER → q.n ≤ UINT16_MAX) ∧
    (∀ c : Byte, c.val ≠ 45 →
      (∃ pat, tr_parse_pattern (List.replicate 65535 c) false = some pat ∧
        in_order_counts pat = [65535]) ∧
      tr_parse_pattern (List.replicate 65536 c) false = none) := by
  have hsome : ∀ (p : List Byte) (enable : Bool) (pat : List tr_pattern),
      tr_parse_pattern p enable = some pat →
        in_order_counts pat = run_lengths (spec_items (spec_body p enable)) ∧
        ∀ n ∈ in_order_counts pat, n ≤ UINT16_MAX := by
    intro p enable pat hp
    obtain ⟨nodes, hpn, hs⟩ := tr_parse_pattern_some p enable pat hp
    rw [hs, in_order_counts_ret_of]
    exact parsed_in_order_counts p _ _ false nodes hpn
  have hiff : ∀ (p : List Byte) (enable : Bool),
      tr_parse_pattern p enable = none ↔
        ∃ n ∈ run_lengths (spec_items (spec_body p enable)), UINT16_MAX < n := by
    intro p enable
    constructor
    · intro h
      unfold tr_parse_pattern at h
      exact tr_parse_loop_none p _ p.length _ _ (by omega) h
    · rintro ⟨n, hn1, hn2⟩
      cases hp : tr_parse_pattern p enable with
      | none => rfl
      | some pat =>
        obtain ⟨h1, h2⟩ := hsome p enable pat hp
        rw [← h1] at hn1
        have := h2 n hn1
        omega
  have hbody : ∀ (c : Byte) (n : Nat), c.val ≠ 45 → 0 < n →
      run_lengths (spec_items (spec_body (List.replicate n c) false)) = [n] := by
    intro c n hc hn
    have h2 : is_reversed (List.replicate n c) false = false := by simp [is_reversed]
    unfold spec_body run_lengths
    rw [h2]
    simp only [Bool.false_eq_true, if_false, List.drop_zero]
    rw [spec_items_replicate c hc, run_lengths_from_replicate]
    simp [Nat.pos_iff_ne_zero.mp hn]
  refine ⟨hiff, ?_, ?_⟩
  · intro p enable pat hp
    obtain ⟨h1, h2⟩ := hsome p enable pat hp
    exact ⟨h1, fun q hq ht => h2 q.n (mem_in_order_counts pat q hq ht)⟩
  · intro c hc
    constructor
    · cases hp : tr_parse_pattern (List.replicate 65535 c) false with
      | none =>
        obtain ⟨n, hn1, hn2⟩ := (hiff _ _).mp hp
        rw [hbody c 65535 hc (by omega)] at hn1
        simp only [List.mem_singleton] at hn1
        unfold UINT16_MAX at hn2
        omega
      | some pat =>
        refine ⟨pat, rfl, ?_⟩
        rw [(hsome _ _ pat hp).1, hbody c 65535 hc (by omega)]
    · rw [hiff, hbody c 65536 hc (by omega)]
      exact ⟨65536, by simp, by unfold UINT16_MAX; omega⟩

/-! ## Escaping -/

theorem tested_bounds (pattern : List Byte) (i k : Nat) (ht : Tested pattern i k) :
    i ≤ k ∧ k < pattern.length := by
  induction ht with
  | here i h => exact ⟨le_refl _, h⟩
  | after_range i k h hr ht ih => exact ⟨by omega, ih.2⟩
  | after_byte i k h hr ht ih => exact ⟨by omega, ih.2⟩

/-- Inside a stretch where no range is detected, the scanner tests every position. -/
theorem tested_skip (pattern : List Byte) (a k : Nat) (ht : Tested pattern a k) :
    ∀ m, a ≤ m → (∀ x, a ≤ x → x < m → is_range pattern x = false) →
      k < m ∨ Tested pattern m k := by
  induction ht with
  | here i h =>
    intro m hm _
    by_cases hlt : i < m
    · left; exact hlt
    · right
      have : m = i := by omega
      rw [this]
      exact Tested.here i h
  | after_range i k h hr ht ih =>
    intro m hm hno
    by_cases hlt : i < m
    · have := hno i (le_refl _) hlt
      rw [hr] at this
      exact absurd this (by simp)
    · right
      have : m = i := by omega
      rw [this]
      exact Tested.after_range i k h hr ht
  | after_byte i k h hr ht ih =>
    intro m hm hno
    by_cases hlt : i < m
    · exact ih m (by omega) (fun x hx1 hx2 => hno x (by omega) hx2)
    · right
      have : m = i := by omega
      rw [this]
      exact Tested.after_byte i k h hr ht

/-- A tested position at which no range is detected lies in a run of the scan. -/
theorem parsed_tested_in_run (pattern : List Byte) (fr : Bool) (i : Nat) (h : Bool)
    (nodes : List tr_pattern) (hp : Parsed pattern fr i h nodes) :
    ∀ k, Tested pattern i k → is_range pattern k = false →
      ∃ a b on_heap, in_order_node fr on_heap a b ∈ nodes ∧ a ≤ k ∧ k < b ∧
        b ≤ pattern.length ∧ b - a ≤ UINT16_MAX ∧
        (b < pattern.length → is_range pattern b = true) := by
  induction hp with
  | done i h hi =>
    intro k ht _
    have := tested_bounds pattern i k ht
    omega
  | range i h rest hi hr hrest ih =>
    intro k ht hk
    cases ht with
    | here _ _ => rw [hr] at hk; exact absurd hk (by simp)
    | after_range _ _ _ _ ht2 =>
      obtain ⟨a, b, o, h1, h2⟩ := ih k ht2 hk
      exact ⟨a, b, o, List.mem_cons_of_mem _ h1, h2⟩
    | after_byte _ _ _ hr2 _ => rw [hr] at hr2; exact absurd hr2 (by simp)
  | run i i1 h rest hi hr h1 h2 hmid hend hlen hrest ih =>
    intro k ht hk
    have hin : ∃ a b on_heap, in_order_node fr on_heap a b
          ∈ in_order_node fr h i i1 :: rest ∧ a ≤ i ∧ i1 ≤ b ∧
        b ≤ pattern.length ∧ b - a ≤ UINT16_MAX ∧
        (b < pattern.length → is_range pattern b = true) :=
      ⟨i, i1, h, List.mem_cons_self _ _, le_refl _, le_refl _, h2, hlen, hend⟩
    cases ht with
    | here _ _ =>
      obtain ⟨a, b, o, c1, c2, c3, c4⟩ := hin
      exact ⟨a, b, o, c1, c2, by omega, c4⟩
    | after_range _ _ _ hr2 _ => rw [hr] at hr2; exact absurd hr2 (by simp)
    | after_byte _ _ _ _ ht2 =>
      rcases tested_skip pattern (i + 1) k ht2 i1 (by omega)
        (fun x hx1 hx2 => hmid x (by omega) hx2) with hlt | ht3
      · have hb := tested_bounds pattern (i + 1) k ht2
        obtain ⟨a, b, o, c1, c2, c3, c4⟩ := hin
        exact ⟨a, b, o, c1, by omega, by omega, c4⟩
      · obtain ⟨a, b, o, c1, c2⟩ := ih k ht3 hk
        exact ⟨a, b, o, List.mem_cons_of_mem _ c1, c2⟩

theorem is_range_backslash (pattern : List Byte) (k : Nat)
    (hk : charAt pattern k = BACKSLASH) : is_range pattern k = false := by
  unfold is_range
  simp [hk]

theorem escape_spec_parse (x : Byte) (enable : Bool) :
    tr_parse_pattern [92, 45, x] enable = some [⟨TR_IN_ORDER, false, false, 3, 0, 0, 0⟩] := by
  have h0 : is_reversed [92, 45, x] enable = false := by
    have : charAt [92, 45, x] 0 ≠ CARET := by
      simp only [charAt, byteAt, List.getD_cons_zero]; decide
    simp [is_reversed, this]
  have r0 : is_range [92, 45, x] 0 = false := is_range_backslash _ _ (by
    simp only [charAt, byteAt, List.getD_cons_zero]; decide)
  have r1 : is_range [92, 45, x] 1 = false := by simp [is_range]
  have r2 : is_range [92, 45, x] 2 = false := by simp [is_range]
  simp [tr_parse_pattern, h0, tr_parse_loop, r0, r1, r2, scan_in_order, ret_uninit,
    link_pattern, in_order_node, STATIC_TR_PATTERN, UINT16_MAX]

theorem escape_spec_expand (x : Byte) :
    expand [92, 45, x] [⟨TR_IN_ORDER, false, false, 3, 0, 0, 0⟩] = [92, 45, charVal x] := by
  simp [expand, node_chars, List.range_succ, charAt, byteAt]
  decide

/-- The characters of the node of a run that starts below `2^16` and is shorter than
`2^16` are the bytes of the run. -/
theorem mem_node_chars_in_order (pattern : List Byte) (fr on_heap : Bool) (a b k : Nat)
    (ha : a < 65536) (hb : b - a < 65536) (h1 : a ≤ k) (h2 : k < b) :
    charAt pattern k ∈ node_chars pattern (in_order_node fr on_heap a b) := by
  simp only [node_chars, in_order_node]
  rw [Nat.mod_eq_of_lt ha, Nat.mod_eq_of_lt hb]
  apply List.mem_map.mpr
  exact ⟨k - a, List.mem_range.mpr (by omega), by congr 1; omega⟩

/-- Claim C16 (counterexample). In the spec `\-a-c` the scanner tests position 0, a backslash
followed by `-`, but the byte after the `-` is not absorbed into the run: the run is
`\-` (count 2) and `a` is the lower end of the range `a-c`. In `\--x` not even the `-`
is: the run is `\` alone and the range is `-` to `x`. -/
theorem C16_counterexample :
    tr_parse_pattern (bytes "\\-a-c") true
      = some [⟨TR_IN_ORDER, false, false, 2, 0, 0, 0⟩, ⟨TR_RANGE, false, true, 3, 0, 97, 99⟩] ∧
    tr_parse_pattern (bytes "\\--x") true
      = some [⟨TR_IN_ORDER, false, false, 1, 0, 0, 0⟩,
          ⟨TR_RANGE, false, true, 76, 0, 45, 120⟩] ∧
    charAt (bytes "\\-a-c") 0 = BACKSLASH ∧ charAt (bytes "\\-a-c") 1 = DASH ∧
    charAt (bytes "\\--x") 0 = BACKSLASH ∧ charAt (bytes "\\--x") 1 = DASH := by
  decide

/-- Claim C16 (amended). For every spec the parser accepts: no range node has the backslash
as its lower end; and whenever the scanner tests a position `k` that holds a backslash, no
range starts there and the backslash is absorbed into an in-order run `a .. b-1`, together
with the byte after it unless a range is detected at `k+1`, and the byte after that unless
a range is detected at `k+1` or at `k+2`; so the backslash remains a member of the set
(for a spec of at most 65535 bytes). For every byte `x` the 3-byte spec `\`, `-`, `x` parses
to one run of count 3 with the members `\`, `-` and `x`. The two examples of the
documentation evaluate as documented. -/
theorem C16_escaping (p : List Byte) (enable : Bool) (pat : List tr_pattern)
    (hp : tr_parse_pattern p enable = some pat) :
    (∀ q ∈ pat, q.type = TR_RANGE → q.ch0 ≠ BACKSLASH) ∧
    (∀ k, Tested p (if is_reversed p enable then 1 else 0) k → charAt p k = BACKSLASH →
      is_range p k = false ∧
      ∃ a b on_heap, in_order_node (is_reversed p enable) on_heap a b ∈ pat ∧
        a ≤ k ∧ k < b ∧
        (k + 1 < p.length → is_range p (k + 1) = false → k + 1 < b) ∧
        (k + 2 < p.length → is_range p (k + 1) = false → is_range p (k + 2) = false →
          k + 2 < b) ∧
        (p.length ≤ 65535 → BACKSLASH ∈ expand p pat)) ∧
    (∀ (x : Byte) (en : Bool),
      tr_parse_pattern [92, 45, x] en = some [⟨TR_IN_ORDER, false, false, 3, 0, 0, 0⟩] ∧
      expand [92, 45, x] [⟨TR_IN_ORDER, false, false, 3, 0, 0, 0⟩] = [92, 45, charVal x]) ∧
    str_tr (bytes "hello-world") (spec_arg.other (bytes "a\\-eo"))
        (spec_arg.other (bytes "*")) false
      = str_result.returned (bytes "h*ll**w*rld") true ∧
    str_tr (bytes "X['\\b']") (spec_arg.other (bytes "X\\")) (spec_arg.other []) false
      = str_result.returned (bytes "['b']") true := by
  obtain ⟨nodes, hpn, hs⟩ := tr_parse_pattern_some p enable pat hp
  refine ⟨?_, ?_, fun x en => ⟨escape_spec_parse x en, escape_spec_expand x⟩,
    by decide, by decide⟩
  · intro q hq ht
    rw [hs] at hq
    rcases mem_ret_of nodes q hq with h | h
    · rw [h] at ht; simp [STATIC_TR_PATTERN] at ht
    · rcases parsed_node_shape p _ _ _ nodes hpn q h with
        ⟨k, o, _, _, a3, a4⟩ | ⟨a, b, o, _, _, _, _, _, _, a7⟩
      · rw [a4]
        simp only [range_node]
        intro hc
        have := is_range_backslash p k hc
        rw [a3] at this
        exact absurd this (by simp)
      · rw [a7] at ht; simp [in_order_node] at ht
  · intro k ht hk
    have hr := is_range_backslash p k hk
    obtain ⟨a, b, o, c1, c2, c3, c4, c5, c6⟩ := parsed_tested_in_run p _ _ false nodes hpn k ht hr
    have hne : nodes ≠ [] := List.ne_nil_of_mem c1
    rw [ret_of_eq nodes hne] at hs
    rw [hs]
    refine ⟨hr, a, b, o, c1, c2, c3, ?_, ?_, ?_⟩
    · intro h1 h2
      by_contra hc
      have hb : b = k + 1 := by omega
      have := c6 (by omega)
      rw [hb, h2] at this
      exact absurd this (by simp)
    · intro h1 h2 h3
      by_contra hc
      have hb : b = k + 1 ∨ b = k + 2 := by omega
      rcases hb with hb | hb
      · have := c6 (by omega)
        rw [hb, h2] at this
        exact absurd this (by simp)
      · have := c6 (by omega)
        rw [hb, h3] at this
        exact absurd this (by simp)
    · intro hlen
      rw [← hk]
      unfold expand
      apply List.mem_flatMap.mpr
      exact ⟨_, c1, mem_node_chars_in_order p _ o a b k (by omega) (by omega) c2 c3⟩

/-- A use of `C16_escaping`: the spec `a\-eo` of the documentation, one run of count 5. -/
theorem C16_escaping_witness :
    tr_parse_pattern (bytes "a\\-eo") true = some [⟨TR_IN_ORDER, false, false, 5, 0, 0, 0⟩] ∧
    (∀ q ∈ [(⟨TR_IN_ORDER, false, false, 5, 0, 0, 0⟩ : tr_pattern)],
      q.type = TR_RANGE → q.ch0 ≠ BACKSLASH) ∧
    BACKSLASH ∈ expand (bytes "a\\-eo") [⟨TR_IN_ORDER, false, false, 5, 0, 0, 0⟩] :=
  ⟨by decide,
    (C16_escaping (bytes "a\\-eo") true [⟨TR_IN_ORDER, false, false, 5, 0, 0, 0⟩]
      (by decide)).1,
    by decide⟩

/-! ## Release of the pattern nodes -/

theorem heap_addrs_cons (r : node_ref) (l : List node_ref) (hr : r.2.flag_on_heap = r.1.isSome) :
    heap_addrs (r :: l)
      = (match r.1 with
          | some a => [a]
          | none => []) ++ heap_addrs l := by
  unfold heap_addrs
  rcases r with ⟨addr, q⟩
  cases addr with
  | none =>
    have : q.flag_on_heap = false := by simpa using hr
    simp [List.filterMap_cons, this]
  | some a =>
    have : q.flag_on_heap = true := by simpa using hr
    simp [List.filterMap_cons, this]

theorem heap_addrs_append (l1 l2 : List node_ref) :
    heap_addrs (l1 ++ l2) = heap_addrs l1 ++ heap_addrs l2 := by
  simp [heap_addrs, List.filterMap_append]

/-- The function `tr_free_pattern` on a list whose heap nodes are allocated, each once:
exactly their addresses leave the allocator, and no free goes wrong. -/
theorem tr_free_pattern_spec :
    ∀ (l : List node_ref) (h : heap) (fresh base : List Nat), nodes_wf l →
      h.live = fresh ++ base → fresh.Nodup → (heap_addrs l).Nodup →
      (∀ a ∈ heap_addrs l, a ∈ fresh) →
      tr_free_pattern l h
        = ⟨fresh.filter (fun a => decide (a ∉ heap_addrs l)) ++ base, h.next, h.bad_free,
            h.fails⟩ := by
  intro l
  induction l with
  | nil =>
    intro h fresh base _ hl _ _ _
    simp [tr_free_pattern, heap_addrs, ← hl]
  | cons r rest ih =>
    intro h fresh base hwf hl hnd hnd2 hsub
    have hr := hwf r (List.mem_cons_self _ _)
    have hwf2 : nodes_wf rest := fun x hx => hwf x (List.mem_cons_of_mem _ hx)
    rw [heap_addrs_cons r rest hr] at hnd2 hsub ⊢
    rcases r with ⟨addr, q⟩
    cases addr with
    | none =>
      have hq : q.flag_on_heap = false := by simpa using hr
      simp only [tr_free_pattern, hq, Bool.false_eq_true, if_false, List.nil_append] at hnd2 hsub ⊢
      exact ih h fresh base hwf2 hl hnd hnd2 hsub
    | some a =>
      have hq : q.flag_on_heap = true := by simpa using hr
      simp only [List.singleton_append] at hnd2 hsub ⊢
      have ha : a ∈ fresh := hsub a (List.mem_cons_self _ _)
      have hlive : a ∈ h.live := by rw [hl]; exact List.mem_append_left _ ha
      have hfree : mrb_free h a = ⟨fresh.erase a ++ base, h.next, h.bad_free, h.fails⟩ := by
        unfold mrb_free
        rw [if_pos hlive, hl, List.erase_append_left _ ha]
      simp only [tr_free_pattern, hq, if_true, hfree]
      have hnd3 := List.nodup_cons.mp hnd2
      rw [ih _ (fresh.erase a) base hwf2 rfl (hnd.erase a) hnd3.2 (by
        intro x hx
        have hne : x ≠ a := fun hc => hnd3.1 (hc ▸ hx)
        exact (List.mem_erase_of_ne hne).mpr (hsub x (List.mem_cons_of_mem _ hx)))]
      congr 2
      rw [hnd.erase_eq_filter, List.filter_filter]
      apply List.filter_congr
      intro x _
      simp only [List.mem_cons, not_or, Bool.decide_and, decide_not, bne_iff_ne, ne_eq,
        Bool.and_comm]
      by_cases hxa : x = a <;> simp [hxa]

/-- Freeing two sets one after the other, as every exit path does. -/
theorem tr_free_pattern_two (pat0 ret : List node_ref) (h : heap) (fresh base : List Nat)
    (wf0 : nodes_wf pat0) (wf1 : nodes_wf ret) (hl : h.live = fresh ++ base)
    (hnd : fresh.Nodup) (hnd2 : (heap_addrs pat0 ++ heap_addrs ret).Nodup)
    (hsub : ∀ a ∈ heap_addrs pat0 ++ heap_addrs ret, a ∈ fresh) :
    tr_free_pattern ret (tr_free_pattern pat0 h)
      = ⟨fresh.filter (fun a => decide (a ∉ heap_addrs pat0 ++ heap_addrs ret)) ++ base,
          h.next, h.bad_free, h.fails⟩ := by
  have hn := List.nodup_append.mp hnd2
  rw [tr_free_pattern_spec pat0 h fresh base wf0 hl hnd hn.1
    (fun a ha => hsub a (List.mem_append_left _ ha))]
  rw [tr_free_pattern_spec ret _ (fresh.filter (fun a => decide (a ∉ heap_addrs pat0))) base
    wf1 rfl (hnd.filter _) hn.2.1 (by
      intro a ha
      rw [List.mem_filter]
      refine ⟨hsub a (List.mem_append_right _ ha), ?_⟩
      simp only [decide_not, Bool.not_eq_eq_eq_not, Bool.not_true, decide_eq_false_iff_not]
      exact fun h0 => hn.2.2 h0 ha)]
  congr 2
  rw [List.filter_filter]
  apply List.filter_congr
  intro x _
  simp only [List.mem_append, not_or, Bool.decide_and, decide_not, Bool.and_comm]

/-- The release of both sets returns the allocator to the blocks held before the call. -/
theorem heap_inv_release (base : List Nat) (pat0 ret : List node_ref) (h : heap)
    (hi : heap_inv base pat0 ret h) :
    tr_free_pattern ret (tr_free_pattern pat0 h) = ⟨base, h.next, false, h.fails⟩ := by
  obtain ⟨fresh, hl, hnd, hmem⟩ := hi.held
  rw [tr_free_pattern_two pat0 ret h fresh base hi.wf0 hi.wf1 hl hnd hi.nodup
    (fun a ha => (hmem a).mpr ha), hi.no_bad]
  congr 1
  have : fresh.filter (fun a => decide (a ∉ heap_addrs pat0 ++ heap_addrs ret)) = [] := by
    rw [List.filter_eq_nil_iff]
    intro a ha
    have hm := (hmem a).mp ha
    simp only [decide_not, Bool.not_eq_eq_eq_not, Bool.not_true, decide_eq_false_iff_not,
      not_not]
    exact hm
  rw [this, List.nil_append]

/-- The three ways `pat1` is chosen: `ret` itself, a fresh block, or `NULL`. -/
theorem alloc_pat1_cases (uninit : Bool) (h : heap) :
    (uninit = true ∧ alloc_pat1 uninit h = (some none, h)) ∨
    (uninit = false ∧ h.next ∉ h.fails ∧
      alloc_pat1 uninit h
        = (some (some h.next), ⟨h.next :: h.live, h.next + 1, h.bad_free, h.fails⟩)) ∨
    (uninit = false ∧ h.next ∈ h.fails ∧
      alloc_pat1 uninit h = (none, ⟨h.live, h.next + 1, h.bad_free, h.fails⟩)) := by
  cases uninit with
  | true => exact Or.inl ⟨rfl, by simp [alloc_pat1]⟩
  | false =>
    by_cases hf : h.next ∈ h.fails
    · exact Or.inr (Or.inr ⟨rfl, hf, by simp [alloc_pat1, mrb_malloc_simple, hf]⟩)
    · exact Or.inr (Or.inl ⟨rfl, hf, by simp [alloc_pat1, mrb_malloc_simple, hf]⟩)

/-- The release when `mrb_malloc_simple` returns `NULL`. -/
theorem heap_inv_nomem (base : List Nat) (pat0 ret : List node_ref) (h h1 : heap)
    (hi : heap_inv base pat0 ret h) (uninit : Bool) (ha : alloc_pat1 uninit h = (none, h1)) :
    tr_free_pattern ret (tr_free_pattern pat0 h1) = ⟨base, h1.next, false, h1.fails⟩ ∧
      h.fails ≠ [] := by
  rcases alloc_pat1_cases uninit h with ⟨_, h0⟩ | ⟨_, _, h0⟩ | ⟨_, hf, h0⟩
  · rw [h0] at ha
    exact absurd ha (by simp)
  · rw [h0] at ha
    exact absurd ha (by simp)
  · rw [h0] at ha
    have h1eq : h1 = ⟨h.live, h.next + 1, h.bad_free, h.fails⟩ := (Prod.mk.inj ha).2.symm
    subst h1eq
    refine ⟨heap_inv_release base pat0 ret _
      ⟨hi.wf0, hi.wf1, hi.uninit, hi.no_bad, ?_, hi.nodup, hi.held⟩, ?_⟩
    · intro a hm
      have := hi.below a hm
      show a < h.next + 1
      omega
    · intro hc
      rw [hc] at hf
      exact absurd hf (List.not_mem_nil _)

/-- The release on the raise of "tr pattern too long": both sets and the node just
allocated for `pat1`. -/
theorem heap_inv_too_long (base : List Nat) (pat0 ret : List node_ref) (h h1 : heap)
    (hi : heap_inv base pat0 ret h) (uninit : Bool) (addr : Option Nat)
    (ha : alloc_pat1 uninit h = (some addr, h1)) :
    (match addr with
      | some a => mrb_free (tr_free_pattern ret (tr_free_pattern pat0 h1)) a
      | none => tr_free_pattern ret (tr_free_pattern pat0 h1))
      = ⟨base, h1.next, false, h1.fails⟩ := by
  rcases alloc_pat1_cases uninit h with ⟨_, h0⟩ | ⟨_, _, h0⟩ | ⟨_, _, h0⟩
  · rw [h0] at ha
    obtain ⟨ha1, ha2⟩ := Prod.mk.inj ha
    have ha3 : addr = none := (Option.some.inj ha1).symm
    subst ha3
    subst ha2
    exact heap_inv_release base pat0 ret h hi
  · rw [h0] at ha
    obtain ⟨ha1, ha2⟩ := Prod.mk.inj ha
    have ha3 : addr = some h.next := (Option.some.inj ha1).symm
    subst ha3
    subst ha2
    obtain ⟨fresh, hl, hnd, hmem⟩ := hi.held
    have hnot : h.next ∉ fresh := by
      intro hc
      have := hi.below h.next (by rw [hl]; exact List.mem_append_left _ hc)
      omega
    show mrb_free (tr_free_pattern ret (tr_free_pattern pat0 _)) h.next = _
    rw [tr_free_pattern_two pat0 ret _ (h.next :: fresh) base hi.wf0 hi.wf1
      (by simp [hl]) (List.nodup_cons.mpr ⟨hnot, hnd⟩) hi.nodup
      (fun a ha => List.mem_cons_of_mem _ ((hmem a).mpr ha))]
    have hf : (h.next :: fresh).filter
        (fun a => decide (a ∉ heap_addrs pat0 ++ heap_addrs ret)) = [h.next] := by
      have h1 : h.next ∉ heap_addrs pat0 ++ heap_addrs ret := fun hc => hnot ((hmem _).mpr hc)
      rw [List.filter_cons_of_pos (by simpa using h1)]
      congr 1
      rw [List.filter_eq_nil_iff]
      intro a ha
      have hm := (hmem a).mp ha
      simp only [decide_not, Bool.not_eq_eq_eq_not, Bool.not_true, decide_eq_false_iff_not,
        not_not]
      exact hm
    rw [hf]
    simp [mrb_free, hi.no_bad]
  · rw [h0] at ha
    exact absurd ha (by simp)

/-- One turn of the parser loop keeps the allocation invariant: the node written over
the caller's static node owns no block, every other node owns the block just allocated. -/
theorem heap_inv_link (base : List Nat) (pat0 ret : List node_ref) (h h1 : heap)
    (hi : heap_inv base pat0 ret h) (addr : Option Nat)
    (ha : alloc_pat1 (ret_uninit (ret.map Prod.snd)) h = (some addr, h1))
    (pat1 : tr_pattern)
    (hflag : pat1.flag_on_heap = !(ret_uninit (ret.map Prod.snd)))
    (htype : pat1.type ≠ TR_UNINITIALIZED) :
    heap_inv base pat0 (link_ref (ret_uninit (ret.map Prod.snd)) ret (addr, pat1)) h1 ∧
      h1.fails = h.fails := by
  obtain ⟨fresh, hl, hnd, hmem⟩ := hi.held
  rcases alloc_pat1_cases (ret_uninit (ret.map Prod.snd)) h with
    ⟨hu, h0⟩ | ⟨hu, _, h0⟩ | ⟨_, _, h0⟩
  · rw [h0] at ha
    obtain ⟨ha1, ha2⟩ := Prod.mk.inj ha
    have ha3 : addr = none := (Option.some.inj ha1).symm
    subst ha3
    subst ha2
    rw [hu] at hflag
    have hq : pat1.flag_on_heap = false := by simpa using hflag
    have hret := hi.uninit hu
    have hone : heap_addrs [((none : Option Nat), pat1)] = [] := by
      simp [heap_addrs]
    rw [hu]
    simp only [link_ref, if_true]
    refine ⟨⟨hi.wf0, ?_, ?_, hi.no_bad, hi.below, ?_, ⟨fresh, hl, hnd, ?_⟩⟩, trivial⟩
    · intro r hr
      rw [List.mem_singleton] at hr
      subst hr
      simp [hq]
    · intro hc
      simp [ret_uninit, htype] at hc
    · rw [hone]
      have := hi.nodup
      rwa [hret] at this
    · intro a
      rw [hone, hmem a, hret]
  · rw [h0] at ha
    obtain ⟨ha1, ha2⟩ := Prod.mk.inj ha
    have ha3 : addr = some h.next := (Option.some.inj ha1).symm
    subst ha3
    subst ha2
    rw [hu] at hflag
    have hq : pat1.flag_on_heap = true := by simpa using hflag
    have hone : heap_addrs [(some h.next, pat1)] = [h.next] := by
      simp [heap_addrs, hq]
    have hnot : h.next ∉ fresh := by
      intro hc
      have := hi.below h.next (by rw [hl]; exact List.mem_append_left _ hc)
      omega
    have hnot2 : h.next ∉ heap_addrs pat0 ++ heap_addrs ret := fun hc => hnot ((hmem _).mpr hc)
    have hu2 := hu
    rw [hu]
    simp only [link_ref, Bool.false_eq_true, if_false]
    refine ⟨⟨hi.wf0, ?_, ?_, hi.no_bad, ?_, ?_, ⟨h.next :: fresh, by simp [hl],
      List.nodup_cons.mpr ⟨hnot, hnd⟩, ?_⟩⟩, trivial⟩
    · intro r hr
      rcases List.mem_append.mp hr with hr | hr
      · exact hi.wf1 r hr
      · rw [List.mem_singleton] at hr
        subst hr
        simp [hq]
    · intro hc
      cases ret with
      | nil => simp [ret_uninit, htype] at hc
      | cons p rest =>
        simp only [List.map_append, List.map_cons, List.cons_append, ret_uninit] at hc hu2
        rw [hu2] at hc
        exact absurd hc (by decide)
    · intro a ha
      show a < h.next + 1
      rcases List.mem_cons.mp ha with ha | ha
      · omega
      · have := hi.below a ha
        omega
    · rw [heap_addrs_append, hone, ← List.append_assoc]
      refine List.nodup_append.mpr ⟨hi.nodup, List.nodup_singleton _, ?_⟩
      intro a ha hb
      rw [List.mem_singleton] at hb
      subst hb
      exact hnot2 ha
    · intro a
      rw [heap_addrs_append, hone, ← List.append_assoc, List.mem_cons, List.mem_append,
        List.mem_singleton, hmem a]
      tauto
  · rw [h0] at ha
    exact absurd ha (by simp)

theorem link_ref_map (uninit : Bool) (ret : List node_ref) (r : node_ref) :
    (link_ref uninit ret r).map Prod.snd = link_pattern uninit (ret.map Prod.snd) r.2 := by
  cases uninit <;> simp [link_ref, link_pattern]

/-- The parser loop with its allocations computes the nodes of the plain loop; when it
returns, exactly the heap nodes of the two sets are allocated on top of what was there
before; when it raises, nothing but what was there before is allocated. -/
theorem tr_parse_loop_h_spec (pattern : List Byte) (fr : Bool) (base : List Nat)
    (pat0 : List node_ref) :
    ∀ (fuel i : Nat) (ret : List node_ref) (h : heap), heap_inv base pat0 ret h →
      parse_post base pat0 (tr_parse_loop pattern fr fuel i (ret.map Prod.snd)) h.fails
        (tr_parse_loop_h pattern fr pat0 fuel i ret h) := by
  intro fuel
  induction fuel with
  | zero =>
    intro i ret h hi
    simp only [tr_parse_loop_h, tr_parse_loop, parse_post]
    exact ⟨trivial, hi, trivial⟩
  | succ fuel ih =>
    intro i ret h hi
    unfold tr_parse_loop_h tr_parse_loop
    by_cases hlt : i < pattern.length
    · simp only [hlt, if_true]
      rcases halloc : alloc_pat1 (ret_uninit (ret.map Prod.snd)) h with ⟨_ | addr, h1⟩
      · simp only [parse_post]
        have := heap_inv_nomem base pat0 ret h h1 hi _ halloc
        rw [this.1]
        exact ⟨rfl, rfl, this.2⟩
      · simp only []
        by_cases hr : is_range pattern i = true
        · simp only [hr, if_true]
          have hi2 := heap_inv_link base pat0 ret h h1 hi addr halloc
            (range_node pattern fr (!(ret_uninit (ret.map Prod.snd))) i) rfl
            (by simp [range_node])
          have := ih (i + 3) _ _ hi2.1
          rw [link_ref_map, hi2.2] at this
          exact this
        · simp only [hr, Bool.false_eq_true, if_false]
          by_cases hlen : scan_in_order pattern pattern.length (i + 1) - i > UINT16_MAX
          · simp only [hlen, if_true, parse_post]
            rw [heap_inv_too_long base pat0 ret h h1 hi _ addr halloc]
            exact ⟨trivial, rfl, rfl⟩
          · simp only [hlen, if_false]
            have hi2 := heap_inv_link base pat0 ret h h1 hi addr halloc
              (in_order_node fr (!(ret_uninit (ret.map Prod.snd))) i
                (scan_in_order pattern pattern.length (i + 1))) rfl
              (by simp [in_order_node])
            have := ih (scan_in_order pattern pattern.length (i + 1)) _ _ hi2.1
            rw [link_ref_map, hi2.2] at this
            exact this
    · simp only [hlt, if_false, parse_post]
      exact ⟨trivial, hi, trivial⟩

/-- Before the first parse nothing of the call is allocated. -/
theorem heap_inv_start (h : heap) (hb : h.bad_free = false) (hlive : ∀ a ∈ h.live, a < h.next) :
    heap_inv h.live [] [(none, STATIC_TR_PATTERN)] h :=
  ⟨fun _ hr => absurd hr (List.not_mem_nil _),
    by intro r hr; rw [List.mem_singleton] at hr; subst hr; rfl,
    fun _ => rfl, hb, hlive, List.nodup_nil, ⟨[], rfl, List.nodup_nil, fun _ => Iff.rfl⟩⟩

/-- Before the second parse of `str_tr` the first set is held as `pat0`. -/
theorem heap_inv_second (base : List Nat) (pat : List node_ref) (h : heap)
    (hi : heap_inv base [] pat h) : heap_inv base pat [(none, STATIC_TR_PATTERN)] h := by
  obtain ⟨fresh, hl, hnd, hmem⟩ := hi.held
  have hone : heap_addrs [((none : Option Nat), STATIC_TR_PATTERN)] = [] := rfl
  have hnil : heap_addrs ([] : List node_ref) = [] := rfl
  refine ⟨hi.wf1, ?_, fun _ => rfl, hi.no_bad, hi.below, ?_, ⟨fresh, hl, hnd, ?_⟩⟩
  · intro r hr
    rw [List.mem_singleton] at hr
    subst hr
    rfl
  · have := hi.nodup
    rw [hnil, List.nil_append] at this
    rw [hone, List.append_nil]
    exact this
  · intro a
    rw [hmem a, hone, hnil, List.nil_append, List.append_nil]

theorem tr_parse_pattern_h_spec (pattern : List Byte) (en : Bool) (base : List Nat)
    (pat0 : List node_ref) (h : heap) (hi : heap_inv base pat0 [(none, STATIC_TR_PATTERN)] h) :
    parse_post base pat0 (tr_parse_pattern pattern en) h.fails
      (tr_parse_pattern_h pattern en pat0 h) :=
  tr_parse_loop_h_spec pattern _ base pat0 _ _ _ h hi

/-- The operations that parse one set (`str_squeeze`, `str_delete`, `str_count`): the
set is released right after the bitmap is compiled. -/
theorem heap_inv_release_one (base : List Nat) (pat : List node_ref) (h : heap)
    (hi : heap_inv base [] pat h) :
    tr_free_pattern pat h = ⟨base, h.next, false, h.fails⟩ :=
  heap_inv_release base [] pat h hi

theorem str_tr_h_released (h : heap) (hb : h.bad_free = false)
    (hlive : ∀ a ∈ h.live, a < h.next) (str : List Byte) (p1 p2 : spec_arg) (squeeze : Bool) :
    released h (str_tr str p1 p2 squeeze) (str_tr_h str p1 p2 squeeze h) := by
  have s1 := tr_parse_pattern_h_spec (spec_buf p1 str) true h.live [] h (heap_inv_start h hb hlive)
  unfold str_tr_h str_tr released
  rcases hp : tr_parse_pattern_h (spec_buf p1 str) true [] h with ⟨pat | _ | _, h1⟩
  · rw [hp] at s1
    obtain ⟨e1, hi1, hf1⟩ := s1
    have s2 := tr_parse_pattern_h_spec (spec_buf p2 str) false h.live pat h1 (heap_inv_second _ _ _ hi1)
    rw [e1]
    simp only []
    rcases hq : tr_parse_pattern_h (spec_buf p2 str) false pat h1 with ⟨rep | _ | _, h2⟩
    · rw [hq] at s2
      obtain ⟨e2, hi2, _⟩ := s2
      rw [e2]
      simp only []
      cases str_tr_loop (pat.map Prod.snd) (rep.map Prod.snd) p1 p2 squeeze
          str.length 0 0 str (-1) false with
      | done s j fc =>
        simp only [heap_inv_release _ _ _ _ hi2]
        exact ⟨trivial, trivial, Or.inl trivial⟩
      | out_of_range s c =>
        simp only [heap_inv_release _ _ _ _ hi2]
        exact ⟨trivial, trivial, Or.inl trivial⟩
    · rw [hq] at s2
      obtain ⟨e2, hl2, hb2⟩ := s2
      rw [e2]
      exact ⟨hl2, hb2, Or.inl rfl⟩
    · rw [hq] at s2
      obtain ⟨hl2, hb2, hne⟩ := s2
      exact ⟨hl2, hb2, Or.inr ⟨rfl, hf1 ▸ hne⟩⟩
  · rw [hp] at s1
    obtain ⟨e1, hl1, hb1⟩ := s1
    rw [e1]
    exact ⟨hl1, hb1, Or.inl rfl⟩
  · rw [hp] at s1
    obtain ⟨hl1, hb1, hne⟩ := s1
    exact ⟨hl1, hb1, Or.inr ⟨rfl, hne⟩⟩

theorem str_squeeze_h_released (h : heap) (hb : h.bad_free = false)
    (hlive : ∀ a ∈ h.live, a < h.next) (str : List Byte) (v_pat : Option (List Byte)) :
    released h (str_squeeze str v_pat) (str_squeeze_h str v_pat h) := by
  cases v_pat with
  | none => exact ⟨rfl, hb, Or.inl rfl⟩
  | some p =>
    have s1 := tr_parse_pattern_h_spec p true h.live [] h (heap_inv_start h hb hlive)
    unfold str_squeeze_h str_squeeze released
    simp only []
    rcases hp : tr_parse_pattern_h p true [] h with ⟨pat | _ | _, h1⟩
    · rw [hp] at s1
      obtain ⟨e1, hi1, _⟩ := s1
      rw [e1]
      simp only [heap_inv_release_one _ _ _ hi1]
      exact ⟨trivial, trivial, Or.inl trivial⟩
    · rw [hp] at s1
      obtain ⟨e1, hl1, hb1⟩ := s1
      rw [e1]
      exact ⟨hl1, hb1, Or.inl rfl⟩
    · rw [hp] at s1
      obtain ⟨hl1, hb1, hne⟩ := s1
      exact ⟨hl1, hb1, Or.inr ⟨rfl, hne⟩⟩

theorem str_delete_h_released (h : heap) (hb : h.bad_free = false)
    (hlive : ∀ a ∈ h.live, a < h.next) (str v_pat : List Byte) :
    released h (str_delete str v_pat) (str_delete_h str v_pat h) := by
  have s1 := tr_parse_pattern_h_spec v_pat true h.live [] h (heap_inv_start h hb hlive)
  unfold str_delete_h str_delete released
  rcases hp : tr_parse_pattern_h v_pat true [] h with ⟨pat | _ | _, h1⟩
  · rw [hp] at s1
    obtain ⟨e1, hi1, _⟩ := s1
    rw [e1]
    simp only [heap_inv_release_one _ _ _ hi1]
    exact ⟨trivial, trivial, Or.inl trivial⟩
  · rw [hp] at s1
    obtain ⟨e1, hl1, hb1⟩ := s1
    rw [e1]
    exact ⟨hl1, hb1, Or.inl rfl⟩
  · rw [hp] at s1
    obtain ⟨hl1, hb1, hne⟩ := s1
    exact ⟨hl1, hb1, Or.inr ⟨rfl, hne⟩⟩

theorem str_count_h_released (h : heap) (hb : h.bad_free = false)
    (hlive : ∀ a ∈ h.live, a < h.next) (str v_pat : List Byte) :
    released h (str_count str v_pat) (str_count_h str v_pat h) := by
  have s1 := tr_parse_pattern_h_spec v_pat true h.live [] h (heap_inv_start h hb hlive)
  unfold str_count_h str_count released
  rcases hp : tr_parse_pattern_h v_pat true [] h with ⟨pat | _ | _, h1⟩
  · rw [hp] at s1
    obtain ⟨e1, hi1, _⟩ := s1
    rw [e1]
    simp only [heap_inv_release_one _ _ _ hi1]
    exact ⟨trivial, trivial, Or.inl trivial⟩
  · rw [hp] at s1
    obtain ⟨e1, hl1, hb1⟩ := s1
    rw [e1]
    exact ⟨hl1, hb1, Or.inl rfl⟩
  · rw [hp] at s1
    obtain ⟨hl1, hb1, hne⟩ := s1
    exact ⟨hl1, hb1, Or.inr ⟨rfl, hne⟩⟩

/-- Claim C18. Every heap-allocated pattern node is released on every exit path of the
four operations `str_tr`, `str_squeeze`, `str_delete` and `str_count`. Started on an
allocator `h` in order (no wrong free so far, every allocated address below the next
fresh one), each operation ends, whether it returns, raises "tr pattern too long" in
the parse of the from-spec or of the to-spec, raises "character out of range", or raises
`nomem_err`, with exactly the blocks of `h` allocated, so no node of the call remains,
and with no free of a block that is not allocated, so none is freed twice; and unless
`nomem_err` was raised, which takes an allocator that can fail, the result is that of
the operation without the allocator. -/
theorem C18_nodes_released (h : heap) (hb : h.bad_free = false)
    (hlive : ∀ a ∈ h.live, a < h.next) :
    (∀ (str : List Byte) (p1 p2 : spec_arg) (squeeze : Bool),
      released h (str_tr str p1 p2 squeeze) (str_tr_h str p1 p2 squeeze h)) ∧
    (∀ (str : List Byte) (v_pat : Option (List Byte)),
      released h (str_squeeze str v_pat) (str_squeeze_h str v_pat h)) ∧
    (∀ (str v_pat : List Byte),
      released h (str_delete str v_pat) (str_delete_h str v_pat h)) ∧
    (∀ (str v_pat : List Byte),
      released h (str_count str v_pat) (str_count_h str v_pat h)) :=
  ⟨str_tr_h_released h hb hlive, str_squeeze_h_released h hb hlive,
    str_delete_h_released h hb hlive, str_count_h_released h hb hlive⟩

/-- A use of `C18_nodes_released`: `"a2".tr("a-cxyz0-9", "Az-a")` on an allocator that
holds the block `7`. The parse of the from-spec allocates the blocks `10` and `11`, the
parse of the to-spec the block `12`; the call raises on the replacement `129` of `2` and
leaves the block `7` alone allocated. With no memory for the block `11` the call raises
`nomem_err` and again leaves the block `7` alone. -/
theorem C18_nodes_released_witness :
    (tr_parse_pattern_h (bytes "a-cxyz0-9") true [] ⟨[7], 10, false, []⟩).2.live = [11, 10, 7] ∧
    str_tr_h (bytes "a2") (spec_arg.other (bytes "a-cxyz0-9"))
        (spec_arg.other (bytes "Az-a")) false ⟨[7], 10, false, []⟩
      = (alloc_result.ok (str_result.raised (bytes "A2") (tr_error.char_out_of_range 129)),
          ⟨[7], 13, false, []⟩) ∧
    str_tr_h (bytes "a2") (spec_arg.other (bytes "a-cxyz0-9"))
        (spec_arg.other (bytes "Az-a")) false ⟨[7], 10, false, [11]⟩
      = (alloc_result.nomem, ⟨[7], 12, false, [11]⟩) ∧
    (∀ a ∈ [7], a < 10) ∧
    released ⟨[7], 10, false, []⟩
      (str_tr (bytes "a2") (spec_arg.other (bytes "a-cxyz0-9"))
          (spec_arg.other (bytes "Az-a")) false)
      (str_tr_h (bytes "a2") (spec_arg.other (bytes "a-cxyz0-9"))
          (spec_arg.other (bytes "Az-a")) false ⟨[7], 10, false, []⟩) :=
  ⟨by decide, by decide, by decide, by decide,
    (C18_nodes_released ⟨[7], 10, false, []⟩ rfl (by decide)).1 _ _ _ _⟩

/-! ## Value lookup on a negated set -/

theorem head_flag_reverse_parsed (p : List Byte) (enable : Bool) (pat : List tr_pattern)
    (hp : tr_parse_pattern p enable = some pat) :
    head_flag_reverse pat = is_reversed p enable := by
  obtain ⟨nodes, hpn, hs⟩ := tr_parse_pattern_some p enable pat hp
  have hnodes := parsed_nodes p _ _ false nodes hpn
  cases hr : is_reversed p enable with
  | false =>
    rw [hs]
    apply head_flag_reverse_of_forall _ false _ (ret_of_ne_nil nodes)
    intro q hq
    rcases mem_ret_of nodes q hq with h | h
    · rw [h]; rfl
    · rw [← hr]; exact (hnodes q h).1
  | true =>
    rw [hr] at hpn
    simp only [if_true] at hpn
    have hlen : 1 < p.length := by
      have := (is_reversed_iff p enable).mp hr
      omega
    have hne := parsed_ne_nil p _ 1 false nodes hpn hlen
    rw [hs, ret_of_eq nodes hne]
    apply head_flag_reverse_of_forall _ true _ hne
    intro q hq
    rw [← hr]
    exact (hnodes q hq).1

theorem range_ok_parsed (p : List Byte) (enable : Bool) (pat : List tr_pattern)
    (hp : tr_parse_pattern p enable = some pat) : ∀ q ∈ pat, range_ok q := by
  obtain ⟨nodes, hpn, hs⟩ := tr_parse_pattern_some p enable pat hp
  have hnodes := parsed_nodes p _ _ false nodes hpn
  intro q hq
  rw [hs] at hq
  rcases mem_ret_of nodes q hq with h | h
  · rw [h]
    intro ht
    exact absurd ht (by decide)
  · exact (hnodes q h).2.2.1

/-- Claim C26. The round trip of the two lookups: for every spec `P` parsed without
negation (negation disabled, or the spec not negated), into the set `pat`, and every byte
`b`, if `tr_find_character` returns an ordinal `n >= 0` for `b` then `tr_get_character`
at `n` in the same set and buffer returns `b`. -/
theorem C26_lookup_round_trip (P : List Byte) (enable : Bool) (pat : List tr_pattern)
    (hp : tr_parse_pattern P enable = some pat) (hneg : is_reversed P enable = false)
    (b : Byte) (hn : 0 ≤ tr_find_character pat P (charVal b)) :
    tr_get_character pat P (tr_find_character pat P (charVal b)) = charVal b ∧
    byteOfInt (tr_get_character pat P (tr_find_character pat P (charVal b))) = b := by
  have hflag := head_flag_reverse_parsed P enable pat hp
  rw [hneg] at hflag
  have hfind : tr_find_character pat P (charVal b) = tr_find_loop P (charVal b) pat (-1) 0 := by
    unfold tr_find_character
    simp [hflag]
  have hget : tr_get_character pat P (tr_find_character pat P (charVal b)) = charVal b := by
    rw [hfind] at hn ⊢
    rcases tr_find_get_loop P (charVal b) pat (-1) 0 (range_ok_parsed P enable pat hp) with h | h
    · rw [h] at hn
      omega
    · exact h.2
  exact ⟨hget, by rw [hget, byteOfInt_charVal]⟩

/-- A use of `C26_lookup_round_trip`: in `"a-cx"` the byte `x` has the ordinal `3`, and the
ordinal `3` is `x`. -/
theorem C26_lookup_round_trip_witness :
    tr_parse_pattern (bytes "a-cx") true
      = some [⟨TR_RANGE, false, false, 3, 0, 97, 99⟩, ⟨TR_IN_ORDER, false, true, 1, 3, 0, 0⟩] ∧
    tr_find_character
      [⟨TR_RANGE, false, false, 3, 0, 97, 99⟩, ⟨TR_IN_ORDER, false, true, 1, 3, 0, 0⟩]
      (bytes "a-cx") (charVal 120) = 3 ∧
    tr_get_character
      [⟨TR_RANGE, false, false, 3, 0, 97, 99⟩, ⟨TR_IN_ORDER, false, true, 1, 3, 0, 0⟩]
      (bytes "a-cx")
      (tr_find_character
        [⟨TR_RANGE, false, false, 3, 0, 97, 99⟩, ⟨TR_IN_ORDER, false, true, 1, 3, 0, 0⟩]
        (bytes "a-cx") (charVal 120)) = charVal 120 :=
  ⟨by decide, by decide,
    (C26_lookup_round_trip (bytes "a-cx") true
      [⟨TR_RANGE, false, false, 3, 0, 97, 99⟩, ⟨TR_IN_ORDER, false, true, 1, 3, 0, 0⟩]
      (by decide) (by decide) 120 (by decide)).1⟩

/-! ## Ordinal lookup -/

theorem squeeze_model_idem (subject : Byte → Bool) :
    ∀ (l : List Byte) (lastch : Int),
      squeeze_model subject lastch (squeeze_model subject lastch l)
        = squeeze_model subject lastch l := by
  intro l
  induction l with
  | nil => intro lastch; rfl
  | cons x xs ih =>
    intro lastch
    by_cases hd : subject x = true ∧ charVal x = lastch
    · have h1 : squeeze_model subject lastch (x :: xs) = squeeze_model subject lastch xs := by
        simp only [squeeze_model, if_pos hd]
        rw [hd.2]
      rw [h1]
      exact ih lastch
    · have h1 : squeeze_model subject lastch (x :: xs)
          = x :: squeeze_model subject (charVal x) xs := by
        simp only [squeeze_model, if_neg hd]
      rw [h1]
      simp only [squeeze_model, if_neg hd]
      rw [ih (charVal x)]

/-- Claim C27. The function `str_squeeze` is idempotent: for every byte string `s` and
every optional spec `p`, `str_squeeze` applied with the same `p` to the buffer a first
call returns leaves that buffer as it is and returns `flag_changed = false`. The first
call returns unless `p` is a spec the parser rejects; then both calls raise and the buffer
is `s`. So after `squeeze("yellow moon")` gave `"yelow mon"`, `squeeze("yelow mon")`
reports no change. -/
theorem C27_squeeze_idempotent (s : List Byte) (p : Option (List Byte)) :
    str_squeeze (result_buf (str_squeeze s p)) p
      = (match str_squeeze s p with
          | str_result.returned buf _ => str_result.returned buf false
          | str_result.raised buf e => str_result.raised buf e) ∧
    ((∃ buf changed, str_squeeze s p = str_result.returned buf changed) ∨
      (∃ q, p = some q ∧ tr_parse_pattern q true = none ∧
        str_squeeze s p = str_result.raised s tr_error.pattern_too_long)) ∧
    str_squeeze (bytes "yellow moon") none = str_result.returned (bytes "yelow mon") true ∧
    str_squeeze (bytes "yelow mon") none = str_result.returned (bytes "yelow mon") false ∧
    str_squeeze [255, 255, 97, 97] (some [255, 97]) = str_result.returned [97] true ∧
    str_squeeze [97] (some [255, 97]) = str_result.returned [97] false := by
  refine ⟨?_, ?_, by decide, by decide, by decide, by decide⟩
  · cases p with
    | none =>
      rw [str_squeeze_none_model s]
      simp only [result_buf]
      rw [str_squeeze_none_model, squeeze_model_idem]
      simp
    | some q =>
      cases hp : tr_parse_pattern q true with
      | none =>
        have h1 : ∀ t : List Byte,
            str_squeeze t (some q) = str_result.raised t tr_error.pattern_too_long := by
          intro t
          simp only [str_squeeze, hp]
        rw [h1 s]
        simp only [result_buf]
        exact h1 s
      | some pat =>
        rw [str_squeeze_some_model s q pat hp]
        simp only [result_buf]
        rw [str_squeeze_some_model _ q pat hp, squeeze_model_idem]
        simp
  · cases p with
    | none => exact Or.inl ⟨_, _, str_squeeze_none_model s⟩
    | some q =>
      cases hp : tr_parse_pattern q true with
      | none => exact Or.inr ⟨q, rfl, hp, by simp only [str_squeeze, hp]⟩
      | some pat => exact Or.inl ⟨_, _, str_squeeze_some_model s q pat hp⟩

/-! ## The two cursors of the rewrite loops -/

theorem cursor_ok_head (i j : Nat) (hji : j ≤ i) :
    ∀ e ∈ cursor_event.iter i (j : Int) :: copy_down_event i j (j : Int), cursor_ok e := by
  intro e he
  rcases List.mem_cons.mp he with h | h
  · rw [h]
    exact ⟨by omega, by omega⟩
  · unfold copy_down_event at h
    by_cases hij : i > j
    · rw [if_pos hij, List.mem_singleton] at h
      rw [h]
      exact ⟨by omega, by omega⟩
    · rw [if_neg hij] at h
      exact absurd h (List.not_mem_nil _)

theorem dropped_head (i j : Nat) (jg : Int) (l : List cursor_event) :
    dropped (cursor_event.iter i jg :: copy_down_event i j jg ++ l) = dropped l := by
  unfold copy_down_event
  by_cases hij : i > j
  · rw [if_pos hij]
    rfl
  · rw [if_neg hij]
    rfl

theorem cursor_back (j : Nat) : ((j : Int) - 1 + 1) = (j : Int) := by omega

theorem cursor_ok_step (i j : Nat) (hji : j ≤ i) (mid rest : List cursor_event)
    (hmid : ∀ e ∈ mid, cursor_ok e) (hrest : ∀ e ∈ rest, cursor_ok e) :
    ∀ e ∈ cursor_event.iter i (j : Int) :: copy_down_event i j (j : Int) ++ (mid ++ rest),
      cursor_ok e := by
  intro e he
  rw [List.mem_append, List.mem_append] at he
  rcases he with h | h | h
  · exact cursor_ok_head i j hji e h
  · exact hmid e h
  · exact hrest e h

theorem str_delete_loop_ghost_spec (bitmap : List Nat) :
    ∀ (left i j : Nat) (s : List Byte) (fc : Bool), j ≤ i →
      (str_delete_loop_ghost bitmap left i j (j : Int) s fc).1
          = str_delete_loop bitmap left i j s fc ∧
        (∀ e ∈ (str_delete_loop_ghost bitmap left i j (j : Int) s fc).2.1, cursor_ok e) ∧
        ((str_delete_loop_ghost bitmap left i j (j : Int) s fc).1.2.1 : Int)
          = (str_delete_loop_ghost bitmap left i j (j : Int) s fc).2.2 ∧
        (str_delete_loop_ghost bitmap left i j (j : Int) s fc).1.2.1
            + dropped (str_delete_loop_ghost bitmap left i j (j : Int) s fc).2.1
          = j + left := by
  intro left
  induction left with
  | zero =>
    intro i j s fc _
    simp [str_delete_loop_ghost, str_delete_loop, dropped]
  | succ left ih =>
    intro i j s fc hji
    unfold str_delete_loop_ghost str_delete_loop
    by_cases hd : tr_bitmap_detect bitmap (byteAt (copy_down s i j) i) = true
    · simp only [hd, if_true, cursor_back]
      obtain ⟨h1, h2, h3, h4⟩ := ih (i + 1) j (copy_down s i j) true (by omega)
      refine ⟨h1, ?_, h3, ?_⟩
      · exact cursor_ok_step i j hji [cursor_event.drop i] _
          (by intro e he; rw [List.mem_singleton] at he; rw [he]; trivial) h2
      · rw [dropped_head]
        simp only [dropped]
        omega
    · simp only [hd, Bool.false_eq_true, if_false]
      have hc : ((j : Int) + 1) = ((j + 1 : Nat) : Int) := by push_cast; rfl
      rw [hc]
      obtain ⟨h1, h2, h3, h4⟩ := ih (i + 1) (j + 1) (copy_down s i j) fc (by omega)
      refine ⟨h1, ?_, h3, ?_⟩
      · exact cursor_ok_step i j hji [] _ (by intro e he; exact absurd he (List.not_mem_nil _)) h2
      · rw [dropped_head]
        omega


theorem str_squeeze_loop_pat_ghost_spec (bitmap : List Nat) :
    ∀ (left i j : Nat) (s : List Byte) (lastch : Int) (fc : Bool), j ≤ i →
      (str_squeeze_loop_pat_ghost bitmap left i j (j : Int) s lastch fc).1
          = str_squeeze_loop_pat bitmap left i j s lastch fc ∧
        (∀ e ∈ (str_squeeze_loop_pat_ghost bitmap left i j (j : Int) s lastch fc).2.1,
          cursor_ok e) ∧
        ((str_squeeze_loop_pat_ghost bitmap left i j (j : Int) s lastch fc).1.2.1 : Int)
          = (str_squeeze_loop_pat_ghost bitmap left i j (j : Int) s lastch fc).2.2 ∧
        (str_squeeze_loop_pat_ghost bitmap left i j (j : Int) s lastch fc).1.2.1
            + dropped (str_squeeze_loop_pat_ghost bitmap left i j (j : Int) s lastch fc).2.1
          = j + left := by
  intro left
  induction left with
  | zero =>
    intro i j s lastch fc _
    simp [str_squeeze_loop_pat_ghost, str_squeeze_loop_pat, dropped]
  | succ left ih =>
    intro i j s lastch fc hji
    unfold str_squeeze_loop_pat_ghost str_squeeze_loop_pat
    by_cases hd : tr_bitmap_detect bitmap (byteAt (copy_down s i j) i) = true ∧
        charAt (copy_down s i j) i = lastch
    · simp only [if_pos hd, cursor_back]
      obtain ⟨h1, h2, h3, h4⟩ :=
        ih (i + 1) j (copy_down s i j) (charAt (copy_down s i j) i) true (by omega)
      refine ⟨h1, ?_, h3, ?_⟩
      · exact cursor_ok_step i j hji [cursor_event.drop i] _
          (by intro e he; rw [List.mem_singleton] at he; rw [he]; trivial) h2
      · rw [dropped_head]
        simp only [dropped]
        omega
    · simp only [if_neg hd]
      have hc : ((j : Int) + 1) = ((j + 1 : Nat) : Int) := by push_cast; rfl
      rw [hc]
      obtain ⟨h1, h2, h3, h4⟩ :=
        ih (i + 1) (j + 1) (copy_down s i j) (charAt (copy_down s i j) i) fc (by omega)
      refine ⟨h1, ?_, h3, ?_⟩
      · exact cursor_ok_step i j hji [] _ (by intro e he; exact absurd he (List.not_mem_nil _)) h2
      · rw [dropped_head]
        omega

theorem str_squeeze_loop_all_ghost_spec :
    ∀ (left i j : Nat) (s : List Byte) (lastch : Int) (fc : Bool), j ≤ i →
      (str_squeeze_loop_all_ghost left i j (j : Int) s lastch fc).1
          = str_squeeze_loop_all left i j s lastch fc ∧
        (∀ e ∈ (str_squeeze_loop_all_ghost left i j (j : Int) s lastch fc).2.1, cursor_ok e) ∧
        ((str_squeeze_loop_all_ghost left i j (j : Int) s lastch fc).1.2.1 : Int)
          = (str_squeeze_loop_all_ghost left i j (j : Int) s lastch fc).2.2 ∧
        (str_squeeze_loop_all_ghost left i j (j : Int) s lastch fc).1.2.1
            + dropped (str_squeeze_loop_all_ghost left i j (j : Int) s lastch fc).2.1
          = j + left := by
  intro left
  induction left with
  | zero =>
    intro i j s lastch fc _
    simp [str_squeeze_loop_all_ghost, str_squeeze_loop_all, dropped]
  | succ left ih =>
    intro i j s lastch fc hji
    unfold str_squeeze_loop_all_ghost str_squeeze_loop_all
    by_cases hd : charAt (copy_down s i j) i ≥ 0 ∧ charAt (copy_down s i j) i = lastch
    · simp only [if_pos hd, cursor_back]
      obtain ⟨h1, h2, h3, h4⟩ :=
        ih (i + 1) j (copy_down s i j) (charAt (copy_down s i j) i) true (by omega)
      refine ⟨h1, ?_, h3, ?_⟩
      · exact cursor_ok_step i j hji [cursor_event.drop i] _
          (by intro e he; rw [List.mem_singleton] at he; rw [he]; trivial) h2
      · rw [dropped_head]
        simp only [dropped]
        omega
    · simp only [if_neg hd]
      have hc : ((j : Int) + 1) = ((j + 1 : Nat) : Int) := by push_cast; rfl
      rw [hc]
      obtain ⟨h1, h2, h3, h4⟩ :=
        ih (i + 1) (j + 1) (copy_down s i j) (charAt (copy_down s i j) i) fc (by omega)
      refine ⟨h1, ?_, h3, ?_⟩
      · exact cursor_ok_step i j hji [] _ (by intro e he; exact absurd he (List.not_mem_nil _)) h2
      · rw [dropped_head]
        omega


theorem str_tr_loop_ghost_spec (pat rep : List tr_pattern) (p1 p2 : spec_arg) (squeeze : Bool) :
    ∀ (left i j : Nat) (s : List Byte) (lastch : Int) (fc : Bool), j ≤ i →
      (str_tr_loop_ghost pat rep p1 p2 squeeze left i j (j : Int) s lastch fc).1
          = str_tr_loop pat rep p1 p2 squeeze left i j s lastch fc ∧
        (∀ e ∈ (str_tr_loop_ghost pat rep p1 p2 squeeze left i j (j : Int) s lastch fc).2.1,
          cursor_ok e) ∧
        (match final_j_of (str_tr_loop_ghost pat rep p1 p2 squeeze left i j (j : Int) s lastch fc).1
          with
          | some jf =>
            (jf : Int)
                = (str_tr_loop_ghost pat rep p1 p2 squeeze left i j (j : Int) s lastch fc).2.2 ∧
              jf + dropped
                  (str_tr_loop_ghost pat rep p1 p2 squeeze left i j (j : Int) s lastch fc).2.1
                = j + left
          | none => True) := by
  intro left
  induction left with
  | zero =>
    intro i j s lastch fc _
    simp [str_tr_loop_ghost, str_tr_loop, dropped, final_j_of]
  | succ left ih =>
    intro i j s lastch fc hji
    unfold str_tr_loop_ghost str_tr_loop
    have hc : ((j : Int) + 1) = ((j + 1 : Nat) : Int) := by push_cast; rfl
    by_cases hn : tr_find_character pat (spec_buf p1 s) (charAt s i) ≥ 0
    · simp only [if_pos hn]
      by_cases hdrop : tr_get_character rep (spec_buf p2 (copy_down s i j))
          (tr_find_character pat (spec_buf p1 s) (charAt s i)) < 0 ∨
          (squeeze = true ∧
            tr_get_character rep (spec_buf p2 (copy_down s i j))
                (tr_find_character pat (spec_buf p1 s) (charAt s i)) = lastch)
      · simp only [if_pos hdrop, cursor_back]
        obtain ⟨h1, h2, h3⟩ := ih (i + 1) j (copy_down s i j) lastch true (by omega)
        refine ⟨h1, ?_, ?_⟩
        · exact cursor_ok_step i j hji [cursor_event.drop i] _
            (by intro e he; rw [List.mem_singleton] at he; rw [he]; trivial) h2
        · revert h3
          cases final_j_of
              (str_tr_loop_ghost pat rep p1 p2 squeeze left (i + 1) j (j : Int)
                (copy_down s i j) lastch true).1 with
          | none => intro _; trivial
          | some jf =>
            intro h3
            refine ⟨h3.1, ?_⟩
            rw [dropped_head]
            simp only [dropped]
            omega
      · simp only [if_neg hdrop]
        by_cases hbig : tr_get_character rep (spec_buf p2 (copy_down s i j))
            (tr_find_character pat (spec_buf p1 s) (charAt s i)) > 128
        · simp only [if_pos hbig, final_j_of]
          exact ⟨trivial, cursor_ok_head i j hji, trivial⟩
        · simp only [if_neg hbig]
          rw [hc]
          obtain ⟨h1, h2, h3⟩ := ih (i + 1) (j + 1)
            ((copy_down s i j).set i
              (byteOfInt (tr_get_character rep (spec_buf p2 (copy_down s i j))
                  (tr_find_character pat (spec_buf p1 s) (charAt s i)))))
            (tr_get_character rep (spec_buf p2 (copy_down s i j))
                (tr_find_character pat (spec_buf p1 s) (charAt s i))) true (by omega)
          refine ⟨h1, ?_, ?_⟩
          · exact cursor_ok_step i j hji [cursor_event.write (i : Int) i] _
              (by
                intro e he
                rw [List.mem_singleton] at he
                rw [he]
                exact ⟨by omega, le_refl _⟩) h2
          · revert h3
            cases final_j_of
                (str_tr_loop_ghost pat rep p1 p2 squeeze left (i + 1) (j + 1) ((j + 1 : Nat) : Int)
                  ((copy_down s i j).set i
                    (byteOfInt (tr_get_character rep (spec_buf p2 (copy_down s i j))
                        (tr_find_character pat (spec_buf p1 s) (charAt s i)))))
                  (tr_get_character rep (spec_buf p2 (copy_down s i j))
                      (tr_find_character pat (spec_buf p1 s) (charAt s i))) true).1 with
            | none => intro _; trivial
            | some jf =>
              intro h3
              refine ⟨h3.1, ?_⟩
              rw [dropped_head]
              simp only [dropped]
              omega
    · simp only [if_neg hn]
      rw [hc]
      obtain ⟨h1, h2, h3⟩ := ih (i + 1) (j + 1) (copy_down s i j) lastch fc (by omega)
      refine ⟨h1, ?_, ?_⟩
      · exact cursor_ok_step i j hji [] _ (by intro e he; exact absurd he (List.not_mem_nil _)) h2
      · revert h3
        cases final_j_of
            (str_tr_loop_ghost pat rep p1 p2 squeeze left (i + 1) (j + 1) ((j + 1 : Nat) : Int)
              (copy_down s i j) lastch fc).1 with
        | none => intro _; trivial
        | some jf =>
          intro h3
          refine ⟨h3.1, ?_⟩
          rw [dropped_head]
          omega


/-- Claim C25. The two cursors of the three rewrite loops (`str_tr` with and without
squeezing, both loops of `str_squeeze`, `str_delete`), run as the functions run them, from
`i = j = 0` over the `len` bytes of the buffer. Each loop, run with a record of its cursors
next to it, computes what the loop computes, and on the record: every iteration starts
with `0 <= j <= i`, every store goes to an index `0 <= k <= i` where `i` is the index
being read, and when the loop runs to its end the final `j` is `len` minus the number of
dropped bytes, so it does not exceed `len`. The record of `"hello".delete("l")` is
written out. -/
theorem C25_two_cursors :
    (∀ (pat rep : List tr_pattern) (p1 p2 : spec_arg) (squeeze : Bool) (s : List Byte),
      (str_tr_loop_ghost pat rep p1 p2 squeeze s.length 0 0 0 s (-1) false).1
          = str_tr_loop pat rep p1 p2 squeeze s.length 0 0 s (-1) false ∧
        cursors_ok s.length
          (str_tr_loop_ghost pat rep p1 p2 squeeze s.length 0 0 0 s (-1) false).2.1
          (str_tr_loop_ghost pat rep p1 p2 squeeze s.length 0 0 0 s (-1) false).2.2
          (final_j_of (str_tr_loop pat rep p1 p2 squeeze s.length 0 0 s (-1) false))) ∧
    (∀ (bitmap : List Nat) (s : List Byte),
      (str_squeeze_loop_pat_ghost bitmap s.length 0 0 0 s (-1) false).1
          = str_squeeze_loop_pat bitmap s.length 0 0 s (-1) false ∧
        cursors_ok s.length
          (str_squeeze_loop_pat_ghost bitmap s.length 0 0 0 s (-1) false).2.1
          (str_squeeze_loop_pat_ghost bitmap s.length 0 0 0 s (-1) false).2.2
          (some (str_squeeze_loop_pat bitmap s.length 0 0 s (-1) false).2.1)) ∧
    (∀ s : List Byte,
      (str_squeeze_loop_all_ghost s.length 0 0 0 s (-1) false).1
          = str_squeeze_loop_all s.length 0 0 s (-1) false ∧
        cursors_ok s.length
          (str_squeeze_loop_all_ghost s.length 0 0 0 s (-1) false).2.1
          (str_squeeze_loop_all_ghost s.length 0 0 0 s (-1) false).2.2
          (some (str_squeeze_loop_all s.length 0 0 s (-1) false).2.1)) ∧
    (∀ (bitmap : List Nat) (s : List Byte),
      (str_delete_loop_ghost bitmap s.length 0 0 0 s false).1
          = str_delete_loop bitmap s.length 0 0 s false ∧
        cursors_ok s.length
          (str_delete_loop_ghost bitmap s.length 0 0 0 s false).2.1
          (str_delete_loop_ghost bitmap s.length 0 0 0 s false).2.2
          (some (str_delete_loop bitmap s.length 0 0 s false).2.1)) ∧
    str_delete_loop_ghost
        (tr_compile_pattern [⟨TR_IN_ORDER, false, false, 1, 0, 0, 0⟩] (bytes "l"))
        5 0 0 0 (bytes "hello") false
      = ((bytes "heolo", 3, true),
          [cursor_event.iter 0 0, cursor_event.iter 1 1, cursor_event.iter 2 2,
            cursor_event.drop 2, cursor_event.iter 3 2, cursor_event.write 2 3,
            cursor_event.drop 3, cursor_event.iter 4 2, cursor_event.write 2 4], 3) := by
  refine ⟨?_, ?_, ?_, ?_, by decide⟩
  · intro pat rep p1 p2 squeeze s
    obtain ⟨h1, h2, h3⟩ :=
      str_tr_loop_ghost_spec pat rep p1 p2 squeeze s.length 0 0 s (-1) false (le_refl 0)
    simp only [Nat.cast_zero] at h1 h2 h3
    refine ⟨h1, h2, ?_⟩
    rw [← h1]
    revert h3
    cases final_j_of (str_tr_loop_ghost pat rep p1 p2 squeeze s.length 0 0 0 s (-1) false).1 with
    | none => intro _; trivial
    | some jf =>
      intro h3
      exact ⟨h3.1, by omega, by omega⟩
  · intro bitmap s
    obtain ⟨h1, h2, h3, h4⟩ :=
      str_squeeze_loop_pat_ghost_spec bitmap s.length 0 0 s (-1) false (le_refl 0)
    simp only [Nat.cast_zero] at h1 h2 h3 h4
    refine ⟨h1, h2, ?_⟩
    rw [← h1]
    exact ⟨h3, by omega, by omega⟩
  · intro s
    obtain ⟨h1, h2, h3, h4⟩ :=
      str_squeeze_loop_all_ghost_spec s.length 0 0 s (-1) false (le_refl 0)
    simp only [Nat.cast_zero] at h1 h2 h3 h4
    refine ⟨h1, h2, ?_⟩
    rw [← h1]
    exact ⟨h3, by omega, by omega⟩
  · intro bitmap s
    obtain ⟨h1, h2, h3, h4⟩ := str_delete_loop_ghost_spec bitmap s.length 0 0 s false (le_refl 0)
    simp only [Nat.cast_zero] at h1 h2 h3 h4
    refine ⟨h1, h2, ?_⟩
    rw [← h1]
    exact ⟨h3, by omega, by omega⟩

/-! ## The bitmap, bit by bit -/

theorem and_shiftLeft_ne_zero_iff (x n : Nat) :
    (x &&& (1 <<< n) ≠ 0) ↔ x.testBit n = true := by
  rw [Nat.one_shiftLeft]
  constructor
  · intro h
    obtain ⟨i, hi⟩ := Nat.ne_zero_implies_bit_true h
    rw [Nat.testBit_and, Nat.testBit_two_pow] at hi
    simp only [Bool.and_eq_true, decide_eq_true_eq] at hi
    obtain ⟨h1, h2⟩ := hi
    subst h2
    exact h1
  · intro h hz
    have h2 : (x &&& 2 ^ n).testBit n = true := by
      rw [Nat.testBit_and, h, Nat.testBit_two_pow_self]
      rfl
    rw [hz, Nat.zero_testBit] at h2
    exact absurd h2 (by decide)

theorem tr_bitmap_detect_eq (bm : List Nat) (b : Byte) :
    tr_bitmap_detect bm b = (bm.getD (b.val / 8) 0).testBit (b.val % 8) := by
  unfold tr_bitmap_detect
  rw [Bool.eq_iff_iff]
  simp only [decide_eq_true_eq]
  exact and_shiftLeft_ne_zero_iff _ _

theorem tr_bitmap_set_length (bm : List Nat) (c : Byte) :
    (tr_bitmap_set bm c).length = bm.length := by
  simp [tr_bitmap_set]

theorem tr_bitmap_detect_set (bm : List Nat) (c b : Byte) (hlen : bm.length = 32) :
    tr_bitmap_detect (tr_bitmap_set bm c) b = (decide (b = c) || tr_bitmap_detect bm b) := by
  rw [tr_bitmap_detect_eq, tr_bitmap_detect_eq]
  unfold tr_bitmap_set
  have hc : c.val / 8 < bm.length := by
    have := c.isLt
    omega
  by_cases hk : b.val / 8 = c.val / 8
  · rw [hk]
    have hget : ∀ v : Nat, (bm.set (c.val / 8) v).getD (c.val / 8) 0 = v := by
      intro v
      simp [List.getD_eq_getElem?_getD, List.getElem?_set, hc]
    rw [hget, Nat.testBit_or, Nat.one_shiftLeft, Nat.testBit_two_pow]
    by_cases hbc : b = c
    · subst hbc
      simp
    · have hne : ¬ (c.val % 8 = b.val % 8) := by
        intro h
        apply hbc
        ext
        omega
      simp [hbc, hne]
  · have hget : ∀ v : Nat, (bm.set (c.val / 8) v).getD (b.val / 8) 0 = bm.getD (b.val / 8) 0 := by
      intro v
      simp [List.getD_eq_getElem?_getD, List.getElem?_set, Ne.symm hk]
    rw [hget]
    have hbc : b ≠ c := by
      intro h
      subst h
      exact hk rfl
    simp [hbc]

theorem tr_bitmap_detect_zero (b : Byte) : tr_bitmap_detect (List.replicate 32 0) b = false := by
  rw [tr_bitmap_detect_eq]
  have hz : ∀ n k : Nat, (List.replicate n (0 : Nat)).getD k 0 = 0 := by
    intro n k
    rw [List.getD_eq_getElem?_getD, List.getElem?_replicate]
    by_cases hk : k < n <;> simp [hk]
  rw [hz, Nat.zero_testBit]

theorem tr_bitmap_detect_xor (bm : List Nat) (b : Byte) (hlen : bm.length = 32) :
    tr_bitmap_detect (bm.map (fun x => x ^^^ 255)) b = !tr_bitmap_detect bm b := by
  rw [tr_bitmap_detect_eq, tr_bitmap_detect_eq]
  have hb : b.val / 8 < bm.length := by
    have := b.isLt
    omega
  have hget : (bm.map (fun x => x ^^^ 255)).getD (b.val / 8) 0 = bm.getD (b.val / 8) 0 ^^^ 255 := by
    simp [List.getD_eq_getElem?_getD, List.getElem?_map, List.getElem?_eq_getElem hb]
  rw [hget, Nat.testBit_xor]
  have h255 : (255 : Nat).testBit (b.val % 8) = true := by
    have : (255 : Nat) = 2 ^ 8 - 1 := by norm_num
    rw [this, Nat.testBit_two_pow_sub_one]
    simp only [decide_eq_true_eq]
    omega
  rw [h255]
  cases (bm.getD (b.val / 8) 0).testBit (b.val % 8) <;> rfl

theorem tr_bitmap_foldl {α : Type} (f : α → Byte) (b : Byte) :
    ∀ (l : List α) (bm : List Nat), bm.length = 32 →
      (l.foldl (fun (m : List Nat) (x : α) => tr_bitmap_set m (f x)) bm).length = 32 ∧
      tr_bitmap_detect (l.foldl (fun (m : List Nat) (x : α) => tr_bitmap_set m (f x)) bm) b
        = (tr_bitmap_detect bm b || decide (b ∈ l.map f)) := by
  intro l
  induction l with
  | nil =>
    intro bm hlen
    simp [hlen]
  | cons x xs ih =>
    intro bm hlen
    simp only [List.foldl_cons, List.map_cons, List.mem_cons]
    have h1 := ih (tr_bitmap_set bm (f x)) (by rw [tr_bitmap_set_length]; exact hlen)
    refine ⟨h1.1, ?_⟩
    rw [h1.2, tr_bitmap_detect_set bm (f x) b hlen]
    by_cases hbx : b = f x
    · simp [hbx]
    · simp [hbx, Bool.or_comm]

theorem tr_compile_loop_spec (pattern : List Byte) (b : Byte) :
    ∀ (pat : List tr_pattern) (bm : List Nat), bm.length = 32 →
      (tr_compile_loop pattern pat bm).length = 32 ∧
      tr_bitmap_detect (tr_compile_loop pattern pat bm) b
        = (tr_bitmap_detect bm b || decide (b ∈ pat.flatMap (bitmap_chars pattern))) := by
  intro pat
  induction pat with
  | nil =>
    intro bm hlen
    simp [tr_compile_loop, hlen]
  | cons q rest ih =>
    intro bm hlen
    have hstep : ∃ bm1 : List Nat, bm1.length = 32 ∧
        tr_compile_loop pattern (q :: rest) bm = tr_compile_loop pattern rest bm1 ∧
        tr_bitmap_detect bm1 b
          = (tr_bitmap_detect bm b || decide (b ∈ bitmap_chars pattern q)) := by
      unfold bitmap_chars
      cases ht : q.type with
      | TR_UNINITIALIZED =>
        exact ⟨bm, hlen, by simp [tr_compile_loop, ht], by simp⟩
      | TR_IN_ORDER =>
        have h1 := tr_bitmap_foldl (fun (i : Nat) => byteAt pattern (q.start_pos + i)) b
          (List.range q.n) bm hlen
        exact ⟨_, h1.1, by simp only [tr_compile_loop, ht], h1.2⟩
      | TR_RANGE =>
        have h1 := tr_bitmap_foldl (fun (k : Nat) => byteOfInt (q.ch0 + (k : Int))) b
          (List.range (q.ch1 - q.ch0).toNat) bm hlen
        exact ⟨_, h1.1, by simp only [tr_compile_loop, ht], h1.2⟩
    obtain ⟨bm1, hl1, he, hd⟩ := hstep
    rw [he]
    have h2 := ih bm1 hl1
    refine ⟨h2.1, ?_⟩
    rw [h2.2, hd, List.flatMap_cons]
    by_cases h1 : b ∈ bitmap_chars pattern q <;>
      by_cases h3 : b ∈ rest.flatMap (bitmap_chars pattern) <;> simp [h1, h3]

/-- The bitmap `tr_compile_pattern` builds, as a set of bytes: the bytes set for the
nodes, or their complement when the head node is flagged as negated. -/
theorem bitmap_member_eq (pat : List tr_pattern) (p : List Byte) (b : Byte) :
    bitmap_member pat p b
      = (head_flag_reverse pat ^^ decide (b ∈ pat.flatMap (bitmap_chars p))) := by
  unfold bitmap_member tr_compile_pattern
  have h := tr_compile_loop_spec p b pat (List.replicate 32 0) (by simp)
  cases hf : head_flag_reverse pat with
  | false =>
    simp only [Bool.false_eq_true, if_false, Bool.false_bne]
    rw [h.2, tr_bitmap_detect_zero, Bool.false_or]
  | true =>
    simp only [if_true, Bool.true_bne]
    rw [tr_bitmap_detect_xor _ b h.1, h.2, tr_bitmap_detect_zero, Bool.false_or]


theorem charVal_byteOfInt (c : Int) (h0 : -128 ≤ c) (h1 : c < 128) :
    charVal (byteOfInt c) = c := by
  unfold byteOfInt charVal Fin.ofNat
  simp only
  split <;> omega

/-- The value lookup as a set of characters: the characters the nodes stand for, or their
complement when the head node is flagged as negated. -/
theorem matched_eq (pat : List tr_pattern) (p : List Byte) (b : Byte) :
    matched pat p b = (head_flag_reverse pat ^^ decide (charVal b ∈ expand p pat)) := by
  unfold matched tr_find_character
  obtain ⟨h1, h2⟩ := tr_find_loop_mem p (charVal b) pat (-1) 0 (le_refl _)
  by_cases hin : charVal b ∈ expand p pat
  · have := h1 hin
    cases hf : head_flag_reverse pat with
    | false => simp [hin, this]
    | true =>
      simp only [if_true, hin, decide_True, Bool.true_bne, Bool.not_true]
      rw [if_neg (by omega)]
      decide
  · have := h2 hin
    cases hf : head_flag_reverse pat with
    | false => simp [hin, this]
    | true =>
      simp only [if_true, hin, decide_False, Bool.true_bne, Bool.not_false]
      rw [if_pos (by omega)]
      decide

/-- One node, in the bitmap and in the value lookup: every byte the bitmap holds for the
node is a character of the node, and a character of the node other than the upper end of
a range is in the bitmap. -/
theorem bitmap_chars_node (p : List Byte) (q : tr_pattern) (b : Byte)
    (hlo : q.type = TR_RANGE → -128 ≤ q.ch0) (hhi : q.type = TR_RANGE → q.ch1 < 128) :
    (b ∈ bitmap_chars p q → charVal b ∈ node_chars p q) ∧
    (charVal b ∈ node_chars p q → (q.type = TR_RANGE → charVal b ≠ q.ch1) →
      b ∈ bitmap_chars p q) := by
  unfold bitmap_chars node_chars
  cases ht : q.type with
  | TR_UNINITIALIZED => simp
  | TR_IN_ORDER =>
    simp only [List.mem_map, List.mem_range, charAt]
    constructor
    · rintro ⟨i, hi, he⟩
      exact ⟨i, hi, by rw [he]⟩
    · rintro ⟨i, hi, he⟩ _
      exact ⟨i, hi, (charVal_inj _ _).mp he⟩
  | TR_RANGE =>
    have h0 := hlo ht
    have h1 := hhi ht
    simp only [List.mem_map, List.mem_range]
    constructor
    · rintro ⟨k, hk, he⟩
      refine ⟨k, by omega, ?_⟩
      rw [← he, charVal_byteOfInt _ (by omega) (by omega)]
    · rintro ⟨k, hk, he⟩ hne
      have hne2 := hne trivial
      refine ⟨k, by omega, ?_⟩
      rw [he, byteOfInt_charVal]

/-- The range nodes of a parsed set hold two `char` values. -/
theorem parsed_range_bounds (p : List Byte) (enable : Bool) (pat : List tr_pattern)
    (hp : tr_parse_pattern p enable = some pat) :
    ∀ q ∈ pat, q.type = TR_RANGE → -128 ≤ q.ch0 ∧ q.ch1 < 128 := by
  obtain ⟨nodes, hpn, hs⟩ := tr_parse_pattern_some p enable pat hp
  intro q hq ht
  rw [hs] at hq
  rcases mem_ret_of nodes q hq with h | h
  · rw [h] at ht
    exact absurd ht (by decide)
  · rcases parsed_node_shape p _ _ false nodes hpn q h with
      ⟨k, oh, _, _, _, hqe⟩ | ⟨a, b, oh, _, _, _, _, _, _, hqe⟩
    · rw [hqe]
      exact ⟨charAt_ge _ _, charAt_lt _ _⟩
    · rw [hqe] at ht
      simp [in_order_node] at ht

theorem mem_flatMap_bitmap_chars (p : List Byte) (pat : List tr_pattern) (b : Byte)
    (hb : ∀ q ∈ pat, q.type = TR_RANGE → -128 ≤ q.ch0 ∧ q.ch1 < 128) :
    (b ∈ pat.flatMap (bitmap_chars p) → charVal b ∈ expand p pat) ∧
    (charVal b ∈ expand p pat → (∀ q ∈ pat, q.type = TR_RANGE → charVal b ≠ q.ch1) →
      b ∈ pat.flatMap (bitmap_chars p)) := by
  unfold expand
  simp only [List.mem_flatMap]
  constructor
  · rintro ⟨q, hq, hm⟩
    exact ⟨q, hq, (bitmap_chars_node p q b (fun ht => (hb q hq ht).1)
      (fun ht => (hb q hq ht).2)).1 hm⟩
  · rintro ⟨q, hq, hm⟩ hne
    exact ⟨q, hq, (bitmap_chars_node p q b (fun ht => (hb q hq ht).1)
      (fun ht => (hb q hq ht).2)).2 hm (hne q hq)⟩


/-! ## The bitmap of a spec and of its negation -/

theorem flatMap_bitmap_item_lits (f : Nat → Byte) (l : List Nat) :
    (l.map (fun k => spec_item.lit (f k))).flatMap bitmap_item = l.map f := by
  induction l with
  | nil => rfl
  | cons x xs ih =>
    rw [List.map_cons, List.flatMap_cons, ih]
    rfl

/-- The bytes the bitmap holds for the nodes of a scan are those of the items of the spec
from the position where the scan started (spec of at most 65535 bytes). -/
theorem parsed_bitmap_chars (pattern : List Byte) (fr : Bool)
    (hlen : pattern.length ≤ 65535) (i : Nat) (h : Bool) (nodes : List tr_pattern)
    (hp : Parsed pattern fr i h nodes) :
    nodes.flatMap (bitmap_chars pattern) = (spec_items (pattern.drop i)).flatMap bitmap_item := by
  induction hp with
  | done i h hi =>
    rw [List.drop_eq_nil_of_le hi]
    rfl
  | range i h rest hi hr hrest ih =>
    rw [List.flatMap_cons, ih, spec_items_drop_range pattern i hr, List.flatMap_cons]
    rfl
  | run i i1 h rest hi hr h1 h2 hmid hend hl hrest ih =>
    have hm : i + (i1 - i) = i1 := by omega
    have hs := spec_items_drop_run pattern (i1 - i) i (by omega) (by
      intro k hk1 hk2
      by_cases hki : k = i
      · rw [hki]; exact hr
      · exact hmid k (by omega) (by omega))
    rw [hm] at hs
    rw [List.flatMap_cons, ih, hs, List.flatMap_append, flatMap_bitmap_item_lits]
    congr 1
    simp only [bitmap_chars, in_order_node]
    rw [Nat.mod_eq_of_lt (by omega), Nat.mod_eq_of_lt (by omega)]

theorem flatMap_bitmap_chars_ret_of (p : List Byte) (nodes : List tr_pattern) :
    (ret_of nodes).flatMap (bitmap_chars p) = nodes.flatMap (bitmap_chars p) := by
  unfold ret_of
  by_cases h : nodes = []
  · rw [if_pos h, h]
    rfl
  · rw [if_neg h]

/-- The bitmap compiled from a spec of at most 65535 bytes, as a set of bytes: the bytes
of the items of the spec after its negation mark, or their complement when the spec is
negated. -/
theorem bitmap_member_spec (p : List Byte) (pat : List tr_pattern)
    (hp : tr_parse_pattern p true = some pat) (hlen : p.length ≤ 65535) (b : Byte) :
    bitmap_member pat p b
      = (is_reversed p true ^^
          decide (b ∈ (spec_items (spec_body p true)).flatMap bitmap_item)) := by
  obtain ⟨nodes, hpn, hs⟩ := tr_parse_pattern_some p true pat hp
  rw [bitmap_member_eq, head_flag_reverse_parsed p true pat hp, hs,
    flatMap_bitmap_chars_ret_of, parsed_bitmap_chars p _ hlen _ false nodes hpn]
  rfl


/-- Claim C28. The complement law for negation: for every byte string `s` and every
non-empty spec `X` of at most 65534 bytes that is not itself negated (`X` has length 1 or
does not begin with `^`), both `"^" + X` and `X` are accepted by the parser, the bitmap
compiled from `"^" + X` holds exactly the bytes the bitmap compiled from `X` does not
hold, and `str_count(s, "^" + X) + str_count(s, X)` is the length of `s`. -/
theorem C28_complement_law (s X : List Byte) (hX : X ≠ []) (hlen : X.length ≤ 65534)
    (hneg : X.length = 1 ∨ (byteAt X 0).val ≠ 94) :
    ∃ pat1 pat2 n m,
      tr_parse_pattern (94 :: X) true = some pat1 ∧ tr_parse_pattern X true = some pat2 ∧
      (∀ b : Byte, bitmap_member pat1 (94 :: X) b = !bitmap_member pat2 X b) ∧
      str_count s (94 :: X) = some n ∧ str_count s X = some m ∧ n + m = s.length := by
  have hpos : 0 < X.length := List.length_pos.mpr hX
  have hr1 : is_reversed (94 :: X) true = true := by
    rw [is_reversed_iff]
    refine ⟨rfl, by simp only [List.length_cons]; omega, rfl⟩
  have hr2 : is_reversed X true = false := by
    cases hc : is_reversed X true with
    | false => rfl
    | true =>
      have := (is_reversed_iff X true).mp hc
      omega
  obtain ⟨nodes1, _, hp1⟩ := tr_parse_pattern_short (94 :: X) true
    (by simp only [List.length_cons]; omega)
  obtain ⟨nodes2, _, hp2⟩ := tr_parse_pattern_short X true (by omega)
  have hcomp : ∀ b : Byte,
      bitmap_member (ret_of nodes1) (94 :: X) b = !bitmap_member (ret_of nodes2) X b := by
    intro b
    rw [bitmap_member_spec (94 :: X) _ hp1 (by simp only [List.length_cons]; omega) b,
      bitmap_member_spec X _ hp2 (by omega) b]
    have hb1 : spec_body (94 :: X) true = X := by
      unfold spec_body
      rw [hr1]
      rfl
    have hb2 : spec_body X true = X := by
      unfold spec_body
      rw [hr2]
      rfl
    rw [hb1, hb2, hr1, hr2]
    simp
  refine ⟨ret_of nodes1, ret_of nodes2,
    (s.filter (fun b => bitmap_member (ret_of nodes1) (94 :: X) b)).length,
    (s.filter (fun b => bitmap_member (ret_of nodes2) X b)).length, hp1, hp2, hcomp, ?_, ?_, ?_⟩
  · rw [str_count_spec, hp1]
    rfl
  · rw [str_count_spec, hp2]
    rfl
  · have h := List.length_eq_length_filter_add (l := s)
      (fun b => bitmap_member (ret_of nodes2) X b)
    have he : (fun b => bitmap_member (ret_of nodes1) (94 :: X) b)
        = (fun b => !bitmap_member (ret_of nodes2) X b) := funext hcomp
    rw [he]
    omega

/-- A use of `C28_complement_law`: in `"hello world"` the spec `"lo"` counts 5 bytes and
the spec `"^lo"` the other 6. -/
theorem C28_complement_law_witness :
    str_count (bytes "hello world") (bytes "^lo") = some 6 ∧
    str_count (bytes "hello world") (bytes "lo") = some 5 ∧
    ∃ pat1 pat2 n m,
      tr_parse_pattern (94 :: bytes "lo") true = some pat1 ∧
      tr_parse_pattern (bytes "lo") true = some pat2 ∧
      (∀ b : Byte, bitmap_member pat1 (94 :: bytes "lo") b = !bitmap_member pat2 (bytes "lo") b) ∧
      str_count (bytes "hello world") (94 :: bytes "lo") = some n ∧
      str_count (bytes "hello world") (bytes "lo") = some m ∧
      n + m = (bytes "hello world").length :=
  ⟨by decide, by decide,
    C28_complement_law (bytes "hello world") (bytes "lo") (by decide) (by decide)
      (Or.inr (by decide))⟩

/-! ## The bitmap against the value lookup -/

/-- Claim C23 (divergence). The bitmap and the value lookup do not agree on the upper end
of a range: `tr_compile_pattern` sets the bits of `ch[0] .. ch[1] - 1` (its loop runs on
`i < ch[1]`), `tr_find_character` matches `ch[0] .. ch[1]`. Against `"0-9"` the byte `9`
is matched by the lookup and its bit is not set, so `"2019".delete("0-9")` leaves `"9"`;
against `"^0-9"` the byte `9` is not matched and its bit is set. On every other byte the
two agree: for every spec parsed with negation enabled and every byte `b` that is not the
upper end of a range node of the set, bit `b` of the bitmap is set exactly when the value
lookup matches `b`; and for a spec that is not negated every byte of the bitmap is
matched by the lookup. -/
theorem C23_bitmap_misses_range_end :
    tr_parse_pattern (bytes "0-9") true = some [⟨TR_RANGE, false, false, 10, 0, 48, 57⟩] ∧
    matched [⟨TR_RANGE, false, false, 10, 0, 48, 57⟩] (bytes "0-9") 57 = true ∧
    bitmap_member [⟨TR_RANGE, false, false, 10, 0, 48, 57⟩] (bytes "0-9") 57 = false ∧
    str_delete (bytes "2019") (bytes "0-9") = str_result.returned (bytes "9") true ∧
    tr_parse_pattern (bytes "^0-9") true = some [⟨TR_RANGE, true, false, 10, 0, 48, 57⟩] ∧
    matched [⟨TR_RANGE, true, false, 10, 0, 48, 57⟩] (bytes "^0-9") 57 = false ∧
    bitmap_member [⟨TR_RANGE, true, false, 10, 0, 48, 57⟩] (bytes "^0-9") 57 = true ∧
    (∀ (p : List Byte) (pat : List tr_pattern) (b : Byte),
      tr_parse_pattern p true = some pat →
      (∀ q ∈ pat, q.type = TR_RANGE → charVal b ≠ q.ch1) →
      bitmap_member pat p b = matched pat p b) ∧
    (∀ (p : List Byte) (pat : List tr_pattern) (b : Byte),
      tr_parse_pattern p true = some pat → is_reversed p true = false →
      bitmap_member pat p b = true → matched pat p b = true) := by
  refine ⟨by decide, by decide, by decide, by decide, by decide, by decide, by decide, ?_, ?_⟩
  · intro p pat b hp hne
    have hm := mem_flatMap_bitmap_chars p pat b (parsed_range_bounds p true pat hp)
    rw [bitmap_member_eq, matched_eq]
    congr 1
    by_cases hin : charVal b ∈ expand p pat
    · simp [hin, hm.2 hin hne]
    · have : b ∉ pat.flatMap (bitmap_chars p) := fun hc => hin (hm.1 hc)
      simp [hin, this]
  · intro p pat b hp hr hb
    have hm := mem_flatMap_bitmap_chars p pat b (parsed_range_bounds p true pat hp)
    have hf := head_flag_reverse_parsed p true pat hp
    rw [hr] at hf
    rw [bitmap_member_eq, hf] at hb
    rw [matched_eq, hf]
    simp only [Bool.false_bne, decide_eq_true_eq] at hb ⊢
    exact hm.1 hb


/-! ## The start offset of a run -/

theorem tr_parse_loop_run_step (pattern : List Byte) (fr : Bool) (fuel i i1 : Nat)
    (ret : List tr_pattern) (hi : i < pattern.length) (hr : is_range pattern i = false)
    (hs : scan_in_order pattern pattern.length (i + 1) = i1) (hl : i1 - i ≤ UINT16_MAX) :
    tr_parse_loop pattern fr (fuel + 1) i ret
      = tr_parse_loop pattern fr fuel i1
          (link_pattern (ret_uninit ret) ret (in_order_node fr (!ret_uninit ret) i i1)) := by
  rw [tr_parse_loop]
  simp only [hi, if_true, hr, Bool.false_eq_true, if_false, hs]
  rw [if_neg (by omega)]

theorem tr_parse_loop_range_step (pattern : List Byte) (fr : Bool) (fuel i : Nat)
    (ret : List tr_pattern) (hi : i < pattern.length) (hr : is_range pattern i = true) :
    tr_parse_loop pattern fr (fuel + 1) i ret
      = tr_parse_loop pattern fr fuel (i + 3)
          (link_pattern (ret_uninit ret) ret (range_node pattern fr (!ret_uninit ret) i)) := by
  rw [tr_parse_loop]
  simp only [hi, if_true, hr]

theorem tr_parse_loop_end (pattern : List Byte) (fr : Bool) (fuel i : Nat)
    (ret : List tr_pattern) (hi : pattern.length ≤ i) :
    tr_parse_loop pattern fr fuel i ret = some ret := by
  cases fuel with
  | zero => rfl
  | succ fuel =>
    rw [tr_parse_loop, if_neg (by omega)]

theorem byteAt_replicate_append_lt (n k : Nat) (c : Byte) (tail : List Byte) (h : k < n) :
    byteAt (List.replicate n c ++ tail) k = c := by
  unfold byteAt
  rw [List.getD_append _ _ _ _ (by rw [List.length_replicate]; exact h),
    List.getD_eq_getElem _ _ (by rw [List.length_replicate]; exact h), List.getElem_replicate]

theorem byteAt_replicate_append_ge (n k : Nat) (c : Byte) (tail : List Byte) :
    byteAt (List.replicate n c ++ tail) (n + k) = tail.getD k 0 := by
  unfold byteAt
  rw [List.getD_append_right _ _ _ _ (by rw [List.length_replicate]; omega),
    List.length_replicate, Nat.add_sub_cancel_left]

theorem long_spec_length : long_spec.length = 65539 := by
  unfold long_spec
  rw [List.length_append, List.length_replicate]
  rfl

theorem byteAt_long_spec_lt (k : Nat) (h : k < 65535) : byteAt long_spec k = 97 :=
  byteAt_replicate_append_lt 65535 k 97 _ h

theorem byteAt_long_spec_ge (k : Nat) :
    byteAt long_spec (65535 + k) = ([98, 45, 99, 120] : List Byte).getD k 0 :=
  byteAt_replicate_append_ge 65535 k 97 _


theorem byteAt_long_spec_from (k : Nat) (h : 65535 ≤ k) :
    byteAt long_spec k = ([98, 45, 99, 120] : List Byte).getD (k - 65535) 0 := by
  have := byteAt_long_spec_ge (k - 65535)
  rw [Nat.add_sub_cancel' h] at this
  exact this

theorem is_range_long_spec (k : Nat) : is_range long_spec k = true ↔ k = 65535 := by
  rw [is_range_iff, long_spec_length]
  constructor
  · rintro ⟨h1, _, h3⟩
    by_contra hk
    by_cases ha : k + 1 < 65535
    · rw [byteAt_long_spec_lt _ ha] at h3
      exact absurd h3 (by decide)
    · rw [byteAt_long_spec_from _ (by omega)] at h3
      have hd : k + 1 - 65535 = 0 ∨ k + 1 - 65535 = 2 := by omega
      rcases hd with hd | hd <;> rw [hd] at h3 <;> exact absurd h3 (by decide)
  · intro hk
    subst hk
    refine ⟨by omega, ?_, ?_⟩
    · rw [byteAt_long_spec_from _ (le_refl _)]
      decide
    · rw [byteAt_long_spec_from _ (by omega)]
      decide

theorem is_range_long_spec_false (k : Nat) (hk : k ≠ 65535) : is_range long_spec k = false := by
  cases h : is_range long_spec k with
  | false => rfl
  | true => exact absurd ((is_range_long_spec k).mp h) hk

theorem scan_long_spec_first : scan_in_order long_spec long_spec.length 1 = 65535 := by
  have hL := long_spec_length
  obtain ⟨_, _, c, d⟩ := scan_in_order_spec long_spec long_spec.length 1 (by omega) (by omega)
  by_contra hne
  rcases Nat.lt_or_gt_of_ne hne with hlt | hgt
  · have := (is_range_long_spec _).mp (d (by omega))
    omega
  · have h1 := c 65535 (by omega) hgt
    rw [(is_range_long_spec 65535).mpr rfl] at h1
    exact absurd h1 (by decide)

theorem scan_long_spec_last : scan_in_order long_spec long_spec.length 65539 = 65539 := by
  have hL := long_spec_length
  obtain ⟨a, b, _, _⟩ := scan_in_order_spec long_spec long_spec.length 65539 (by omega)
    (by omega)
  omega

theorem range_node_long_spec :
    range_node long_spec false true 65535 = ⟨TR_RANGE, false, true, 2, 0, 98, 99⟩ := by
  unfold range_node charAt
  rw [byteAt_long_spec_from 65535 (le_refl _), byteAt_long_spec_from (65535 + 2) (by omega)]
  decide

/-- The parse of `long_spec`: the run of 65535 bytes, the range, and the run of `x`, whose
start offset 65538 is stored as `2`. -/
theorem tr_parse_pattern_long_spec :
    tr_parse_pattern long_spec true
      = some [⟨TR_IN_ORDER, false, false, 65535, 0, 0, 0⟩, ⟨TR_RANGE, false, true, 2, 0, 98, 99⟩,
          ⟨TR_IN_ORDER, false, true, 1, 2, 0, 0⟩] := by
  have hrev : is_reversed long_spec true = false := by
    cases hc : is_reversed long_spec true with
    | false => rfl
    | true =>
      have h := ((is_reversed_iff long_spec true).mp hc).2.2
      rw [byteAt_long_spec_lt 0 (by omega)] at h
      exact absurd h (by decide)
  unfold tr_parse_pattern
  simp only [hrev, Bool.false_eq_true, if_false]
  rw [long_spec_length]
  have e1 := tr_parse_loop_run_step long_spec false 65538 0 65535 [STATIC_TR_PATTERN]
    (by rw [long_spec_length]; omega) (is_range_long_spec_false 0 (by omega))
    scan_long_spec_first (by decide)
  have e2 := tr_parse_loop_range_step long_spec false 65537 65535
    [⟨TR_IN_ORDER, false, false, 65535, 0, 0, 0⟩]
    (by rw [long_spec_length]; omega) ((is_range_long_spec 65535).mpr rfl)
  have e3 := tr_parse_loop_run_step long_spec false 65536 65538 65539
    [⟨TR_IN_ORDER, false, false, 65535, 0, 0, 0⟩, ⟨TR_RANGE, false, true, 2, 0, 98, 99⟩]
    (by rw [long_spec_length]; omega) (is_range_long_spec_false 65538 (by omega))
    scan_long_spec_last (by decide)
  have e4 := tr_parse_loop_end long_spec false 65536 65539
    [⟨TR_IN_ORDER, false, false, 65535, 0, 0, 0⟩, ⟨TR_RANGE, false, true, 2, 0, 98, 99⟩,
      ⟨TR_IN_ORDER, false, true, 1, 2, 0, 0⟩]
    (by rw [long_spec_length])
  have l1 : link_pattern (ret_uninit [STATIC_TR_PATTERN]) [STATIC_TR_PATTERN]
      (in_order_node false (!ret_uninit [STATIC_TR_PATTERN]) 0 65535)
      = [⟨TR_IN_ORDER, false, false, 65535, 0, 0, 0⟩] := by decide
  have l2 : link_pattern (ret_uninit [⟨TR_IN_ORDER, false, false, 65535, 0, 0, 0⟩])
      [⟨TR_IN_ORDER, false, false, 65535, 0, 0, 0⟩]
      (range_node long_spec false (!ret_uninit [⟨TR_IN_ORDER, false, false, 65535, 0, 0, 0⟩]) 65535)
      = [⟨TR_IN_ORDER, false, false, 65535, 0, 0, 0⟩, ⟨TR_RANGE, false, true, 2, 0, 98, 99⟩] := by
    have hu : ret_uninit [⟨TR_IN_ORDER, false, false, 65535, 0, 0, 0⟩] = false := by decide
    rw [hu]
    show link_pattern false _ (range_node long_spec false true 65535) = _
    rw [range_node_long_spec]
    rfl
  have l3 : link_pattern
      (ret_uninit
        [⟨TR_IN_ORDER, false, false, 65535, 0, 0, 0⟩, ⟨TR_RANGE, false, true, 2, 0, 98, 99⟩])
      [⟨TR_IN_ORDER, false, false, 65535, 0, 0, 0⟩, ⟨TR_RANGE, false, true, 2, 0, 98, 99⟩]
      (in_order_node false
        (!ret_uninit
          [⟨TR_IN_ORDER, false, false, 65535, 0, 0, 0⟩, ⟨TR_RANGE, false, true, 2, 0, 98, 99⟩])
        65538 65539)
      = [⟨TR_IN_ORDER, false, false, 65535, 0, 0, 0⟩, ⟨TR_RANGE, false, true, 2, 0, 98, 99⟩,
          ⟨TR_IN_ORDER, false, true, 1, 2, 0, 0⟩] := by decide
  rw [l1] at e1
  rw [l2] at e2
  rw [l3] at e3
  exact e1.trans (e2.trans (e3.trans e4))


theorem node_chars_long_spec_run (c : Int)
    (hc : c ∈ node_chars long_spec ⟨TR_IN_ORDER, false, false, 65535, 0, 0, 0⟩) : c = 97 := by
  simp only [node_chars, List.mem_map, List.mem_range] at hc
  obtain ⟨i, hi, he⟩ := hc
  rw [← he, Nat.zero_add]
  unfold charAt
  rw [byteAt_long_spec_lt i hi]
  decide

theorem node_chars_long_spec_last :
    node_chars long_spec ⟨TR_IN_ORDER, false, true, 1, 2, 0, 0⟩ = [97] := by
  have hr1 : List.range 1 = [0] := rfl
  simp only [node_chars, hr1, List.map_cons, List.map_nil]
  unfold charAt
  rw [byteAt_long_spec_lt (2 + 0) (by omega)]
  decide

theorem bitmap_chars_long_spec_run (b : Byte)
    (hb : b ∈ bitmap_chars long_spec ⟨TR_IN_ORDER, false, false, 65535, 0, 0, 0⟩) : b = 97 := by
  simp only [bitmap_chars, List.mem_map, List.mem_range] at hb
  obtain ⟨i, hi, he⟩ := hb
  rw [← he, Nat.zero_add]
  exact byteAt_long_spec_lt i hi

theorem bitmap_chars_long_spec_last :
    bitmap_chars long_spec ⟨TR_IN_ORDER, false, true, 1, 2, 0, 0⟩ = [97] := by
  have hr1 : List.range 1 = [0] := rfl
  simp only [bitmap_chars, hr1, List.map_cons, List.map_nil]
  rw [byteAt_long_spec_lt (2 + 0) (by omega)]

/-- The shape of the in-order nodes of every accepted spec: the node of the run absorbed
at the positions `a .. b - 1` holds the count `b - a` and the start offset `a` reduced
modulo `2^16`. -/
theorem parsed_in_order_slice (p : List Byte) (enable : Bool) (pat : List tr_pattern)
    (hp : tr_parse_pattern p enable = some pat) :
    ∀ q ∈ pat, q.type = TR_IN_ORDER →
      ∃ a b, a < b ∧ b ≤ p.length ∧ (∀ x, a ≤ x → x < b → is_range p x = false) ∧
        (b < p.length → is_range p b = true) ∧ q.n = b - a ∧ q.start_pos = a % 65536 := by
  obtain ⟨nodes, hpn, hs⟩ := tr_parse_pattern_some p enable pat hp
  intro q hq ht
  rw [hs] at hq
  rcases mem_ret_of nodes q hq with h | h
  · rw [h] at ht
    exact absurd ht (by decide)
  · rcases parsed_node_shape p _ _ false nodes hpn q h with
      ⟨k, oh, _, _, _, hqe⟩ | ⟨a, b, oh, _, hab, hb, hl, hmid, hend, hqe⟩
    · rw [hqe] at ht
      simp [range_node] at ht
    · refine ⟨a, b, hab, hb, hmid, hend, ?_, ?_⟩
      · rw [hqe]
        show (b - a) % 65536 = b - a
        unfold UINT16_MAX at hl
        omega
      · rw [hqe]
        rfl

/-- Claim C24 (divergence). The start offset of a run is stored in a `uint16_t` and so
reduced modulo `2^16`: for every accepted spec the node of the run absorbed at the
positions `a .. b - 1` holds the count `b - a` and the start offset `a % 65536`, which is
the slice absorbed only when `a < 65536`. The spec `long_spec` (65535 bytes `a`, then
`b-cx`) is accepted; its byte `x` at the offset 65538 is absorbed as a run of its own, and
the node of that run holds the start offset `2`, where the spec holds `a`. So the value
lookup does not match `x` and `"x".count(long_spec)` is `0`, while `"x".count("b-cx")`
is `1`. -/
theorem C24_start_pos_truncated :
    long_spec.length = 65539 ∧
    tr_parse_pattern long_spec true
      = some [⟨TR_IN_ORDER, false, false, 65535, 0, 0, 0⟩, ⟨TR_RANGE, false, true, 2, 0, 98, 99⟩,
          ⟨TR_IN_ORDER, false, true, 1, 2, 0, 0⟩] ∧
    byteAt long_spec 65538 = 120 ∧ is_range long_spec 65538 = false ∧
    in_order_node false true 65538 65539 = ⟨TR_IN_ORDER, false, true, 1, 2, 0, 0⟩ ∧
    node_chars long_spec ⟨TR_IN_ORDER, false, true, 1, 2, 0, 0⟩ = [97] ∧
    matched [⟨TR_IN_ORDER, false, false, 65535, 0, 0, 0⟩, ⟨TR_RANGE, false, true, 2, 0, 98, 99⟩,
        ⟨TR_IN_ORDER, false, true, 1, 2, 0, 0⟩] long_spec 120 = false ∧
    str_count [120] long_spec = some 0 ∧
    str_count [120] (bytes "b-cx") = some 1 ∧
    (∀ (p : List Byte) (enable : Bool) (pat : List tr_pattern),
      tr_parse_pattern p enable = some pat →
      ∀ q ∈ pat, q.type = TR_IN_ORDER →
        ∃ a b, a < b ∧ b ≤ p.length ∧ (∀ x, a ≤ x → x < b → is_range p x = false) ∧
          (b < p.length → is_range p b = true) ∧ q.n = b - a ∧ q.start_pos = a % 65536) := by
  have hx : byteAt long_spec 65538 = 120 := by
    rw [byteAt_long_spec_from 65538 (by omega)]
    decide
  have hm : matched [⟨TR_IN_ORDER, false, false, 65535, 0, 0, 0⟩,
      ⟨TR_RANGE, false, true, 2, 0, 98, 99⟩, ⟨TR_IN_ORDER, false, true, 1, 2, 0, 0⟩]
      long_spec 120 = false := by
    rw [matched_eq]
    have hin : charVal 120 ∉ expand long_spec [⟨TR_IN_ORDER, false, false, 65535, 0, 0, 0⟩,
        ⟨TR_RANGE, false, true, 2, 0, 98, 99⟩, ⟨TR_IN_ORDER, false, true, 1, 2, 0, 0⟩] := by
      rw [expand_cons, expand_cons, expand_cons, node_chars_long_spec_last]
      intro hc
      rcases List.mem_append.mp hc with h | h
      · exact absurd (node_chars_long_spec_run _ h) (by decide)
      · rcases List.mem_append.mp h with h | h
        · have h2 : node_chars long_spec ⟨TR_RANGE, false, true, 2, 0, 98, 99⟩ = [98, 99] := by
            decide
          rw [h2] at h
          exact absurd h (by decide)
        · exact absurd h (by decide)
    simp only [hin, decide_False, Bool.bne_false]
    rfl
  have hbm : bitmap_member [⟨TR_IN_ORDER, false, false, 65535, 0, 0, 0⟩,
      ⟨TR_RANGE, false, true, 2, 0, 98, 99⟩, ⟨TR_IN_ORDER, false, true, 1, 2, 0, 0⟩]
      long_spec 120 = false := by
    rw [bitmap_member_eq]
    have hin : (120 : Byte) ∉ ([⟨TR_IN_ORDER, false, false, 65535, 0, 0, 0⟩,
        ⟨TR_RANGE, false, true, 2, 0, 98, 99⟩,
        ⟨TR_IN_ORDER, false, true, 1, 2, 0, 0⟩] : List tr_pattern).flatMap
          (bitmap_chars long_spec) := by
      rw [List.flatMap_cons, List.flatMap_cons, List.flatMap_cons, bitmap_chars_long_spec_last]
      intro hc
      rcases List.mem_append.mp hc with h | h
      · exact absurd (bitmap_chars_long_spec_run _ h) (by decide)
      · rcases List.mem_append.mp h with h | h
        · have h2 : bitmap_chars long_spec ⟨TR_RANGE, false, true, 2, 0, 98, 99⟩ = [98] := by
            decide
          rw [h2] at h
          exact absurd h (by decide)
        · exact absurd h (by decide)
    simp only [hin, decide_False, Bool.bne_false]
    rfl
  refine ⟨long_spec_length, tr_parse_pattern_long_spec, hx,
    is_range_long_spec_false 65538 (by omega), by decide, node_chars_long_spec_last, hm, ?_,
    by decide, parsed_in_order_slice⟩
  rw [str_count_spec, tr_parse_pattern_long_spec]
  simp only [Option.map_some', List.filter_cons, hbm, Bool.false_eq_true, if_false,
    List.filter_nil, List.length_nil]

end MrubyStringExt
